import Mathlib

/-!
Verification development for the `iscoinalpha1` EOSIO token contract
(`src/iscoinalpha1/src/iscoinalpha1.cpp`, `.../include/iscoinalpha1/iscoinalpha1.hpp`).

Modelling conventions, following the specification's own design notes:

* Machine integers (`int64_t` amounts, `uint16_t` boost counters,
  `uint32_t` times) are modelled as `Int`/`Nat`.  All values reached in
  the guarded execution paths stay far inside the 64-bit range (amounts
  are bounded by `asset::max_amount = 2^62 - 1`, which the contract's
  `is_valid()` checks enforce), so wrap-around is not modelled.
* Floating-point expressions (`transaction_fee = 0.01`,
  `transaction_fee_to_stakers = 0.7`, `ISSUE_PROPORTION = 0.75`,
  `boost_proportion() = 0.25`, the per-staker `proportion`) are modelled
  as exact rational arithmetic, truncated toward zero (the semantics of
  the C++ `(int64_t)` cast) at exactly the places the source casts to an
  integer.  Since a product of an integer with a rational `p/q` truncates
  to `Int.tdiv (a * p) q`, the embedding is integer-valued throughout.
* The transcendental factor `exp(boost_lambda*next_boost)/boost_divisor`
  of `update_boost` is passed in as an abstract rational parameter
  `fn / fd` (every IEEE float value is a rational, so this covers every
  value the float subexpression can take).
* External collaborators are omitted, as the specification excludes
  them: authorization (`require_auth`, `has_auth`), notification
  (`require_recipient`), RAM billing (`ram_payer` arguments), printing,
  and the deferred-transaction rescheduling at the end of `update`.
  Account existence (`is_account`) is modelled by an explicit list of
  existing chain accounts.
* Each `eosio_assert` becomes an `Except.error` with a constructor named
  after the assert's message; `eosio::asset` addition (`+=`) carries its
  own symbol-match and overflow asserts, which are modelled in
  `assetAdd`.
-/

namespace AlphaToken

instance instDecEqExcept {ε α : Type} [DecidableEq ε] [DecidableEq α] :
    DecidableEq (Except ε α)
  | .ok a, .ok b =>
    if h : a = b then .isTrue (by rw [h]) else
      .isFalse (fun hc => by injection hc; contradiction)
  | .ok _, .error _ => .isFalse (fun hc => Except.noConfusion hc)
  | .error _, .ok _ => .isFalse (fun hc => Except.noConfusion hc)
  | .error e, .error e' =>
    if h : e = e' then .isTrue (by rw [h]) else
      .isFalse (fun hc => by injection hc; contradiction)

/-- An EOSIO account name (`eosio::name`), modelled by its raw value. -/
abbrev Name := Nat

/-- `eosio::symbol`: a symbol code (raw `uint64` holding up to 7
uppercase characters) together with a decimal precision. -/
structure Sym where
  code : Nat
  precision : Nat
deriving DecidableEq

/-- `eosio::asset`: a signed 64-bit amount tagged with a symbol. -/
structure Asset where
  amount : Int
  symbol : Sym
deriving DecidableEq

/-- `eosio::asset::max_amount = (1 << 62) - 1`. -/
def maxAssetAmount : Int := 2 ^ 62 - 1

/-- Byte `i` of a raw symbol code. -/
def symbolByte (c : Nat) (i : Nat) : Nat := c / 256 ^ i % 256

/-- Is the byte an uppercase letter `A`..`Z`? -/
def isUpper (b : Nat) : Bool := decide (65 ≤ b ∧ b ≤ 90)

/-- `eosio::symbol_code::is_valid` tail: each byte is either the start of
the zero padding (all following bytes must be zero) or a letter. -/
def validTail : List Nat → Bool
  | [] => true
  | b :: bs => if b = 0 then bs.all (fun x => decide (x = 0)) else isUpper b && validTail bs

/-- `eosio::symbol_code::is_valid`: the first byte is a letter, the
remaining six bytes are letters followed by zero padding. -/
def symCodeValid (c : Nat) : Bool :=
  isUpper (symbolByte c 0) && validTail ((List.range 6).map (fun i => symbolByte c (i + 1)))

/-- `eosio::asset::is_valid`: amount within range and symbol valid. -/
def assetValid (a : Asset) : Bool :=
  decide (-maxAssetAmount ≤ a.amount) && decide (a.amount ≤ maxAssetAmount)
    && symCodeValid a.symbol.code

/-- Row of the `stat` table (`currency_stats`), keyed by
`supply.symbol.code()`. -/
structure CurrencyStats where
  supply : Asset
  max_supply : Asset
  created : Nat
  updated : Nat
  boosts : Nat
deriving DecidableEq

/-- Row of the `stakes` table (scoped per owner), keyed by `id`. -/
structure StakeRecord where
  id : Nat
  quantity : Asset
  start : Nat
  duration_index : Nat
deriving DecidableEq

/-- Row of the `stakestats` table (scoped per symbol code), keyed by the
staker's name. -/
structure StakeStat where
  staker : Name
  total_stake : Asset
  stake_weight : Int
deriving DecidableEq

/-- The contract's persistent state: the four `multi_index` tables, plus
the set of existing chain accounts (for `is_account`).  Table rows are
kept in lists; `find` returns the first row whose key matches, `modify`
rewrites that row, `emplace` appends, matching the unique-key discipline
of `eosio::multi_index`. -/
structure Chain where
  chainAccounts : List Name
  balances : List (Name × Asset)
  stats : List CurrencyStats
  stakes : List (Name × StakeRecord)
  stakestats : List (Nat × StakeStat)
deriving DecidableEq

/-- One constructor per distinct `eosio_assert` in the source (doc note
gives the C++ message). -/
inductive TErr where
  | invalidSymbolName      -- invalid symbol name
  | invalidSupply          -- invalid supply
  | maxSupplyNotPositive   -- max-supply must be positive
  | symbolAlreadyExists    -- token with symbol already exists
  | selfTransfer           -- cannot transfer to self
  | toAccountMissing       -- to account does not exist
  | statsRowMissing        -- statstable.get default assert (transfer / add_stake)
  | invalidQuantity        -- invalid quantity
  | transferNotPositive    -- must transfer positive quantity
  | precisionMismatch      -- symbol precision mismatch
  | memoTooLong            -- memo has more than 256 bytes
  | symbolMissingIssue     -- token with symbol does not exist, create token before issue
  | issueNotPositive       -- must issue positive quantity
  | supplyExceeded         -- quantity exceeds available supply
  | noBalanceObject        -- no balance object found
  | overdrawnUnstaked      -- overdrawn unstaked balance
  | symbolMissingOpen      -- symbol does not exist
  | accountRowMissing      -- accountstable.get default assert (get_balance)
  | balanceRowMissing      -- close: balance row already deleted or never existed
  | nonZeroBalance         -- close: cannot close because the balance is not zero
  | stakerAccountMissing   -- staker account does not exist
  | durationIndexOOB       -- duration_index out of bounds
  | stakeNotPositive       -- must stake positive quantity
  | symbolMissingUpdate    -- update_boost: token with symbol does not exist.
  | assetSymbolMismatch    -- eosio::asset +: attempt to add asset with different symbol
  | assetOverflow          -- eosio::asset +: addition overflow / underflow
deriving DecidableEq

/-! ### Contract constants (iscoinalpha1.hpp) -/

def ONE_MINUTE : Nat := 60

/-- `stake_count = 6`. -/
def stakeCount : Nat := 6

/-- `stake_durations` (seconds; the header uses short test durations). -/
def stakeDurations : List Nat :=
  [ONE_MINUTE, 3 * ONE_MINUTE, 6 * ONE_MINUTE, 12 * ONE_MINUTE,
   12 * 2 * ONE_MINUTE, 12 * 5 * ONE_MINUTE]

/-- `stake_weights`. -/
def stakeWeights : List Int := [50, 60, 75, 100, 100, 100]

/-- `boost_interval = ONE_MINUTE * 2`. -/
def boostInterval : Nat := ONE_MINUTE * 2

/-- `boost_count = 312`. -/
def boostCount : Nat := 312

/-! ### Generic first-match table operations -/

/-- Rewrite the first element satisfying `p` (the row `modify` targets). -/
def mfirst (p : α → Bool) (f : α → α) : List α → List α
  | [] => []
  | x :: xs => if p x then f x :: xs else x :: mfirst p f xs

/-- Erase the first element satisfying `p` (the row `erase` targets). -/
def efirst (p : α → Bool) : List α → List α
  | [] => []
  | x :: xs => if p x then xs else x :: efirst p xs

/-! ### Table accessors -/

/-- Key predicate of an `accounts` row: owner scope plus symbol-code key. -/
def balKey (owner : Name) (code : Nat) (r : Name × Asset) : Bool :=
  decide (r.1 = owner) && decide (r.2.symbol.code = code)

def findBalance (ch : Chain) (owner : Name) (code : Nat) : Option Asset :=
  (ch.balances.find? (balKey owner code)).map (fun r => r.2)

def setBalance (ch : Chain) (owner : Name) (code : Nat) (b : Asset) : Chain :=
  { ch with balances := mfirst (balKey owner code) (fun _ => (owner, b)) ch.balances }

def eraseBalance (ch : Chain) (owner : Name) (code : Nat) : Chain :=
  { ch with balances := efirst (balKey owner code) ch.balances }

/-- The balance amount of `(owner, code)`, `0` when no row exists (a
specification-side accessor used to state balance-change facts). -/
def balD (ch : Chain) (owner : Name) (code : Nat) : Int :=
  ((findBalance ch owner code).map (fun b => b.amount)).getD 0

/-- Key predicate of a `stat` row (keyed by `supply.symbol.code()`). -/
def statKey (code : Nat) (st : CurrencyStats) : Bool :=
  decide (st.supply.symbol.code = code)

def lookupStats (ch : Chain) (code : Nat) : Option CurrencyStats :=
  ch.stats.find? (statKey code)

def setStats (ch : Chain) (code : Nat) (st' : CurrencyStats) : Chain :=
  { ch with stats := mfirst (statKey code) (fun _ => st') ch.stats }

/-- Key predicate of a `stakestats` row: symbol-code scope plus staker key. -/
def ssKey (code : Nat) (staker : Name) (r : Nat × StakeStat) : Bool :=
  decide (r.1 = code) && decide (r.2.staker = staker)

def findStakeStat (ch : Chain) (code : Nat) (staker : Name) : Option StakeStat :=
  (ch.stakestats.find? (ssKey code staker)).map (fun r => r.2)

def setStakeStat (ch : Chain) (code : Nat) (staker : Name) (st' : StakeStat) : Chain :=
  { ch with stakestats := mfirst (ssKey code staker) (fun _ => (code, st')) ch.stakestats }

/-- All `stakestats` rows in the scope of a symbol code, in table order
(what `distribute` and `update_stakes` iterate over). -/
def stakeStatsFor (ch : Chain) (code : Nat) : List StakeStat :=
  ch.stakestats.filterMap (fun r => if r.1 = code then some r.2 else none)

/-- Total stake weight of a symbol: `Σ stake_weight` over the scope. -/
def totalWeightFor (ch : Chain) (code : Nat) : Int :=
  ((stakeStatsFor ch code).map (fun st => st.stake_weight)).sum

/-- The stake records of one owner (the owner-scoped `stakes` table). -/
def ownerRecords (ch : Chain) (owner : Name) : List StakeRecord :=
  ch.stakes.filterMap (fun p => if p.1 = owner then some p.2 else none)

/-- `available_primary_key()` on an owner's `stakes` table: `0` when
empty, otherwise largest id plus one. -/
def availablePrimaryKey (ch : Chain) (owner : Name) : Nat :=
  match ownerRecords ch owner with
  | [] => 0
  | r :: rs => ((r :: rs).map (fun s => s.id)).foldl Nat.max 0 + 1

/-- Sum of all account balances carrying a symbol code (the
specification-side quantity of the conservation invariant). -/
def balanceSum (ch : Chain) (code : Nat) : Int :=
  (ch.balances.map (fun r => if r.2.symbol.code = code then r.2.amount else 0)).sum

/-- Sum of the stake-record amounts of one owner for one symbol code. -/
def recordSum (ch : Chain) (code : Nat) (owner : Name) : Int :=
  (ch.stakes.map (fun p =>
    if p.1 = owner ∧ p.2.quantity.symbol.code = code then p.2.quantity.amount else 0)).sum

/-! ### Asset arithmetic -/

/-- `eosio::asset` addition (`operator+=`): asserts matching symbols,
then asserts the result stays within `±max_amount`. -/
def assetAdd (a b : Asset) : Except TErr Asset :=
  if a.symbol = b.symbol then
    if -maxAssetAmount ≤ a.amount + b.amount ∧ a.amount + b.amount ≤ maxAssetAmount then
      .ok ⟨a.amount + b.amount, a.symbol⟩
    else .error .assetOverflow
  else .error .assetSymbolMismatch

/-! ### Contract functions -/

/-- `token::get_balance` (header): `accountstable.get(sym_code.raw())`,
which asserts when the row is absent. -/
def get_balance (ch : Chain) (owner : Name) (code : Nat) : Except TErr Asset :=
  match findBalance ch owner code with
  | none => .error .accountRowMissing
  | some b => .ok b

/-- `token::get_stake`: the staker's `stakestats` row's `total_stake`,
or a zero asset when there is no row. -/
def get_stake (ch : Chain) (staker : Name) (sym : Sym) : Asset :=
  match findStakeStat ch sym.code staker with
  | none => ⟨0, sym⟩
  | some st => st.total_stake

/-- `token::get_stake_weight`: the row's `stake_weight`, or `0`. -/
def get_stake_weight (ch : Chain) (staker : Name) (sym : Sym) : Int :=
  match findStakeStat ch sym.code staker with
  | none => 0
  | some st => st.stake_weight

/-- `token::get_unstaked_balance`: `get_balance - get_stake` (aborts via
`get_balance` when the owner has no balance row). -/
def get_unstaked_balance (ch : Chain) (owner : Name) (sym : Sym) : Except TErr Asset := do
  let balance ← get_balance ch owner sym.code
  let stake := get_stake ch owner sym
  .ok ⟨balance.amount - stake.amount, sym⟩

/-- `token::add_balance`: credit `value`, creating the row when absent
(`emplace`) and otherwise adding via `asset::operator+=`. -/
def add_balance (ch : Chain) (owner : Name) (value : Asset) : Except TErr Chain :=
  match findBalance ch owner value.symbol.code with
  | none => .ok { ch with balances := ch.balances ++ [(owner, value)] }
  | some b => do
      let b' ← assetAdd b value
      .ok (setBalance ch owner value.symbol.code b')

/-- The credit loop of `token::distribute`: for each staker in table
order, credit `trunc(quantity.amount * (stake_weight / total_weight))`
(exact rational arithmetic: `Int.tdiv (q * w) W`) and accumulate the
amount distributed. -/
def creditShares (ch : Chain) (sym : Sym) (q : Int) (totalWeight : Int) :
    List StakeStat → Except TErr (Int × Chain)
  | [] => .ok (0, ch)
  | st :: rest => do
      let amountForStaker := Int.tdiv (q * st.stake_weight) totalWeight
      let ch1 ← add_balance ch st.staker ⟨amountForStaker, sym⟩
      let rc ← creditShares ch1 sym q totalWeight rest
      .ok (amountForStaker + rc.1, rc.2)

/-- `token::distribute`: split `quantity` across the symbol's stakers
proportionally to `stake_weight`; returns the amount actually
distributed (`0` immediately when the total weight is zero). -/
def distribute (ch : Chain) (quantity : Asset) : Except TErr (Int × Chain) :=
  let rows := stakeStatsFor ch quantity.symbol.code
  let totalWeight := (rows.map (fun st => st.stake_weight)).sum
  if totalWeight = 0 then .ok (0, ch)
  else creditShares ch quantity.symbol quantity.amount totalWeight rows

/-- `token::sub_balance`: debit `value.amount` plus the 1% transaction
fee from the owner's unstaked balance, hand 70% of the fee to
`distribute`, and credit any undistributed remainder to the contract
account `self`.  `fee = (int64_t)(value.amount * 0.01)` is
`Int.tdiv value.amount 100`; the stakers' part
`(int64_t)(0.7 * fee)` is `Int.tdiv (7 * fee) 10`. -/
def sub_balance (self : Name) (ch : Chain) (owner : Name) (value : Asset) :
    Except TErr Chain :=
  match findBalance ch owner value.symbol.code with
  | none => .error .noBalanceObject
  | some fromBal =>
    let stake := get_stake ch owner value.symbol
    let fee := Int.tdiv value.amount 100
    let total := value.amount + fee
    if fromBal.amount - stake.amount < total then .error .overdrawnUnstaked
    else do
      let ch1 := setBalance ch owner value.symbol.code
        ⟨fromBal.amount - total, fromBal.symbol⟩
      let stakersPart := Int.tdiv (7 * fee) 10
      let rc ← distribute ch1 ⟨stakersPart, value.symbol⟩
      let remaining := fee - rc.1
      if 0 < remaining then add_balance rc.2 self ⟨remaining, value.symbol⟩
      else .ok rc.2

/-- `token::issue` (internal action): checks, add to supply, credit the
contract's own account. -/
def issue (self : Name) (ch : Chain) (quantity : Asset) : Except TErr Chain :=
  if ¬ symCodeValid quantity.symbol.code then .error .invalidSymbolName
  else
    match lookupStats ch quantity.symbol.code with
    | none => .error .symbolMissingIssue
    | some st =>
      if ¬ assetValid quantity then .error .invalidQuantity
      else if ¬ 0 < quantity.amount then .error .issueNotPositive
      else if ¬ quantity.symbol = st.supply.symbol then .error .precisionMismatch
      else if st.max_supply.amount - st.supply.amount < quantity.amount then
        .error .supplyExceeded
      else do
        let supply' ← assetAdd st.supply quantity
        add_balance (setStats ch quantity.symbol.code { st with supply := supply' })
          self quantity

/-- `token::create`: validate, emplace the `currency_stats` row
(`supply = 0`, `created = updated = now`, `boosts = 0`), then
immediately `issue((int64_t)(maximum_supply.amount * 0.75))` —
`Int.tdiv (3 * amount) 4` — to the contract account. -/
def create (now : Nat) (self : Name) (ch : Chain) (maximum_supply : Asset) :
    Except TErr Chain :=
  if ¬ symCodeValid maximum_supply.symbol.code then .error .invalidSymbolName
  else if ¬ assetValid maximum_supply then .error .invalidSupply
  else if ¬ 0 < maximum_supply.amount then .error .maxSupplyNotPositive
  else
    match lookupStats ch maximum_supply.symbol.code with
    | some _ => .error .symbolAlreadyExists
    | none =>
      let ch1 := { ch with stats := ch.stats ++
        [{ supply := ⟨0, maximum_supply.symbol⟩
           max_supply := maximum_supply
           created := now
           updated := now
           boosts := 0 }] }
      let issueAmount := Int.tdiv (3 * maximum_supply.amount) 4
      issue self ch1 ⟨issueAmount, maximum_supply.symbol⟩

/-- `token::transfer`: checks in source order, then `sub_balance(from)`
followed by `add_balance(to)`. -/
def transfer (self : Name) (ch : Chain) (frm toN : Name) (quantity : Asset)
    (memo : List Char) : Except TErr Chain :=
  if frm = toN then .error .selfTransfer
  else if ¬ toN ∈ ch.chainAccounts then .error .toAccountMissing
  else
    match lookupStats ch quantity.symbol.code with
    | none => .error .statsRowMissing
    | some st =>
      if ¬ assetValid quantity then .error .invalidQuantity
      else if ¬ 0 < quantity.amount then .error .transferNotPositive
      else if ¬ quantity.symbol = st.supply.symbol then .error .precisionMismatch
      else if ¬ memo.length ≤ 256 then .error .memoTooLong
      else do
        let ch1 ← sub_balance self ch frm quantity
        add_balance ch1 toN quantity

/-- `token::add_stake` (the body shared by `addstake` and
`transferstkd`): checks, emplace the new stake record with
`start = now`, then create or update the staker's `stakestats` row.
Note the source adds just `stake_weights[duration_index]` to
`stake_weight` (no multiplication by the amount). -/
def add_stake (now : Nat) (ch : Chain) (staker : Name) (quantity : Asset)
    (duration_index : Nat) : Except TErr Chain :=
  if ¬ staker ∈ ch.chainAccounts then .error .stakerAccountMissing
  else if ¬ duration_index < stakeCount then .error .durationIndexOOB
  else
    match lookupStats ch quantity.symbol.code with
    | none => .error .statsRowMissing
    | some st =>
      if ¬ assetValid quantity then .error .invalidQuantity
      else if ¬ 0 < quantity.amount then .error .stakeNotPositive
      else if ¬ quantity.symbol = st.supply.symbol then .error .precisionMismatch
      else do
        let unstaked ← get_unstaked_balance ch staker quantity.symbol
        if unstaked.amount < quantity.amount then .error .overdrawnUnstaked
        else
          let newId := availablePrimaryKey ch staker
          let ch1 := { ch with stakes := ch.stakes ++
            [(staker, { id := newId, quantity := quantity, start := now
                        duration_index := duration_index })] }
          let weight := stakeWeights.getD duration_index 0
          match findStakeStat ch1 quantity.symbol.code staker with
          | none => .ok { ch1 with stakestats := ch1.stakestats ++
              [(quantity.symbol.code,
                { staker := staker, total_stake := quantity, stake_weight := weight })] }
          | some stat => do
              let ts ← assetAdd stat.total_stake quantity
              .ok (setStakeStat ch1 quantity.symbol.code staker
                { stat with total_stake := ts
                            stake_weight := stat.stake_weight + weight })

/-- `token::addstake` action (authorization is external). -/
def addstake (now : Nat) (ch : Chain) (staker : Name) (quantity : Asset)
    (duration_index : Nat) : Except TErr Chain :=
  add_stake now ch staker quantity duration_index

/-- `token::transferstkd`.  Modelled from the spec: the
`SEND_INLINE_ACTION` dispatch is `eosiolib` platform code outside this
repository; per the specification (§4.6) the combined action is
"executed as transfer followed immediately by `add_stake` on the
recipient, using the recipient's own post-transfer balance as the stake
source". -/
def transferstkd (now : Nat) (self : Name) (ch : Chain) (frm toN : Name)
    (quantity : Asset) (memo : List Char) (duration_index : Nat) : Except TErr Chain := do
  let ch1 ← transfer self ch frm toN quantity memo
  add_stake now ch1 toN quantity duration_index

/-- The specification's description of the combined transfer-then-stake
action, written from the spec's words for the refinement comparison:
a `transfer` whose resulting state feeds an `add_stake` by the
recipient for the same quantity. -/
def transferThenStake (now : Nat) (self : Name) (ch : Chain) (frm toN : Name)
    (quantity : Asset) (memo : List Char) (duration_index : Nat) : Except TErr Chain :=
  (transfer self ch frm toN quantity memo).bind
    (fun ch1 => add_stake now ch1 toN quantity duration_index)

/-- `token::open`: requires the symbol to exist with matching precision;
idempotently ensures a zero-balance row. -/
def openA (ch : Chain) (owner : Name) (sym : Sym) : Except TErr Chain :=
  match lookupStats ch sym.code with
  | none => .error .symbolMissingOpen
  | some st =>
    if ¬ st.supply.symbol = sym then .error .precisionMismatch
    else
      match findBalance ch owner sym.code with
      | some _ => .ok ch
      | none => .ok { ch with balances := ch.balances ++ [(owner, ⟨0, sym⟩)] }

/-- `token::close`: requires an existing row with zero balance; erases it. -/
def closeA (ch : Chain) (owner : Name) (sym : Sym) : Except TErr Chain :=
  match findBalance ch owner sym.code with
  | none => .error .balanceRowMissing
  | some b =>
    if ¬ b.amount = 0 then .error .nonZeroBalance
    else .ok (eraseBalance ch owner sym.code)

/-! ### Maintenance (`update`) -/

/-- Has this stake record expired (same symbol, and
`start + stake_durations[duration_index] <= now`)?  Reachable records
always have `duration_index < stake_count`; `getD _ 0` is the
in-bounds array read. -/
def stakeExpired (now : Nat) (sym : Sym) (r : StakeRecord) : Bool :=
  decide (r.quantity.symbol = sym)
    && decide (r.start + stakeDurations.getD r.duration_index 0 ≤ now)

/-- The records the `update_stakes` inner loop counts: same symbol and
not yet expired. -/
def countedRecords (now : Nat) (sym : Sym) (recs : List StakeRecord) : List StakeRecord :=
  recs.filter (fun r => decide (r.quantity.symbol = sym)
    && decide (now < r.start + stakeDurations.getD r.duration_index 0))

/-- The recomputed `total_stake` of the `update_stakes` inner loop. -/
def recomputedStake (now : Nat) (sym : Sym) (recs : List StakeRecord) : Int :=
  ((countedRecords now sym recs).map (fun r => r.quantity.amount)).sum

/-- The recomputed `stake_weight` of the `update_stakes` inner loop:
`Σ stake_weights[duration_index] * quantity.amount` over the counted
records. -/
def recomputedWeight (now : Nat) (sym : Sym) (recs : List StakeRecord) : Int :=
  ((countedRecords now sym recs).map (fun r =>
    stakeWeights.getD r.duration_index 0 * r.quantity.amount)).sum

/-- Does the owner have a `stakestats` row in the symbol's scope? -/
def hasStakeStat (ch : Chain) (code : Nat) (owner : Name) : Bool :=
  (findStakeStat ch code owner).isSome

/-- `token::update_stakes`: for every `stakestats` row in the symbol's
scope, erase that staker's expired stake records (records of other
symbols are skipped), recompute `total_stake`/`stake_weight` from the
remaining counted records, erasing the row when the recomputed total is
zero.  Stakers without a `stakestats` row are not visited, so their
records are untouched. -/
def update_stakes (now : Nat) (ch : Chain) (sym : Sym) : Chain :=
  { ch with
    stakes := ch.stakes.filter (fun p =>
      !(hasStakeStat ch sym.code p.1 && stakeExpired now sym p.2))
    stakestats := ch.stakestats.filterMap (fun r =>
      if r.1 = sym.code then
        let t := recomputedStake now sym (ownerRecords ch r.2.staker)
        if t = 0 then none
        else some (r.1, { r.2 with
          total_stake := ⟨t, sym⟩
          stake_weight := recomputedWeight now sym (ownerRecords ch r.2.staker) })
      else some r) }

/-- `token::update_boost`.  `fn / fd` is the value of the float
subexpression `exp(boost_lambda*next_boost)/boost_divisor` at this
call.  `total_boost = (int64_t)(0.25 * max_supply.amount)` is
`Int.tdiv max_supply.amount 4`; the emission is the further truncation
`Int.tdiv (fn * total_boost) fd`. -/
def update_boost (now : Nat) (fn fd : Int) (self : Name) (ch : Chain) (sym : Sym) :
    Except TErr Chain :=
  match lookupStats ch sym.code with
  | none => .error .symbolMissingUpdate
  | some st =>
    let nextBoost := st.boosts + 1
    if boostCount < nextBoost then .ok ch
    else if st.created + nextBoost * boostInterval ≤ now then
      let totalBoost := Int.tdiv st.max_supply.amount 4
      let currentBoostAmount := Int.tdiv (fn * totalBoost) fd
      if st.max_supply.amount < st.supply.amount + currentBoostAmount then .ok ch
      else do
        let supply' ← assetAdd st.supply ⟨currentBoostAmount, sym⟩
        let ch1 := setStats ch sym.code
          { st with supply := supply', updated := now, boosts := nextBoost }
        let rc ← distribute ch1 ⟨currentBoostAmount, sym⟩
        let remainder := currentBoostAmount - rc.1
        if 0 < remainder then add_balance rc.2 self ⟨remainder, sym⟩
        else .ok rc.2
    else .ok ch

/-- `token::update` action: validate the symbol, run `update_stakes`
then `update_boost` (the trailing deferred-transaction reschedule is
external). -/
def update (now : Nat) (fn fd : Int) (self : Name) (ch : Chain) (sym : Sym) :
    Except TErr Chain :=
  if symCodeValid sym.code then
    update_boost now fn fd self (update_stakes now ch sym) sym
  else .error .invalidSymbolName

/-! ### The contract's entry points as a step relation -/

/-- The dispatched actions (`EOSIO_DISPATCH` list). -/
inductive Act where
  | create (maximum_supply : Asset)
  | transfer (frm toN : Name) (quantity : Asset) (memo : List Char)
  | transferstkd (frm toN : Name) (quantity : Asset) (memo : List Char)
      (duration_index : Nat)
  | openA (owner : Name) (sym : Sym)
  | closeA (owner : Name) (sym : Sym)
  | addstake (staker : Name) (quantity : Asset) (duration_index : Nat)
  | update (sym : Sym)

/-- Execute one action.  `now` is the external clock, `fn / fd` the
boost-curve float factor for a potential boost in this action, `self`
the contract account. -/
def applyAct (now : Nat) (fn fd : Int) (self : Name) (ch : Chain) :
    Act → Except TErr Chain
  | .create m => create now self ch m
  | .transfer frm toN q memo => transfer self ch frm toN q memo
  | .transferstkd frm toN q memo d => transferstkd now self ch frm toN q memo d
  | .openA owner sym => openA ch owner sym
  | .closeA owner sym => closeA ch owner sym
  | .addstake staker q d => addstake now ch staker q d
  | .update sym => update now fn fd self ch sym

/-! ## Arithmetic lemmas about truncating division -/

theorem tdiv_eq_ediv' {a b : Int} (ha : 0 ≤ a) (hb : 0 ≤ b) : a.tdiv b = a / b :=
  Int.tdiv_eq_ediv ha hb

theorem tdiv_nonneg {a b : Int} (ha : 0 ≤ a) (hb : 0 ≤ b) : 0 ≤ a.tdiv b := by
  rw [tdiv_eq_ediv' ha hb]; exact Int.ediv_nonneg ha hb

theorem tdiv_le_tdiv {a b c : Int} (hc : 0 < c) (ha : 0 ≤ a) (h : a ≤ b) :
    a.tdiv c ≤ b.tdiv c := by
  rw [tdiv_eq_ediv' ha hc.le, tdiv_eq_ediv' (ha.trans h) hc.le]
  exact Int.ediv_le_ediv hc h

/-- `trunc(0.7 * fee) ≤ fee` for a nonnegative fee. -/
theorem seven_tenths_le {f : Int} (hf : 0 ≤ f) : (7 * f).tdiv 10 ≤ f := by
  have h1 : (7 : Int) * f ≤ 10 * f := by nlinarith
  have h2 : (7 * f).tdiv 10 ≤ (10 * f).tdiv 10 :=
    tdiv_le_tdiv (by norm_num) (by positivity) h1
  have h3 : ((10 : Int) * f).tdiv 10 = f := by
    rw [tdiv_eq_ediv' (by positivity) (by norm_num)]
    exact Int.mul_ediv_cancel_left f (by norm_num)
  omega

/-- Nonnegativity of the 1% fee. -/
theorem fee_nonneg {a : Int} (ha : 0 ≤ a) : 0 ≤ a.tdiv 100 :=
  tdiv_nonneg ha (by norm_num)

/-- Truncating division is superadditive on nonnegative numerators. -/
theorem tdiv_add_tdiv_le {a b c : Int} (ha : 0 ≤ a) (hb : 0 ≤ b) (hc : 0 < c) :
    a.tdiv c + b.tdiv c ≤ (a + b).tdiv c := by
  rw [tdiv_eq_ediv' ha hc.le, tdiv_eq_ediv' hb hc.le,
    tdiv_eq_ediv' (by positivity) hc.le]
  rw [Int.le_ediv_iff_mul_le hc, add_mul]
  have h1 : a / c * c ≤ a := Int.ediv_mul_le a hc.ne.symm
  have h2 : b / c * c ≤ b := Int.ediv_mul_le b hc.ne.symm
  omega

theorem tdiv_mul_cancel {q W : Int} (hq : 0 ≤ q) (hW : 0 < W) : (q * W).tdiv W = q := by
  rw [tdiv_eq_ediv' (by positivity) hW.le]
  exact Int.mul_ediv_cancel q hW.ne.symm

/-- The truncated proportional shares over a list of nonnegative weights
sum to at most the truncated share of the summed weight. -/
theorem shares_sum_le {q W : Int} (ws : List Int) (hq : 0 ≤ q) (hW : 0 < W)
    (hws : ∀ w ∈ ws, 0 ≤ w) :
    ((ws.map (fun w => (q * w).tdiv W)).sum) ≤ (q * ws.sum).tdiv W := by
  induction ws with
  | nil => simp
  | cons w rest ih =>
    have hw : 0 ≤ w := hws w (by simp)
    have hrest : ∀ x ∈ rest, 0 ≤ x := fun x hx => hws x (List.mem_cons_of_mem _ hx)
    have hsum : 0 ≤ rest.sum := List.sum_nonneg hrest
    have h1 := ih hrest
    have h2 : (q * w).tdiv W + (q * rest.sum).tdiv W ≤ (q * w + q * rest.sum).tdiv W :=
      tdiv_add_tdiv_le (by positivity) (by positivity) hW
    have h3 : q * w + q * rest.sum = q * (w + rest.sum) := by ring
    simp only [List.map_cons, List.sum_cons]
    rw [h3] at h2
    omega

/-! ## Generic lemmas about first-match table operations -/

theorem mfirst_cons {p : α → Bool} {f : α → α} {x : α} {xs : List α} :
    mfirst p f (x :: xs) = if p x then f x :: xs else x :: mfirst p f xs := rfl

theorem efirst_cons {p : α → Bool} {x : α} {xs : List α} :
    efirst p (x :: xs) = if p x then xs else x :: efirst p xs := rfl

theorem mfirst_of_find?_none {p : α → Bool} {f : α → α} {l : List α}
    (h : l.find? p = none) : mfirst p f l = l := by
  induction l with
  | nil => rfl
  | cons x xs ih =>
    have hp : p x = false := by
      cases hp : p x with
      | true => rw [List.find?_cons_of_pos _ hp] at h; exact absurd h (by simp)
      | false => rfl
    rw [List.find?_cons_of_neg _ (by rw [hp]; simp)] at h
    rw [mfirst_cons, if_neg (by rw [hp]; simp), ih h]

theorem efirst_of_find?_none {p : α → Bool} {l : List α}
    (h : l.find? p = none) : efirst p l = l := by
  induction l with
  | nil => rfl
  | cons x xs ih =>
    have hp : p x = false := by
      cases hp : p x with
      | true => rw [List.find?_cons_of_pos _ hp] at h; exact absurd h (by simp)
      | false => rfl
    rw [List.find?_cons_of_neg _ (by rw [hp]; simp)] at h
    rw [efirst_cons, if_neg (by rw [hp]; simp), ih h]

theorem find?_mfirst_const {p : α → Bool} {y x : α} {l : List α}
    (h : l.find? p = some x) (hy : p y = true) :
    (mfirst p (fun _ => y) l).find? p = some y := by
  induction l with
  | nil => simp at h
  | cons a xs ih =>
    cases hp : p a with
    | true =>
      rw [mfirst_cons, if_pos hp]
      exact List.find?_cons_of_pos _ hy
    | false =>
      rw [List.find?_cons_of_neg _ (by rw [hp]; simp)] at h
      rw [mfirst_cons, if_neg (by rw [hp]; simp), List.find?_cons_of_neg _ (by rw [hp]; simp)]
      exact ih h

theorem find?_mfirst_other {p q : α → Bool} {y : α} {l : List α}
    (hq : ∀ a, p a = true → q a = false) (hy : q y = false) :
    (mfirst p (fun _ => y) l).find? q = l.find? q := by
  induction l with
  | nil => rfl
  | cons a xs ih =>
    cases hp : p a with
    | true =>
      have hqa : q a = false := hq a hp
      rw [mfirst_cons, if_pos hp, List.find?_cons_of_neg _ (by rw [hy]; simp),
        List.find?_cons_of_neg _ (by rw [hqa]; simp)]
    | false =>
      rw [mfirst_cons, if_neg (by rw [hp]; simp)]
      cases hqa : q a with
      | true => rw [List.find?_cons_of_pos _ hqa, List.find?_cons_of_pos _ hqa]
      | false => rw [List.find?_cons_of_neg _ (by rw [hqa]; simp), List.find?_cons_of_neg _ (by rw [hqa]; simp)]; exact ih

theorem sum_map_mfirst {p : α → Bool} {y x : α} {l : List α} (g : α → Int)
    (h : l.find? p = some x) :
    ((mfirst p (fun _ => y) l).map g).sum = (l.map g).sum - g x + g y := by
  induction l with
  | nil => simp at h
  | cons a xs ih =>
    cases hp : p a with
    | true =>
      rw [List.find?_cons_of_pos _ hp] at h
      injection h with h
      subst h
      rw [mfirst_cons, if_pos hp]
      simp only [List.map_cons, List.sum_cons]
      ring
    | false =>
      rw [List.find?_cons_of_neg _ (by rw [hp]; simp)] at h
      rw [mfirst_cons, if_neg (by rw [hp]; simp)]
      simp only [List.map_cons, List.sum_cons, ih h]
      ring

theorem mem_mfirst {p : α → Bool} {y a : α} {l : List α}
    (h : a ∈ mfirst p (fun _ => y) l) : a ∈ l ∨ a = y := by
  induction l with
  | nil => exact absurd h (by simp [mfirst])
  | cons b xs ih =>
    cases hp : p b with
    | true =>
      rw [mfirst_cons, if_pos hp] at h
      rcases List.mem_cons.mp h with h2 | h2
      · right; exact h2
      · left; exact List.mem_cons_of_mem b h2
    | false =>
      rw [mfirst_cons, if_neg (by rw [hp]; simp)] at h
      rcases List.mem_cons.mp h with h2 | h2
      · left; simp [h2]
      · rcases ih h2 with h3 | h3
        · left; exact List.mem_cons_of_mem b h3
        · right; exact h3

theorem find?_efirst_other {p q : α → Bool} {l : List α}
    (hq : ∀ a, p a = true → q a = false) :
    (efirst p l).find? q = l.find? q := by
  induction l with
  | nil => rfl
  | cons a xs ih =>
    cases hp : p a with
    | true =>
      have hqa : q a = false := hq a hp
      rw [efirst_cons, if_pos hp, List.find?_cons_of_neg _ (by rw [hqa]; simp)]
    | false =>
      rw [efirst_cons, if_neg (by rw [hp]; simp)]
      cases hqa : q a with
      | true => rw [List.find?_cons_of_pos _ hqa, List.find?_cons_of_pos _ hqa]
      | false => rw [List.find?_cons_of_neg _ (by rw [hqa]; simp), List.find?_cons_of_neg _ (by rw [hqa]; simp)]; exact ih

theorem sum_map_efirst {p : α → Bool} {x : α} {l : List α} (g : α → Int)
    (h : l.find? p = some x) :
    ((efirst p l).map g).sum = (l.map g).sum - g x := by
  induction l with
  | nil => simp at h
  | cons a xs ih =>
    cases hp : p a with
    | true =>
      rw [List.find?_cons_of_pos _ hp] at h
      injection h with h
      subst h
      rw [efirst_cons, if_pos hp]
      simp only [List.map_cons, List.sum_cons]
      ring
    | false =>
      rw [List.find?_cons_of_neg _ (by rw [hp]; simp)] at h
      rw [efirst_cons, if_neg (by rw [hp]; simp)]
      simp only [List.map_cons, List.sum_cons, ih h]
      ring

theorem mem_efirst {p : α → Bool} {a : α} {l : List α}
    (h : a ∈ efirst p l) : a ∈ l := by
  induction l with
  | nil => exact absurd h (by simp [efirst])
  | cons b xs ih =>
    cases hp : p b with
    | true =>
      rw [efirst_cons, if_pos hp] at h
      exact List.mem_cons_of_mem b h
    | false =>
      rw [efirst_cons, if_neg (by rw [hp]; simp)] at h
      rcases List.mem_cons.mp h with h2 | h2
      · simp [h2]
      · exact List.mem_cons_of_mem b (ih h2)

theorem find?_append_single {q : α → Bool} {y : α} {l : List α} :
    (l ++ [y]).find? q =
      match l.find? q with
      | some x => some x
      | none => if q y then some y else none := by
  induction l with
  | nil =>
    simp only [List.nil_append, List.find?_nil]
    cases hq : q y with
    | true => rw [List.find?_cons_of_pos _ hq]; simp
    | false => rw [List.find?_cons_of_neg _ (by rw [hq]; simp)]; simp [hq]
  | cons a xs ih =>
    cases hq : q a with
    | true =>
      rw [List.cons_append, List.find?_cons_of_pos _ hq, List.find?_cons_of_pos _ hq]
    | false =>
      rw [List.cons_append, List.find?_cons_of_neg _ (by rw [hq]; simp), List.find?_cons_of_neg _ (by rw [hq]; simp)]
      exact ih

theorem sum_map_append_single {g : α → Int} {y : α} {l : List α} :
    ((l ++ [y]).map g).sum = (l.map g).sum + g y := by
  simp

/-- A `filterMap` whose transform is constant on the rows matching a key
and maps non-matching rows to non-matching rows: the first key match of
the output is the transform of the first key match of the input. -/
theorem find?_filterMap_keyed {T : α → Option α} {qk : α → Bool} {o₀ : Option α}
    {l : List α}
    (hmatch : ∀ r, qk r = true → T r = o₀)
    (ho : ∀ y, o₀ = some y → qk y = true)
    (hmiss : ∀ r, qk r = false → ∀ y, T r = some y → qk y = false) :
    (l.filterMap T).find? qk =
      match l.find? qk with | none => none | some _ => o₀ := by
  induction l with
  | nil => simp
  | cons a xs ih =>
    cases hqa : qk a with
    | true =>
      rw [List.filterMap_cons, hmatch a hqa, List.find?_cons_of_pos _ hqa]
      cases ho₀ : o₀ with
      | none =>
        rw [ih]
        cases hxs : xs.find? qk with
        | none => simp
        | some z => simp [ho₀]
      | some y =>
        have hy := ho y ho₀
        rw [List.find?_cons_of_pos _ hy]
    | false =>
      cases hTa : T a with
      | none =>
        rw [List.filterMap_cons, hTa, List.find?_cons_of_neg _ (by rw [hqa]; simp)]
        exact ih
      | some y =>
        have hy := hmiss a hqa y hTa
        rw [List.filterMap_cons, hTa, List.find?_cons_of_neg _ (by rw [hy]; simp),
          List.find?_cons_of_neg _ (by rw [hqa]; simp)]
        exact ih

/-- Summing a function over a filtered list equals summing the function
gated by the filter predicate. -/
theorem sum_map_filter {k : α → Bool} (g : α → Int) (l : List α) :
    ((l.filter k).map g).sum = (l.map (fun a => if k a then g a else 0)).sum := by
  induction l with
  | nil => rfl
  | cons a xs ih =>
    cases hk : k a with
    | true => simp [List.filter_cons, hk, ih]
    | false => simp [List.filter_cons, hk, ih]

/-! ## Reduction helpers for the `Except` monad -/

@[simp] theorem bind_ok {ε α β : Type} (a : α) (f : α → Except ε β) :
    (Except.ok a : Except ε α) >>= f = f a := rfl

@[simp] theorem bind_error {ε α β : Type} (e : ε) (f : α → Except ε β) :
    (Except.error e : Except ε α) >>= f = Except.error e := rfl

/-! ## Invariants maintained by the contract -/

/-- Conservation: the supply a symbol's `currency_stats` row records
equals the sum of all account balances for the symbol. -/
def consInv (ch : Chain) : Prop :=
  ∀ st ∈ ch.stats, lookupStats ch st.supply.symbol.code = some st →
    st.supply.amount = balanceSum ch st.supply.symbol.code

/-- Every balance row's symbol has a `currency_stats` row. -/
def balHasStats (ch : Chain) : Prop :=
  ∀ r ∈ ch.balances, (lookupStats ch r.2.symbol.code).isSome = true

/-- Supply cap: `0 ≤ supply ≤ max_supply`. -/
def capInv (ch : Chain) : Prop :=
  ∀ st ∈ ch.stats, lookupStats ch st.supply.symbol.code = some st →
    0 ≤ st.supply.amount ∧ st.supply.amount ≤ st.max_supply.amount

/-- No negative balances. -/
def balNonneg (ch : Chain) : Prop := ∀ r ∈ ch.balances, 0 ≤ r.2.amount

/-- All stake weights are nonnegative. -/
def wNonneg (ch : Chain) : Prop := ∀ r ∈ ch.stakestats, 0 ≤ r.2.stake_weight

/-- All aggregated stake totals are nonnegative. -/
def totNonneg (ch : Chain) : Prop := ∀ r ∈ ch.stakestats, 0 ≤ r.2.total_stake.amount

/-- Every stake record has a positive amount. -/
def qPos (ch : Chain) : Prop := ∀ r ∈ ch.stakes, 0 < r.2.quantity.amount

/-- The basic well-formedness package (preserved by every action). -/
def InvA (ch : Chain) : Prop :=
  consInv ch ∧ balHasStats ch ∧ capInv ch ∧ balNonneg ch ∧ wNonneg ch ∧
    totNonneg ch ∧ qPos ch

/-- Every stake record's symbol is exactly the stored symbol (code and
precision) of its `currency_stats` row. -/
def recSymB (ch : Chain) (r : Name × StakeRecord) : Bool :=
  match lookupStats ch r.2.quantity.symbol.code with
  | none => false
  | some st => decide (r.2.quantity.symbol = st.supply.symbol)

def recSymInv (ch : Chain) : Prop := ∀ r ∈ ch.stakes, recSymB ch r = true

/-- Every stake record's owner has a `stakestats` row in its scope. -/
def noOrphan (ch : Chain) : Prop :=
  ∀ r ∈ ch.stakes, (findStakeStat ch r.2.quantity.symbol.code r.1).isSome = true

/-- A `stakestats` row's `total_stake` is the sum of the owner's stake
records for the symbol code. -/
def statSumInv (ch : Chain) : Prop :=
  ∀ p ∈ ch.stakestats, findStakeStat ch p.1 p.2.staker = some p.2 →
    p.2.total_stake.amount = recordSum ch p.1 p.2.staker

/-- A staker's aggregated stake never exceeds their balance (implies a
nonnegative unstaked balance). -/
def statLeBal (ch : Chain) : Prop :=
  ∀ p ∈ ch.stakestats, findStakeStat ch p.1 p.2.staker = some p.2 →
    (findBalance ch p.2.staker p.1).isSome = true ∧
    p.2.total_stake.amount ≤ balD ch p.2.staker p.1

/-- A `stakestats` row's total is strictly positive (rows that would
drop to zero are deleted by the maintenance cycle). -/
def statPos (ch : Chain) : Prop :=
  ∀ p ∈ ch.stakestats, findStakeStat ch p.1 p.2.staker = some p.2 →
    0 < p.2.total_stake.amount

/-- The staking-aggregate package (preserved when maintenance is always
invoked with the symbol exactly as stored). -/
def InvB (ch : Chain) : Prop :=
  recSymInv ch ∧ noOrphan ch ∧ statSumInv ch ∧ statLeBal ch ∧ statPos ch

def Inv (ch : Chain) : Prop := InvA ch ∧ InvB ch

/-- The action is invoked coherently: a maintenance `update` must pass
the token's symbol exactly as stored (same precision).  All other
actions validate their symbols themselves. -/
def ActOk (ch : Chain) : Act → Prop
  | .update sym => ∀ st, lookupStats ch sym.code = some st → st.supply.symbol = sym
  | _ => True

/-! ## Accessor lemmas -/

theorem lookupStats_code {ch : Chain} {c : Nat} {st : CurrencyStats}
    (h : lookupStats ch c = some st) :
    st ∈ ch.stats ∧ st.supply.symbol.code = c := by
  refine ⟨List.mem_of_find?_eq_some h, ?_⟩
  have h2 := List.find?_some h
  simpa [statKey] using h2

theorem findBalance_row {ch : Chain} {o : Name} {c : Nat} {b : Asset}
    (h : findBalance ch o c = some b) :
    ch.balances.find? (balKey o c) = some (o, b) ∧ b.symbol.code = c := by
  unfold findBalance at h
  cases hf : ch.balances.find? (balKey o c) with
  | none => rw [hf] at h; simp at h
  | some r =>
    rw [hf] at h
    have h2 : some r.2 = some b := h
    have hk := List.find?_some hf
    simp only [balKey, Bool.and_eq_true, decide_eq_true_eq] at hk
    injection h2 with h
    constructor
    · rw [← h, ← hk.1]
    · rw [← h]; exact hk.2

theorem findBalance_mem {ch : Chain} {o : Name} {c : Nat} {b : Asset}
    (h : findBalance ch o c = some b) :
    (o, b) ∈ ch.balances ∧ b.symbol.code = c :=
  ⟨List.mem_of_find?_eq_some (findBalance_row h).1, (findBalance_row h).2⟩

theorem findStakeStat_row {ch : Chain} {c : Nat} {s : Name} {st : StakeStat}
    (h : findStakeStat ch c s = some st) :
    ch.stakestats.find? (ssKey c s) = some (c, st) ∧ st.staker = s := by
  unfold findStakeStat at h
  cases hf : ch.stakestats.find? (ssKey c s) with
  | none => rw [hf] at h; simp at h
  | some r =>
    rw [hf] at h
    have h2 : some r.2 = some st := h
    have hk := List.find?_some hf
    simp only [ssKey, Bool.and_eq_true, decide_eq_true_eq] at hk
    injection h2 with h
    constructor
    · rw [← h, ← hk.1]
    · rw [← h]; exact hk.2

theorem findStakeStat_mem {ch : Chain} {c : Nat} {s : Name} {st : StakeStat}
    (h : findStakeStat ch c s = some st) :
    (c, st) ∈ ch.stakestats ∧ st.staker = s :=
  ⟨List.mem_of_find?_eq_some (findStakeStat_row h).1, (findStakeStat_row h).2⟩

theorem consInv_lookup {ch : Chain} {c : Nat} {st : CurrencyStats}
    (hc : consInv ch) (h : lookupStats ch c = some st) :
    st.supply.amount = balanceSum ch c := by
  obtain ⟨hm, hcode⟩ := lookupStats_code h
  have := hc st hm (by rw [hcode]; exact h)
  rwa [hcode] at this

theorem capInv_lookup {ch : Chain} {c : Nat} {st : CurrencyStats}
    (hc : capInv ch) (h : lookupStats ch c = some st) :
    0 ≤ st.supply.amount ∧ st.supply.amount ≤ st.max_supply.amount := by
  obtain ⟨hm, hcode⟩ := lookupStats_code h
  exact hc st hm (by rw [hcode]; exact h)

theorem statSumInv_lookup {ch : Chain} {c : Nat} {s : Name} {st : StakeStat}
    (hs : statSumInv ch) (h : findStakeStat ch c s = some st) :
    st.total_stake.amount = recordSum ch c s := by
  obtain ⟨hrow, hstaker⟩ := findStakeStat_row h
  have hm := List.mem_of_find?_eq_some hrow
  have := hs (c, st) hm (by simp only; rw [hstaker]; exact h)
  simpa [hstaker] using this

theorem statLeBal_lookup {ch : Chain} {c : Nat} {s : Name} {st : StakeStat}
    (hs : statLeBal ch) (h : findStakeStat ch c s = some st) :
    (findBalance ch s c).isSome = true ∧ st.total_stake.amount ≤ balD ch s c := by
  obtain ⟨hrow, hstaker⟩ := findStakeStat_row h
  have hm := List.mem_of_find?_eq_some hrow
  have := hs (c, st) hm (by simp only; rw [hstaker]; exact h)
  simpa [hstaker] using this

theorem statPos_lookup {ch : Chain} {c : Nat} {s : Name} {st : StakeStat}
    (hs : statPos ch) (h : findStakeStat ch c s = some st) :
    0 < st.total_stake.amount := by
  obtain ⟨hrow, hstaker⟩ := findStakeStat_row h
  have hm := List.mem_of_find?_eq_some hrow
  exact hs (c, st) hm (by simp only; rw [hstaker]; exact h)

/-- `get_stake` is nonnegative under `totNonneg`. -/
theorem get_stake_nonneg {ch : Chain} {s : Name} {sym : Sym}
    (ht : totNonneg ch) : 0 ≤ (get_stake ch s sym).amount := by
  unfold get_stake
  cases h : findStakeStat ch sym.code s with
  | none => simp
  | some st =>
    simp only
    exact ht _ (findStakeStat_mem h).1

theorem balKey_disjoint {o o' : Name} {c c' : Nat} (h : ¬(o' = o ∧ c' = c)) :
    ∀ a, balKey o c a = true → balKey o' c' a = false := by
  intro a ha
  simp only [balKey, Bool.and_eq_true, decide_eq_true_eq] at ha
  simp only [balKey, Bool.and_eq_false_iff, decide_eq_false_iff_not]
  by_cases h1 : o' = o
  · right; intro hc
    exact h ⟨h1, by rw [← hc]; exact ha.2⟩
  · left; rw [ha.1]; exact fun hc => h1 hc.symm

/-! ## Lemmas about `add_balance` -/

theorem findBalance_none_row {ch : Chain} {o : Name} {c : Nat}
    (h : findBalance ch o c = none) : ch.balances.find? (balKey o c) = none := by
  unfold findBalance at h
  cases hf : ch.balances.find? (balKey o c) with
  | none => rfl
  | some r => rw [hf] at h; exact absurd h (by simp)

theorem balKey_pair_false {o o' : Name} {c' : Nat} {b : Asset}
    (hne : ¬(o' = o ∧ c' = b.symbol.code)) :
    balKey o' c' (o, b) = false := by
  simp only [balKey, Bool.and_eq_false_iff, decide_eq_false_iff_not]
  by_cases h1 : o = o'
  · right; intro hc; exact hne ⟨h1.symm, hc.symm⟩
  · left; exact h1

theorem add_balance_none_eq {ch : Chain} {o : Name} {v : Asset}
    (hf : findBalance ch o v.symbol.code = none) :
    add_balance ch o v = .ok { ch with balances := ch.balances ++ [(o, v)] } := by
  unfold add_balance
  rw [hf]

theorem add_balance_some_eq {ch : Chain} {o : Name} {v b : Asset}
    (hf : findBalance ch o v.symbol.code = some b) :
    add_balance ch o v =
      assetAdd b v >>= fun b' => .ok (setBalance ch o v.symbol.code b') := by
  unfold add_balance
  rw [hf]

theorem add_balance_cases {ch ch' : Chain} {o : Name} {v : Asset}
    (h : add_balance ch o v = .ok ch') :
    (findBalance ch o v.symbol.code = none ∧
      ch' = { ch with balances := ch.balances ++ [(o, v)] }) ∨
    (∃ b, findBalance ch o v.symbol.code = some b ∧ b.symbol = v.symbol ∧
      ch' = setBalance ch o v.symbol.code ⟨b.amount + v.amount, b.symbol⟩) := by
  cases hf : findBalance ch o v.symbol.code with
  | none =>
    rw [add_balance_none_eq hf] at h
    left
    refine ⟨rfl, ?_⟩
    injection h with h
    exact h.symm
  | some b =>
    rw [add_balance_some_eq hf] at h
    right
    refine ⟨b, rfl, ?_⟩
    unfold assetAdd at h
    by_cases hs : b.symbol = v.symbol
    · rw [if_pos hs] at h
      by_cases hr : -maxAssetAmount ≤ b.amount + v.amount ∧
          b.amount + v.amount ≤ maxAssetAmount
      · rw [if_pos hr] at h
        simp only [bind_ok] at h
        injection h with h
        exact ⟨hs, h.symm⟩
      · rw [if_neg hr] at h
        exact absurd h (by simp)
    · rw [if_neg hs] at h
      exact absurd h (by simp)

theorem add_balance_fields {ch ch' : Chain} {o : Name} {v : Asset}
    (h : add_balance ch o v = .ok ch') :
    ch'.stats = ch.stats ∧ ch'.stakes = ch.stakes ∧
      ch'.stakestats = ch.stakestats ∧ ch'.chainAccounts = ch.chainAccounts := by
  rcases add_balance_cases h with ⟨_, rfl⟩ | ⟨b, _, _, rfl⟩
  · exact ⟨rfl, rfl, rfl, rfl⟩
  · exact ⟨rfl, rfl, rfl, rfl⟩

theorem lookupStats_congr {ch ch' : Chain} (h : ch'.stats = ch.stats) :
    ∀ c, lookupStats ch' c = lookupStats ch c := by
  intro c; unfold lookupStats; rw [h]

theorem add_balance_balanceSum {ch ch' : Chain} {o : Name} {v : Asset}
    (h : add_balance ch o v = .ok ch') :
    ∀ c, balanceSum ch' c =
      balanceSum ch c + (if v.symbol.code = c then v.amount else 0) := by
  intro c
  rcases add_balance_cases h with ⟨hf, rfl⟩ | ⟨b, hf, hsym, rfl⟩
  · unfold balanceSum
    simp only
    rw [sum_map_append_single]
  · obtain ⟨hrow, hcode⟩ := findBalance_row hf
    unfold balanceSum setBalance
    simp only
    rw [sum_map_mfirst _ hrow]
    have hcode2 : b.symbol.code = v.symbol.code := by rw [hsym]
    dsimp only
    simp only [hcode2]
    split_ifs <;> omega

theorem add_balance_find_same {ch ch' : Chain} {o : Name} {v : Asset}
    (h : add_balance ch o v = .ok ch') :
    findBalance ch' o v.symbol.code =
      some ⟨balD ch o v.symbol.code + v.amount, v.symbol⟩ := by
  rcases add_balance_cases h with ⟨hf, rfl⟩ | ⟨b, hf, hsym, rfl⟩
  · have hrow := findBalance_none_row hf
    unfold findBalance
    simp only
    rw [find?_append_single, hrow]
    have hk : balKey o v.symbol.code (o, v) = true := by simp [balKey]
    rw [if_pos hk]
    unfold balD
    rw [hf]
    simp
  · obtain ⟨hrow, hcode⟩ := findBalance_row hf
    unfold findBalance setBalance
    simp only
    have hk : balKey o v.symbol.code
        (o, (⟨b.amount + v.amount, b.symbol⟩ : Asset)) = true := by
      simp only [balKey]
      simp [hsym]
    rw [find?_mfirst_const hrow hk]
    unfold balD findBalance
    rw [hrow]
    simp [hsym]

theorem add_balance_find_other {ch ch' : Chain} {o o' : Name} {v : Asset} {c' : Nat}
    (h : add_balance ch o v = .ok ch') (hne : ¬(o' = o ∧ c' = v.symbol.code)) :
    findBalance ch' o' c' = findBalance ch o' c' := by
  rcases add_balance_cases h with ⟨hf, rfl⟩ | ⟨b, hf, hsym, rfl⟩
  · unfold findBalance
    simp only
    rw [find?_append_single]
    have hk : balKey o' c' (o, v) = false := balKey_pair_false hne
    cases hq : ch.balances.find? (balKey o' c') with
    | none => rw [hk]; simp
    | some r => simp
  · unfold findBalance setBalance
    simp only
    have hkb : b.symbol.code = v.symbol.code := by rw [hsym]
    have hne' : ¬(o' = o ∧ c' = b.symbol.code) := by rw [hkb]; exact hne
    rw [find?_mfirst_other (balKey_disjoint hne)
      (@balKey_pair_false o o' c' ⟨b.amount + v.amount, b.symbol⟩ hne')]

theorem add_balance_balD_other {ch ch' : Chain} {o o' : Name} {v : Asset} {c' : Nat}
    (h : add_balance ch o v = .ok ch') (hne : ¬(o' = o ∧ c' = v.symbol.code)) :
    balD ch' o' c' = balD ch o' c' := by
  unfold balD
  rw [add_balance_find_other h hne]

theorem add_balance_balD_same {ch ch' : Chain} {o : Name} {v : Asset}
    (h : add_balance ch o v = .ok ch') :
    balD ch' o v.symbol.code = balD ch o v.symbol.code + v.amount := by
  unfold balD
  rw [add_balance_find_same h]
  simp [balD]

theorem add_balance_balNonneg {ch ch' : Chain} {o : Name} {v : Asset}
    (h : add_balance ch o v = .ok ch') (hv : 0 ≤ v.amount)
    (hb : balNonneg ch) : balNonneg ch' := by
  rcases add_balance_cases h with ⟨hf, rfl⟩ | ⟨b, hf, hsym, rfl⟩
  · intro r hr
    rcases List.mem_append.mp hr with hr | hr
    · exact hb r hr
    · simp only [List.mem_singleton] at hr
      rw [hr]
      exact hv
  · intro r hr
    rcases mem_mfirst hr with hr | hr
    · exact hb r hr
    · have hbm := hb _ (findBalance_mem hf).1
      rw [hr]
      simp only
      simp only at hbm
      omega

theorem add_balance_balHasStats {ch ch' : Chain} {o : Name} {v : Asset}
    (h : add_balance ch o v = .ok ch')
    (hs : (lookupStats ch v.symbol.code).isSome = true)
    (hb : balHasStats ch) : balHasStats ch' := by
  have hfields := add_balance_fields h
  have hlook := lookupStats_congr hfields.1
  rcases add_balance_cases h with ⟨hf, hch⟩ | ⟨b, hf, hsym, hch⟩
  · intro r hr
    rw [hch] at hr
    simp only at hr
    rcases List.mem_append.mp hr with hr | hr
    · rw [hlook]; exact hb r hr
    · simp only [List.mem_singleton] at hr
      rw [hr, hlook]
      exact hs
  · intro r hr
    rw [hch] at hr
    unfold setBalance at hr
    simp only at hr
    rcases mem_mfirst hr with hr | hr
    · rw [hlook]; exact hb r hr
    · rw [hr, hlook]
      simp only
      rw [show (⟨b.amount + v.amount, b.symbol⟩ : Asset).symbol.code
          = v.symbol.code by simp [hsym]]
      exact hs

theorem add_balance_balD_mono {ch ch' : Chain} {o : Name} {v : Asset}
    (h : add_balance ch o v = .ok ch') (hv : 0 ≤ v.amount) :
    ∀ o' c', balD ch o' c' ≤ balD ch' o' c' ∧
      ((findBalance ch o' c').isSome = true → (findBalance ch' o' c').isSome = true) := by
  intro o' c'
  by_cases hk : o' = o ∧ c' = v.symbol.code
  · obtain ⟨rfl, rfl⟩ := hk
    rw [add_balance_find_same h]
    constructor
    · rw [add_balance_balD_same h]; omega
    · intro; simp
  · rw [add_balance_balD_other h hk, add_balance_find_other h hk]
    exact ⟨le_refl _, fun hx => hx⟩

/-! ## Lemmas about `creditShares` and `distribute` -/

theorem creditShares_nil_eq {ch : Chain} {sym : Sym} {q W : Int} :
    creditShares ch sym q W [] = .ok (0, ch) := rfl

theorem creditShares_cons_eq {ch : Chain} {sym : Sym} {q W : Int}
    {st : StakeStat} {rest : List StakeStat} :
    creditShares ch sym q W (st :: rest) =
      add_balance ch st.staker ⟨(q * st.stake_weight).tdiv W, sym⟩ >>= fun ch1 =>
        creditShares ch1 sym q W rest >>= fun rc =>
          .ok ((q * st.stake_weight).tdiv W + rc.1, rc.2) := rfl

theorem creditShares_spec {sym : Sym} {q W : Int} :
    ∀ {rows : List StakeStat} {ch : Chain} {r : Int} {ch' : Chain},
    creditShares ch sym q W rows = .ok (r, ch') →
    (ch'.stats = ch.stats ∧ ch'.stakes = ch.stakes ∧
      ch'.stakestats = ch.stakestats ∧ ch'.chainAccounts = ch.chainAccounts) ∧
    r = (rows.map (fun st => (q * st.stake_weight).tdiv W)).sum ∧
    (∀ c, balanceSum ch' c = balanceSum ch c + (if sym.code = c then r else 0)) ∧
    (∀ o c, (∀ st ∈ rows, st.staker ≠ o) →
      findBalance ch' o c = findBalance ch o c) := by
  intro rows
  induction rows with
  | nil =>
    intro ch r ch' h
    rw [creditShares_nil_eq] at h
    simp only [Except.ok.injEq, Prod.mk.injEq] at h
    obtain ⟨h1, h2⟩ := h
    subst h1; subst h2
    exact ⟨⟨rfl, rfl, rfl, rfl⟩, by simp, fun c => by simp, fun o c _ => rfl⟩
  | cons st rest ih =>
    intro ch r ch' h
    rw [creditShares_cons_eq] at h
    cases hab : add_balance ch st.staker ⟨(q * st.stake_weight).tdiv W, sym⟩ with
    | error e => rw [hab] at h; exact absurd h (by simp)
    | ok ch1 =>
      rw [hab] at h
      simp only [bind_ok] at h
      cases hcs : creditShares ch1 sym q W rest with
      | error e => rw [hcs] at h; exact absurd h (by simp)
      | ok rc =>
        rw [hcs] at h
        simp only [bind_ok, Except.ok.injEq, Prod.mk.injEq] at h
        obtain ⟨h1, h2⟩ := h
        subst h1; subst h2
        have hfa := add_balance_fields hab
        have hsa := add_balance_balanceSum hab
        obtain ⟨hfr, hrr, hsr, hor⟩ := ih hcs
        refine ⟨⟨by rw [hfr.1, hfa.1], by rw [hfr.2.1, hfa.2.1],
          by rw [hfr.2.2.1, hfa.2.2.1], by rw [hfr.2.2.2, hfa.2.2.2]⟩, ?_, ?_, ?_⟩
        · simp only [List.map_cons, List.sum_cons]
          omega
        · intro c
          rw [hsr c, hsa c]
          simp only [List.map_cons, List.sum_cons]
          by_cases hc : sym.code = c
          · rw [if_pos hc, if_pos hc, if_pos hc]; ring
          · rw [if_neg hc, if_neg hc, if_neg hc]; ring
        · intro o c hno
          have hst : st.staker ≠ o := hno st (by simp)
          rw [hor o c (fun x hx => hno x (List.mem_cons_of_mem _ hx))]
          exact add_balance_find_other hab
            (fun hk => hst (by rw [hk.1]))

theorem creditShares_mono {sym : Sym} {q W : Int} (hq : 0 ≤ q) (hW : 0 < W) :
    ∀ {rows : List StakeStat} {ch : Chain} {r : Int} {ch' : Chain},
    creditShares ch sym q W rows = .ok (r, ch') →
    (∀ st ∈ rows, 0 ≤ st.stake_weight) →
    0 ≤ r ∧
    (balNonneg ch → balNonneg ch') ∧
    ((lookupStats ch sym.code).isSome = true → balHasStats ch → balHasStats ch') ∧
    (∀ o c, balD ch o c ≤ balD ch' o c ∧
      ((findBalance ch o c).isSome = true → (findBalance ch' o c).isSome = true)) := by
  intro rows
  induction rows with
  | nil =>
    intro ch r ch' h _
    rw [creditShares_nil_eq] at h
    simp only [Except.ok.injEq, Prod.mk.injEq] at h
    obtain ⟨h1, h2⟩ := h
    subst h1; subst h2
    exact ⟨le_refl _, fun hb => hb, fun _ hb => hb,
      fun o c => ⟨le_refl _, fun hx => hx⟩⟩
  | cons st rest ih =>
    intro ch r ch' h hws
    rw [creditShares_cons_eq] at h
    cases hab : add_balance ch st.staker ⟨(q * st.stake_weight).tdiv W, sym⟩ with
    | error e => rw [hab] at h; exact absurd h (by simp)
    | ok ch1 =>
      rw [hab] at h
      simp only [bind_ok] at h
      cases hcs : creditShares ch1 sym q W rest with
      | error e => rw [hcs] at h; exact absurd h (by simp)
      | ok rc =>
        rw [hcs] at h
        simp only [bind_ok, Except.ok.injEq, Prod.mk.injEq] at h
        obtain ⟨h1, h2⟩ := h
        subst h1; subst h2
        have hwst : 0 ≤ st.stake_weight := hws st (by simp)
        have hshare : 0 ≤ (q * st.stake_weight).tdiv W :=
          tdiv_nonneg (by positivity) hW.le
        obtain ⟨hr, hbn, hhs, hmono⟩ :=
          ih hcs (fun x hx => hws x (List.mem_cons_of_mem _ hx))
        have hlook1 := lookupStats_congr (add_balance_fields hab).1
        refine ⟨by omega, ?_, ?_, ?_⟩
        · intro hb
          exact hbn (add_balance_balNonneg hab hshare hb)
        · intro hl hb
          exact hhs (by rw [hlook1]; exact hl) (add_balance_balHasStats hab hl hb)
        · intro o c
          have h1 := add_balance_balD_mono hab hshare o c
          have h2 := hmono o c
          exact ⟨le_trans h1.1 h2.1, fun hx => h2.2 (h1.2 hx)⟩

theorem distribute_eq {ch : Chain} {qa : Asset} :
    distribute ch qa =
      if totalWeightFor ch qa.symbol.code = 0 then .ok (0, ch)
      else creditShares ch qa.symbol qa.amount (totalWeightFor ch qa.symbol.code)
        (stakeStatsFor ch qa.symbol.code) := rfl

/-- `totalWeightFor` is positive when nonzero with nonnegative weights. -/
theorem totalWeight_pos {ch : Chain} {c : Nat}
    (hws : ∀ st ∈ stakeStatsFor ch c, 0 ≤ st.stake_weight)
    (hne : totalWeightFor ch c ≠ 0) : 0 < totalWeightFor ch c := by
  have h : 0 ≤ totalWeightFor ch c := by
    unfold totalWeightFor
    apply List.sum_nonneg
    intro x hx
    obtain ⟨st, hst, hfx⟩ := List.mem_map.mp hx
    rw [← hfx]
    exact hws st hst
  omega

theorem distribute_fields {ch ch' : Chain} {qa : Asset} {r : Int}
    (h : distribute ch qa = .ok (r, ch')) :
    ch'.stats = ch.stats ∧ ch'.stakes = ch.stakes ∧
      ch'.stakestats = ch.stakestats ∧ ch'.chainAccounts = ch.chainAccounts := by
  rw [distribute_eq] at h
  by_cases hW : totalWeightFor ch qa.symbol.code = 0
  · rw [if_pos hW] at h
    simp only [Except.ok.injEq, Prod.mk.injEq] at h
    rw [← h.2]
    exact ⟨rfl, rfl, rfl, rfl⟩
  · rw [if_neg hW] at h
    exact (creditShares_spec h).1

theorem distribute_balanceSum {ch ch' : Chain} {qa : Asset} {r : Int}
    (h : distribute ch qa = .ok (r, ch')) :
    ∀ c, balanceSum ch' c = balanceSum ch c + (if qa.symbol.code = c then r else 0) := by
  rw [distribute_eq] at h
  by_cases hW : totalWeightFor ch qa.symbol.code = 0
  · rw [if_pos hW] at h
    simp only [Except.ok.injEq, Prod.mk.injEq] at h
    intro c
    rw [← h.2, ← h.1]
    simp
  · rw [if_neg hW] at h
    exact (creditShares_spec h).2.2.1

/-- The distributed total is the sum of the truncated proportional
shares (zero when the total weight is zero). -/
theorem distribute_r {ch ch' : Chain} {qa : Asset} {r : Int}
    (h : distribute ch qa = .ok (r, ch')) :
    (totalWeightFor ch qa.symbol.code = 0 ∧ r = 0) ∨
    (totalWeightFor ch qa.symbol.code ≠ 0 ∧
      r = ((stakeStatsFor ch qa.symbol.code).map (fun st =>
        (qa.amount * st.stake_weight).tdiv (totalWeightFor ch qa.symbol.code))).sum) := by
  rw [distribute_eq] at h
  by_cases hW : totalWeightFor ch qa.symbol.code = 0
  · rw [if_pos hW] at h
    simp only [Except.ok.injEq, Prod.mk.injEq] at h
    exact Or.inl ⟨hW, h.1.symm⟩
  · rw [if_neg hW] at h
    exact Or.inr ⟨hW, (creditShares_spec h).2.1⟩

/-- Distribution bound: with nonnegative weights and a nonnegative
quantity, the distributed total satisfies `0 ≤ r ≤ qa.amount`. -/
theorem distribute_bound {ch ch' : Chain} {qa : Asset} {r : Int}
    (h : distribute ch qa = .ok (r, ch'))
    (hws : ∀ st ∈ stakeStatsFor ch qa.symbol.code, 0 ≤ st.stake_weight)
    (hq : 0 ≤ qa.amount) : 0 ≤ r ∧ r ≤ qa.amount := by
  rcases distribute_r h with ⟨hW, rfl⟩ | ⟨hW, hr⟩
  · exact ⟨le_refl 0, hq⟩
  · have hWpos : 0 < totalWeightFor ch qa.symbol.code := totalWeight_pos hws hW
    rw [distribute_eq, if_neg hW] at h
    have hnn : 0 ≤ r :=
      ((creditShares_mono hq hWpos h) hws).1
    refine ⟨hnn, ?_⟩
    rw [hr]
    have hb := shares_sum_le ((stakeStatsFor ch qa.symbol.code).map
      (fun st => st.stake_weight)) hq hWpos ?side
    case side =>
      intro w hw
      obtain ⟨st, hst, hfx⟩ := List.mem_map.mp hw
      rw [← hfx]
      exact hws st hst
    · have hcomp : ((stakeStatsFor ch qa.symbol.code).map (fun st =>
          (qa.amount * st.stake_weight).tdiv (totalWeightFor ch qa.symbol.code))).sum =
          (((stakeStatsFor ch qa.symbol.code).map (fun st => st.stake_weight)).map
            (fun w => (qa.amount * w).tdiv (totalWeightFor ch qa.symbol.code))).sum := by
        rw [List.map_map]
        rfl
      rw [hcomp]
      have hWsum : ((stakeStatsFor ch qa.symbol.code).map
          (fun st => st.stake_weight)).sum = totalWeightFor ch qa.symbol.code := rfl
      rw [hWsum] at hb
      rw [tdiv_mul_cancel hq hWpos] at hb
      exact hb

theorem distribute_mono {ch ch' : Chain} {qa : Asset} {r : Int}
    (h : distribute ch qa = .ok (r, ch'))
    (hws : ∀ st ∈ stakeStatsFor ch qa.symbol.code, 0 ≤ st.stake_weight)
    (hq : 0 ≤ qa.amount) :
    (balNonneg ch → balNonneg ch') ∧
    ((lookupStats ch qa.symbol.code).isSome = true → balHasStats ch → balHasStats ch') ∧
    (∀ o c, balD ch o c ≤ balD ch' o c ∧
      ((findBalance ch o c).isSome = true → (findBalance ch' o c).isSome = true)) := by
  rw [distribute_eq] at h
  by_cases hW : totalWeightFor ch qa.symbol.code = 0
  · rw [if_pos hW] at h
    simp only [Except.ok.injEq, Prod.mk.injEq] at h
    rw [← h.2]
    exact ⟨fun hb => hb, fun _ hb => hb, fun o c => ⟨le_refl _, fun hx => hx⟩⟩
  · have hWpos := totalWeight_pos hws hW
    rw [if_neg hW] at h
    obtain ⟨_, hbn, hhs, hmono⟩ := (creditShares_mono hq hWpos h) hws
    exact ⟨hbn, hhs, hmono⟩

/-- Accounts that are not stakers of the symbol keep their balance rows
through `distribute`. -/
theorem distribute_nonstaker {ch ch' : Chain} {qa : Asset} {r : Int}
    (h : distribute ch qa = .ok (r, ch'))
    {o : Name} (ho : findStakeStat ch qa.symbol.code o = none) :
    ∀ c, findBalance ch' o c = findBalance ch o c := by
  intro c
  rw [distribute_eq] at h
  by_cases hW : totalWeightFor ch qa.symbol.code = 0
  · rw [if_pos hW] at h
    simp only [Except.ok.injEq, Prod.mk.injEq] at h
    rw [← h.2]
  · rw [if_neg hW] at h
    refine (creditShares_spec h).2.2.2 o c ?_
    intro st hst hsto
    have hmem : (qa.symbol.code, st) ∈ ch.stakestats := by
      obtain ⟨p, hp, hfp⟩ := List.mem_filterMap.mp hst
      by_cases hpc : p.1 = qa.symbol.code
      · rw [if_pos hpc] at hfp
        injection hfp with hfp
        rw [← hfp, ← hpc]
        exact hp
      · rw [if_neg hpc] at hfp
        exact absurd hfp (by simp)
    have hrow : ch.stakestats.find? (ssKey qa.symbol.code o) = none := by
      unfold findStakeStat at ho
      cases hf : ch.stakestats.find? (ssKey qa.symbol.code o) with
      | none => rfl
      | some p => rw [hf] at ho; exact absurd ho (by simp)
    have hnone := List.find?_eq_none.mp hrow _ hmem
    exact hnone (by simp [ssKey, hsto])

/-! ## Lemmas about `setBalance` and `sub_balance` -/

theorem setBalance_fields {ch : Chain} {o : Name} {c : Nat} {b : Asset} :
    (setBalance ch o c b).stats = ch.stats ∧
    (setBalance ch o c b).stakes = ch.stakes ∧
    (setBalance ch o c b).stakestats = ch.stakestats ∧
    (setBalance ch o c b).chainAccounts = ch.chainAccounts :=
  ⟨rfl, rfl, rfl, rfl⟩

theorem setBalance_sum {ch : Chain} {o : Name} {c : Nat} {fromBal y : Asset}
    (hf : findBalance ch o c = some fromBal) (hy : y.symbol = fromBal.symbol) :
    ∀ c', balanceSum (setBalance ch o c y) c' =
      balanceSum ch c' + (if c = c' then y.amount - fromBal.amount else 0) := by
  intro c'
  obtain ⟨hrow, hcode⟩ := findBalance_row hf
  unfold balanceSum setBalance
  simp only
  rw [sum_map_mfirst _ hrow]
  dsimp only
  have hyc : y.symbol.code = fromBal.symbol.code := by rw [hy]
  simp only [hyc, hcode]
  split_ifs <;> omega

theorem setBalance_find_same {ch : Chain} {o : Name} {c : Nat} {fromBal y : Asset}
    (hf : findBalance ch o c = some fromBal) (hy : y.symbol = fromBal.symbol) :
    findBalance (setBalance ch o c y) o c = some y := by
  obtain ⟨hrow, hcode⟩ := findBalance_row hf
  unfold findBalance setBalance
  simp only
  have hk : balKey o c (o, y) = true := by
    simp only [balKey]
    simp [hy, hcode]
  rw [find?_mfirst_const hrow hk]
  rfl

theorem setBalance_find_other {ch : Chain} {o o' : Name} {c c' : Nat} {fromBal y : Asset}
    (hf : findBalance ch o c = some fromBal) (hy : y.symbol = fromBal.symbol)
    (hne : ¬(o' = o ∧ c' = c)) :
    findBalance (setBalance ch o c y) o' c' = findBalance ch o' c' := by
  obtain ⟨hrow, hcode⟩ := findBalance_row hf
  unfold findBalance setBalance
  simp only
  have hyk : y.symbol.code = c := by rw [hy]; exact hcode
  have hne' : ¬(o' = o ∧ c' = y.symbol.code) := by rw [hyk]; exact hne
  rw [find?_mfirst_other (balKey_disjoint hne) (@balKey_pair_false o o' c' y hne')]

theorem setBalance_memOld {ch : Chain} {o : Name} {c : Nat} {y : Asset}
    {r : Name × Asset} (hr : r ∈ (setBalance ch o c y).balances) :
    r ∈ ch.balances ∨ r = (o, y) := mem_mfirst hr

/-- Decomposition of a successful `sub_balance`. -/
theorem sub_balance_spec {self : Name} {ch ch' : Chain} {o : Name} {v : Asset}
    (h : sub_balance self ch o v = .ok ch') :
    ∃ fromBal r ch2,
      findBalance ch o v.symbol.code = some fromBal ∧
      v.amount + Int.tdiv v.amount 100 ≤
        fromBal.amount - (get_stake ch o v.symbol).amount ∧
      distribute (setBalance ch o v.symbol.code
          ⟨fromBal.amount - (v.amount + Int.tdiv v.amount 100), fromBal.symbol⟩)
          ⟨Int.tdiv (7 * Int.tdiv v.amount 100) 10, v.symbol⟩ = .ok (r, ch2) ∧
      ((0 < Int.tdiv v.amount 100 - r ∧
          add_balance ch2 self ⟨Int.tdiv v.amount 100 - r, v.symbol⟩ = .ok ch') ∨
        (¬ 0 < Int.tdiv v.amount 100 - r ∧ ch' = ch2)) := by
  unfold sub_balance at h
  cases hf : findBalance ch o v.symbol.code with
  | none => rw [hf] at h; exact absurd h (by simp)
  | some fromBal =>
    rw [hf] at h
    simp only at h
    by_cases hover : fromBal.amount - (get_stake ch o v.symbol).amount <
        v.amount + Int.tdiv v.amount 100
    · rw [if_pos hover] at h
      exact absurd h (by simp)
    · rw [if_neg hover] at h
      cases hdist : distribute (setBalance ch o v.symbol.code
          ⟨fromBal.amount - (v.amount + Int.tdiv v.amount 100), fromBal.symbol⟩)
          ⟨Int.tdiv (7 * Int.tdiv v.amount 100) 10, v.symbol⟩ with
      | error e => rw [hdist] at h; exact absurd h (by simp)
      | ok rc =>
        rw [hdist] at h
        simp only [bind_ok] at h
        refine ⟨fromBal, rc.1, rc.2, rfl, by omega, hdist, ?_⟩
        by_cases hrem : 0 < Int.tdiv v.amount 100 - rc.1
        · rw [if_pos hrem] at h
          exact Or.inl ⟨hrem, h⟩
        · rw [if_neg hrem] at h
          injection h with h
          exact Or.inr ⟨hrem, h.symm⟩

/-! ## Congruence helpers and membership for scoped views -/

theorem stakeStatsFor_mem {ch : Chain} {c : Nat} {st : StakeStat}
    (h : st ∈ stakeStatsFor ch c) : (c, st) ∈ ch.stakestats := by
  obtain ⟨p, hp, hfp⟩ := List.mem_filterMap.mp h
  by_cases hpc : p.1 = c
  · rw [if_pos hpc] at hfp
    injection hfp with hfp
    rw [← hfp, ← hpc]
    exact hp
  · rw [if_neg hpc] at hfp
    exact absurd hfp (by simp)

theorem findBalance_congr {ch ch' : Chain} (h : ch'.balances = ch.balances) :
    ∀ o c, findBalance ch' o c = findBalance ch o c := by
  intro o c; unfold findBalance; rw [h]

theorem balanceSum_congr {ch ch' : Chain} (h : ch'.balances = ch.balances) :
    ∀ c, balanceSum ch' c = balanceSum ch c := by
  intro c; unfold balanceSum; rw [h]

theorem findStakeStat_congr {ch ch' : Chain} (h : ch'.stakestats = ch.stakestats) :
    ∀ c s, findStakeStat ch' c s = findStakeStat ch c s := by
  intro c s; unfold findStakeStat; rw [h]

theorem stakeStatsFor_congr {ch ch' : Chain} (h : ch'.stakestats = ch.stakestats) :
    ∀ c, stakeStatsFor ch' c = stakeStatsFor ch c := by
  intro c; unfold stakeStatsFor; rw [h]

theorem totalWeightFor_congr {ch ch' : Chain} (h : ch'.stakestats = ch.stakestats) :
    ∀ c, totalWeightFor ch' c = totalWeightFor ch c := by
  intro c; unfold totalWeightFor; rw [stakeStatsFor_congr h]

theorem recordSum_congr {ch ch' : Chain} (h : ch'.stakes = ch.stakes) :
    ∀ c o, recordSum ch' c o = recordSum ch c o := by
  intro c o; unfold recordSum; rw [h]

theorem ownerRecords_congr {ch ch' : Chain} (h : ch'.stakes = ch.stakes) :
    ∀ o, ownerRecords ch' o = ownerRecords ch o := by
  intro o; unfold ownerRecords; rw [h]

theorem get_stake_congr {ch ch' : Chain} (h : ch'.stakestats = ch.stakestats) :
    ∀ s sym, get_stake ch' s sym = get_stake ch s sym := by
  intro s sym; unfold get_stake; rw [findStakeStat_congr h]

theorem capInv_congr {ch ch' : Chain} (h : ch'.stats = ch.stats)
    (hc : capInv ch) : capInv ch' := by
  intro st hm hl
  rw [h] at hm
  rw [lookupStats_congr h] at hl
  exact hc st hm hl

theorem wNonneg_congr {ch ch' : Chain} (h : ch'.stakestats = ch.stakestats)
    (hc : wNonneg ch) : wNonneg ch' := by
  intro r hm; rw [h] at hm; exact hc r hm

theorem totNonneg_congr {ch ch' : Chain} (h : ch'.stakestats = ch.stakestats)
    (hc : totNonneg ch) : totNonneg ch' := by
  intro r hm; rw [h] at hm; exact hc r hm

theorem qPos_congr {ch ch' : Chain} (h : ch'.stakes = ch.stakes)
    (hc : qPos ch) : qPos ch' := by
  intro r hm; rw [h] at hm; exact hc r hm

theorem recSymB_congr {ch ch' : Chain} (h : ch'.stats = ch.stats) :
    ∀ r, recSymB ch' r = recSymB ch r := by
  intro r; unfold recSymB; rw [lookupStats_congr h]

/-! ## Decomposition of a successful `transfer` -/

theorem transfer_ok_spec {self : Name} {ch ch' : Chain} {frm toN : Name}
    {v : Asset} {memo : List Char}
    (h : transfer self ch frm toN v memo = .ok ch') :
    frm ≠ toN ∧ toN ∈ ch.chainAccounts ∧
    ∃ st, lookupStats ch v.symbol.code = some st ∧ assetValid v = true ∧
      0 < v.amount ∧ v.symbol = st.supply.symbol ∧ memo.length ≤ 256 ∧
      ∃ ch1, sub_balance self ch frm v = .ok ch1 ∧ add_balance ch1 toN v = .ok ch' := by
  unfold transfer at h
  by_cases h1 : frm = toN
  · rw [if_pos h1] at h; exact absurd h (by simp)
  rw [if_neg h1] at h
  by_cases h2 : toN ∈ ch.chainAccounts
  swap
  · rw [if_pos h2] at h; exact absurd h (by simp)
  rw [if_neg (not_not_intro h2)] at h
  cases hst : lookupStats ch v.symbol.code with
  | none => rw [hst] at h; exact absurd h (by simp)
  | some st =>
    rw [hst] at h
    simp only at h
    by_cases h3 : assetValid v = true
    swap
    · rw [if_pos (by simpa using h3)] at h; exact absurd h (by simp)
    rw [if_neg (not_not_intro (by simpa using h3))] at h
    by_cases h4 : 0 < v.amount
    swap
    · rw [if_pos h4] at h; exact absurd h (by simp)
    rw [if_neg (not_not_intro h4)] at h
    by_cases h5 : v.symbol = st.supply.symbol
    swap
    · rw [if_pos h5] at h; exact absurd h (by simp)
    rw [if_neg (not_not_intro h5)] at h
    by_cases h6 : memo.length ≤ 256
    swap
    · rw [if_pos h6] at h; exact absurd h (by simp)
    rw [if_neg (not_not_intro h6)] at h
    cases hsb : sub_balance self ch frm v with
    | error e => rw [hsb] at h; exact absurd h (by simp)
    | ok ch1 =>
      rw [hsb] at h
      simp only [bind_ok] at h
      exact ⟨h1, h2, st, rfl, h3, h4, h5, h6, ch1, rfl, h⟩

/-! ## Preservation of the invariants by `transfer` -/

/-- Transport of the stake-table invariants when the stake tables and
stats are unchanged. -/
theorem invB_partial_congr {ch ch' : Chain} (hstats : ch'.stats = ch.stats)
    (hstakes : ch'.stakes = ch.stakes) (hss : ch'.stakestats = ch.stakestats)
    (hrs : recSymInv ch) (hno : noOrphan ch) (hsum : statSumInv ch)
    (hpos : statPos ch) :
    recSymInv ch' ∧ noOrphan ch' ∧ statSumInv ch' ∧ statPos ch' := by
  refine ⟨?_, ?_, ?_, ?_⟩
  · intro r hm
    rw [hstakes] at hm
    rw [recSymB_congr hstats]
    exact hrs r hm
  · intro r hm
    rw [hstakes] at hm
    rw [findStakeStat_congr hss]
    exact hno r hm
  · intro p hm hl
    rw [hss] at hm
    rw [findStakeStat_congr hss] at hl
    rw [recordSum_congr hstakes]
    exact hsum p hm hl
  · intro p hm hl
    rw [hss] at hm
    rw [findStakeStat_congr hss] at hl
    exact hpos p hm hl

theorem transfer_preserves {self : Name} {ch ch' : Chain} {frm toN : Name}
    {v : Asset} {memo : List Char}
    (hA : InvA ch) (h : transfer self ch frm toN v memo = .ok ch') :
    (ch'.stats = ch.stats ∧ ch'.stakes = ch.stakes ∧
      ch'.stakestats = ch.stakestats ∧ ch'.chainAccounts = ch.chainAccounts) ∧
    (∀ c, balanceSum ch' c = balanceSum ch c) ∧
    InvA ch' ∧
    (statLeBal ch → statLeBal ch') := by
  obtain ⟨hcons, hbs, hcap, hbn, hw, htot, hqp⟩ := hA
  obtain ⟨hne, hacct, st, hst, hvalid, hv, hsym, hmemo, ch1, hsb, hab⟩ :=
    transfer_ok_spec h
  obtain ⟨fromBal, r, ch2, hf, hov, hdist, hrem⟩ := sub_balance_spec hsb
  obtain ⟨hfrow, hfcode⟩ := findBalance_row hf
  -- abbreviations used below (mirroring the source's fee arithmetic)
  have hfee0 : 0 ≤ Int.tdiv v.amount 100 := fee_nonneg hv.le
  have hfs0 : 0 ≤ Int.tdiv (7 * Int.tdiv v.amount 100) 10 :=
    tdiv_nonneg (by positivity) (by norm_num)
  have hfs_le : Int.tdiv (7 * Int.tdiv v.amount 100) 10 ≤ Int.tdiv v.amount 100 :=
    seven_tenths_le hfee0
  have hstk0 : 0 ≤ (get_stake ch frm v.symbol).amount := get_stake_nonneg htot
  -- the debited intermediate chain
  have hssD : (setBalance ch frm v.symbol.code
      ⟨fromBal.amount - (v.amount + Int.tdiv v.amount 100), fromBal.symbol⟩).stakestats
      = ch.stakestats := rfl
  have hwD : ∀ x ∈ stakeStatsFor (setBalance ch frm v.symbol.code
      ⟨fromBal.amount - (v.amount + Int.tdiv v.amount 100), fromBal.symbol⟩)
      v.symbol.code, 0 ≤ x.stake_weight := by
    intro x hx
    rw [stakeStatsFor_congr hssD] at hx
    exact hw _ (stakeStatsFor_mem hx)
  have hbound := distribute_bound hdist hwD hfs0
  -- fields equalities along the chain
  have hDfields := distribute_fields hdist
  have habfields := add_balance_fields hab
  have hfields : ch'.stats = ch.stats ∧ ch'.stakes = ch.stakes ∧
      ch'.stakestats = ch.stakestats ∧ ch'.chainAccounts = ch.chainAccounts := by
    rcases hrem with ⟨hpos, habr⟩ | ⟨hneg, rfl⟩
    · have hrf := add_balance_fields habr
      exact ⟨by rw [habfields.1, hrf.1, hDfields.1]; rfl,
        by rw [habfields.2.1, hrf.2.1, hDfields.2.1]; rfl,
        by rw [habfields.2.2.1, hrf.2.2.1, hDfields.2.2.1]; rfl,
        by rw [habfields.2.2.2, hrf.2.2.2, hDfields.2.2.2]; rfl⟩
    · exact ⟨by rw [habfields.1, hDfields.1]; rfl,
        by rw [habfields.2.1, hDfields.2.1]; rfl,
        by rw [habfields.2.2.1, hDfields.2.2.1]; rfl,
        by rw [habfields.2.2.2, hDfields.2.2.2]; rfl⟩
  have hboundr : 0 ≤ r ∧ r ≤ Int.tdiv (7 * Int.tdiv v.amount 100) 10 := hbound
  -- balance sums along the chain
  have hs1 := setBalance_sum hf (rfl :
    (⟨fromBal.amount - (v.amount + Int.tdiv v.amount 100), fromBal.symbol⟩ :
      Asset).symbol = fromBal.symbol)
  have hs2 := distribute_balanceSum hdist
  have hs4 := add_balance_balanceSum hab
  have hsum : ∀ c, balanceSum ch' c = balanceSum ch c := by
    intro c
    rcases hrem with ⟨hpos, habr⟩ | ⟨hneg, rfl⟩
    · have hs3 := add_balance_balanceSum habr
      rw [hs4 c, hs3 c, hs2 c, hs1 c]
      by_cases hc : v.symbol.code = c
      · simp only [hc, if_pos rfl]
        simp only [eq_self_iff_true, if_true]
        omega
      · rw [if_neg hc, if_neg hc, if_neg hc, if_neg hc]
        omega
    · rw [hs4 c, hs2 c, hs1 c]
      by_cases hc : v.symbol.code = c
      · simp only [hc, if_pos rfl]
        simp only [eq_self_iff_true, if_true]
        omega
      · rw [if_neg hc, if_neg hc, if_neg hc]
        omega
  -- lookupStats of the symbol is present
  have hstSome : (lookupStats ch v.symbol.code).isSome = true := by
    rw [hst]; rfl
  -- balance nonnegativity and has-stats through the chain
  have hbnD : balNonneg (setBalance ch frm v.symbol.code
      ⟨fromBal.amount - (v.amount + Int.tdiv v.amount 100), fromBal.symbol⟩) := by
    intro rrow hr
    rcases setBalance_memOld hr with hold | hnew
    · exact hbn rrow hold
    · rw [hnew]
      dsimp only
      omega
  have hbsD : balHasStats (setBalance ch frm v.symbol.code
      ⟨fromBal.amount - (v.amount + Int.tdiv v.amount 100), fromBal.symbol⟩) := by
    intro rrow hr
    rcases setBalance_memOld hr with hold | hnew
    · exact hbs rrow hold
    · rw [hnew]
      dsimp only
      rw [show fromBal.symbol.code = v.symbol.code from hfcode]
      exact hstSome
  obtain ⟨hmbn, hmbs, hmono⟩ := distribute_mono hdist hwD hfs0
  have hbn2 : balNonneg ch2 := hmbn hbnD
  have hbs2 : balHasStats ch2 := hmbs hstSome hbsD
  have hlook2 : ∀ c, lookupStats ch2 c = lookupStats ch c := by
    intro c
    rw [lookupStats_congr hDfields.1]
    rfl
  have hbn1 : balNonneg ch1 ∧ balHasStats ch1 ∧
      (∀ o c, balD ch2 o c ≤ balD ch1 o c ∧
        ((findBalance ch2 o c).isSome = true → (findBalance ch1 o c).isSome = true)) ∧
      (∀ c, lookupStats ch1 c = lookupStats ch c) := by
    rcases hrem with ⟨hpos, habr⟩ | ⟨hneg, rfl⟩
    · refine ⟨add_balance_balNonneg habr (by dsimp only; omega) hbn2,
        add_balance_balHasStats habr (by rw [hlook2]; exact hstSome) hbs2,
        fun o c => add_balance_balD_mono habr (by dsimp only; omega) o c,
        fun c => by rw [lookupStats_congr (add_balance_fields habr).1, hlook2]⟩
    · exact ⟨hbn2, hbs2, fun o c => ⟨le_refl _, fun hx => hx⟩, hlook2⟩
  have hbn' : balNonneg ch' := add_balance_balNonneg hab hv.le hbn1.1
  have hbs' : balHasStats ch' := add_balance_balHasStats hab
    (by rw [hbn1.2.2.2]; exact hstSome) hbn1.2.1
  -- assemble InvA
  have hA' : InvA ch' := by
    refine ⟨?_, hbs', capInv_congr hfields.1 hcap, hbn',
      wNonneg_congr hfields.2.2.1 hw, totNonneg_congr hfields.2.2.1 htot,
      qPos_congr hfields.2.1 hqp⟩
    intro st' hm' hl'
    rw [hfields.1] at hm'
    rw [lookupStats_congr hfields.1] at hl'
    rw [hsum]
    exact hcons st' hm' hl'
  -- statLeBal preservation
  refine ⟨hfields, hsum, hA', ?_⟩
  intro hslb
  intro p hm' hl'
  rw [hfields.2.2.1] at hm'
  rw [findStakeStat_congr hfields.2.2.1] at hl'
  obtain ⟨hsome, hle⟩ := statLeBal_lookup hslb hl'
  -- track the balance of (p.2.staker, p.1) through the chain
  have hstep : (findBalance (setBalance ch frm v.symbol.code
        ⟨fromBal.amount - (v.amount + Int.tdiv v.amount 100), fromBal.symbol⟩)
        p.2.staker p.1).isSome = true ∧
      p.2.total_stake.amount ≤ balD (setBalance ch frm v.symbol.code
        ⟨fromBal.amount - (v.amount + Int.tdiv v.amount 100), fromBal.symbol⟩)
        p.2.staker p.1 := by
    have hfindD : findBalance (setBalance ch frm v.symbol.code
        ⟨fromBal.amount - (v.amount + Int.tdiv v.amount 100), fromBal.symbol⟩)
        frm v.symbol.code =
        some ⟨fromBal.amount - (v.amount + Int.tdiv v.amount 100), fromBal.symbol⟩ :=
      setBalance_find_same hf rfl
    have hfindO : ∀ o' c', ¬(o' = frm ∧ c' = v.symbol.code) →
        findBalance (setBalance ch frm v.symbol.code
          ⟨fromBal.amount - (v.amount + Int.tdiv v.amount 100), fromBal.symbol⟩)
          o' c' = findBalance ch o' c' :=
      fun o' c' hk => setBalance_find_other hf rfl hk
    by_cases hkey : p.2.staker = frm ∧ p.1 = v.symbol.code
    · obtain ⟨hk1, hk2⟩ := hkey
      rw [hk1, hk2]
      rw [hfindD]
      constructor
      · rfl
      · have hget : (get_stake ch frm v.symbol).amount = p.2.total_stake.amount := by
          have hl2 : findStakeStat ch v.symbol.code frm = some p.2 := by
            rw [← hk2, ← hk1]
            exact hl'
          unfold get_stake
          rw [hl2]
        unfold balD
        rw [hfindD]
        simp only [Option.map, Option.getD]
        omega
    · rw [hfindO p.2.staker p.1 hkey]
      refine ⟨hsome, ?_⟩
      unfold balD
      rw [hfindO p.2.staker p.1 hkey]
      exact hle
  have h2 := hmono p.2.staker p.1
  have h3 := hbn1.2.2.1 p.2.staker p.1
  have h4 := add_balance_balD_mono hab hv.le p.2.staker p.1
  refine ⟨h4.2 (h3.2 (h2.2 hstep.1)), ?_⟩
  have hb1 : p.2.total_stake.amount ≤ balD ch2 p.2.staker p.1 :=
    le_trans hstep.2 h2.1
  have hb2 : p.2.total_stake.amount ≤ balD ch1 p.2.staker p.1 :=
    le_trans hb1 h3.1
  exact le_trans hb2 h4.1

theorem transfer_invB {self : Name} {ch ch' : Chain} {frm toN : Name}
    {v : Asset} {memo : List Char}
    (hA : InvA ch) (hB : InvB ch) (h : transfer self ch frm toN v memo = .ok ch') :
    InvB ch' := by
  obtain ⟨hrs, hno, hsum, hslb, hpos⟩ := hB
  obtain ⟨hfields, _, _, hslb'⟩ := transfer_preserves hA h
  obtain ⟨h1, h2, h3, h4⟩ :=
    invB_partial_congr hfields.1 hfields.2.1 hfields.2.2.1 hrs hno hsum hpos
  exact ⟨h1, h2, h3, hslb' hslb, h4⟩

/-! ## Lemmas about `setStats` -/

theorem statKey_disjoint {c c' : Nat} (h : c' ≠ c) :
    ∀ a, statKey c a = true → statKey c' a = false := by
  intro a ha
  simp only [statKey, decide_eq_true_eq] at ha
  simp only [statKey, decide_eq_false_iff_not]
  rw [ha]
  exact fun hc => h hc.symm

theorem statKey_val_false {c' : Nat} {st' : CurrencyStats}
    (h : ¬ st'.supply.symbol.code = c') : statKey c' st' = false := by
  simp only [statKey, decide_eq_false_iff_not]
  exact h

theorem lookupStats_setStats_same {ch : Chain} {c : Nat} {st st' : CurrencyStats}
    (h : lookupStats ch c = some st) (hk : st'.supply.symbol.code = c) :
    lookupStats (setStats ch c st') c = some st' := by
  unfold lookupStats setStats
  simp only
  exact find?_mfirst_const h (by simp [statKey, hk])

theorem lookupStats_setStats_other {ch : Chain} {c c' : Nat} {st' : CurrencyStats}
    (hne : c' ≠ c) (hk : st'.supply.symbol.code = c) :
    lookupStats (setStats ch c st') c' = lookupStats ch c' := by
  unfold lookupStats setStats
  simp only
  exact find?_mfirst_other (statKey_disjoint hne)
    (statKey_val_false (by rw [hk]; exact fun hc => hne hc.symm))

theorem setStats_mem {ch : Chain} {c : Nat} {st' a : CurrencyStats}
    (h : a ∈ (setStats ch c st').stats) : a ∈ ch.stats ∨ a = st' := mem_mfirst h

theorem setStats_fields {ch : Chain} {c : Nat} {st' : CurrencyStats} :
    (setStats ch c st').balances = ch.balances ∧
    (setStats ch c st').stakes = ch.stakes ∧
    (setStats ch c st').stakestats = ch.stakestats ∧
    (setStats ch c st').chainAccounts = ch.chainAccounts :=
  ⟨rfl, rfl, rfl, rfl⟩

/-! ## Preservation by `openA` and `closeA` -/

theorem openA_spec {ch ch' : Chain} {owner : Name} {sym : Sym}
    (h : openA ch owner sym = .ok ch') :
    ∃ st, lookupStats ch sym.code = some st ∧ st.supply.symbol = sym ∧
      ((∃ b, findBalance ch owner sym.code = some b ∧ ch' = ch) ∨
        (findBalance ch owner sym.code = none ∧
          ch' = { ch with balances := ch.balances ++ [(owner, ⟨0, sym⟩)] })) := by
  unfold openA at h
  cases hst : lookupStats ch sym.code with
  | none => rw [hst] at h; exact absurd h (by simp)
  | some st =>
    rw [hst] at h
    simp only at h
    by_cases hp : st.supply.symbol = sym
    swap
    · rw [if_pos hp] at h; exact absurd h (by simp)
    rw [if_neg (not_not_intro hp)] at h
    refine ⟨st, rfl, hp, ?_⟩
    cases hf : findBalance ch owner sym.code with
    | some b =>
      rw [hf] at h
      injection h with h
      exact Or.inl ⟨b, rfl, h.symm⟩
    | none =>
      rw [hf] at h
      injection h with h
      exact Or.inr ⟨rfl, h.symm⟩

theorem openA_preserves {ch ch' : Chain} {owner : Name} {sym : Sym}
    (hA : InvA ch) (h : openA ch owner sym = .ok ch') :
    (ch'.stats = ch.stats ∧ ch'.stakes = ch.stakes ∧
      ch'.stakestats = ch.stakestats ∧ ch'.chainAccounts = ch.chainAccounts) ∧
    (∀ c, balanceSum ch' c = balanceSum ch c) ∧
    InvA ch' ∧ (statLeBal ch → statLeBal ch') := by
  obtain ⟨hcons, hbs, hcap, hbn, hw, htot, hqp⟩ := hA
  obtain ⟨st, hst, hp, hcase⟩ := openA_spec h
  rcases hcase with ⟨b, hf, rfl⟩ | ⟨hf, rfl⟩
  · exact ⟨⟨rfl, rfl, rfl, rfl⟩, fun c => rfl,
      ⟨hcons, hbs, hcap, hbn, hw, htot, hqp⟩, fun hs => hs⟩
  · have hsum : ∀ c, balanceSum { ch with balances :=
        ch.balances ++ [(owner, (⟨0, sym⟩ : Asset))] } c = balanceSum ch c := by
      intro c
      unfold balanceSum
      simp only
      rw [sum_map_append_single]
      dsimp only
      split_ifs <;> omega
    have hfindO : ∀ o' c', ¬(o' = owner ∧ c' = sym.code) →
        findBalance { ch with balances := ch.balances ++ [(owner, (⟨0, sym⟩ : Asset))] } o' c'
          = findBalance ch o' c' := by
      intro o' c' hk
      unfold findBalance
      simp only
      rw [find?_append_single]
      cases hq : ch.balances.find? (balKey o' c') with
      | none =>
        rw [@balKey_pair_false owner o' c' ⟨0, sym⟩ hk]
        simp
      | some r => simp
    refine ⟨⟨rfl, rfl, rfl, rfl⟩, hsum, ⟨?_, ?_, hcap, ?_, hw, htot, hqp⟩, ?_⟩
    · intro st' hm' hl'
      rw [hsum]
      exact hcons st' hm' hl'
    · intro r hr
      simp only at hr
      rcases List.mem_append.mp hr with hr | hr
      · exact hbs r hr
      · simp only [List.mem_singleton] at hr
        rw [hr]
        show (lookupStats { ch with balances :=
          ch.balances ++ [(owner, (⟨0, sym⟩ : Asset))] } sym.code).isSome = true
        have : lookupStats { ch with balances :=
            ch.balances ++ [(owner, (⟨0, sym⟩ : Asset))] } sym.code
            = lookupStats ch sym.code := rfl
        rw [this, hst]
        rfl
    · intro r hr
      simp only at hr
      rcases List.mem_append.mp hr with hr | hr
      · exact hbn r hr
      · simp only [List.mem_singleton] at hr
        rw [hr]
    · intro hslb p hm' hl'
      obtain ⟨hsome, hle⟩ := statLeBal_lookup hslb hl'
      by_cases hkey : p.2.staker = owner ∧ p.1 = sym.code
      · rw [hkey.1, hkey.2] at hsome
        rw [hf] at hsome
        exact absurd hsome (by simp)
      · rw [hfindO p.2.staker p.1 hkey]
        unfold balD
        rw [hfindO p.2.staker p.1 hkey]
        exact ⟨hsome, hle⟩

theorem closeA_spec {ch ch' : Chain} {owner : Name} {sym : Sym}
    (h : closeA ch owner sym = .ok ch') :
    ∃ b, findBalance ch owner sym.code = some b ∧ b.amount = 0 ∧
      ch' = eraseBalance ch owner sym.code := by
  unfold closeA at h
  cases hf : findBalance ch owner sym.code with
  | none => rw [hf] at h; exact absurd h (by simp)
  | some b =>
    rw [hf] at h
    simp only at h
    by_cases hz : b.amount = 0
    swap
    · rw [if_pos hz] at h; exact absurd h (by simp)
    rw [if_neg (not_not_intro hz)] at h
    injection h with h
    exact ⟨b, rfl, hz, h.symm⟩

theorem closeA_preserves {ch ch' : Chain} {owner : Name} {sym : Sym}
    (hA : InvA ch) (h : closeA ch owner sym = .ok ch') :
    (ch'.stats = ch.stats ∧ ch'.stakes = ch.stakes ∧
      ch'.stakestats = ch.stakestats ∧ ch'.chainAccounts = ch.chainAccounts) ∧
    (∀ c, balanceSum ch' c = balanceSum ch c) ∧
    InvA ch' ∧ (statLeBal ch → statPos ch → statLeBal ch') := by
  obtain ⟨hcons, hbs, hcap, hbn, hw, htot, hqp⟩ := hA
  obtain ⟨b, hf, hz, rfl⟩ := closeA_spec h
  obtain ⟨hrow, hcode⟩ := findBalance_row hf
  have hsum : ∀ c, balanceSum (eraseBalance ch owner sym.code) c = balanceSum ch c := by
    intro c
    unfold balanceSum eraseBalance
    simp only
    rw [sum_map_efirst _ hrow]
    dsimp only
    split_ifs <;> omega
  have hfindO : ∀ o' c', ¬(o' = owner ∧ c' = sym.code) →
      findBalance (eraseBalance ch owner sym.code) o' c' = findBalance ch o' c' := by
    intro o' c' hk
    unfold findBalance eraseBalance
    simp only
    rw [find?_efirst_other (balKey_disjoint hk)]
  refine ⟨⟨rfl, rfl, rfl, rfl⟩, hsum, ⟨?_, ?_, hcap, ?_, hw, htot, hqp⟩, ?_⟩
  · intro st' hm' hl'
    rw [hsum]
    exact hcons st' hm' hl'
  · intro r hr
    exact hbs r (mem_efirst hr)
  · intro r hr
    exact hbn r (mem_efirst hr)
  · intro hslb hpos p hm' hl'
    obtain ⟨hsome, hle⟩ := statLeBal_lookup hslb hl'
    have hp := statPos_lookup hpos hl'
    by_cases hkey : p.2.staker = owner ∧ p.1 = sym.code
    · exfalso
      rw [hkey.1, hkey.2] at hle
      unfold balD at hle
      rw [hf] at hle
      simp only [Option.map, Option.getD] at hle
      omega
    · rw [hfindO p.2.staker p.1 hkey]
      unfold balD
      rw [hfindO p.2.staker p.1 hkey]
      exact ⟨hsome, hle⟩

/-! ## Preservation by `issue` -/

theorem issue_ok_spec {self : Name} {ch ch' : Chain} {q : Asset}
    (h : issue self ch q = .ok ch') :
    symCodeValid q.symbol.code = true ∧
    ∃ st, lookupStats ch q.symbol.code = some st ∧ assetValid q = true ∧
      0 < q.amount ∧ q.symbol = st.supply.symbol ∧
      q.amount ≤ st.max_supply.amount - st.supply.amount ∧
      add_balance (setStats ch q.symbol.code
        { st with supply := ⟨st.supply.amount + q.amount, st.supply.symbol⟩ })
        self q = .ok ch' := by
  unfold issue at h
  by_cases h1 : symCodeValid q.symbol.code = true
  swap
  · rw [if_pos (by simpa using h1)] at h; exact absurd h (by simp)
  rw [if_neg (not_not_intro (by simpa using h1))] at h
  cases hst : lookupStats ch q.symbol.code with
  | none => rw [hst] at h; exact absurd h (by simp)
  | some st =>
    rw [hst] at h
    simp only at h
    by_cases h2 : assetValid q = true
    swap
    · rw [if_pos (by simpa using h2)] at h; exact absurd h (by simp)
    rw [if_neg (not_not_intro (by simpa using h2))] at h
    by_cases h3 : 0 < q.amount
    swap
    · rw [if_pos h3] at h; exact absurd h (by simp)
    rw [if_neg (not_not_intro h3)] at h
    by_cases h4 : q.symbol = st.supply.symbol
    swap
    · rw [if_pos h4] at h; exact absurd h (by simp)
    rw [if_neg (not_not_intro h4)] at h
    by_cases h5 : st.max_supply.amount - st.supply.amount < q.amount
    · rw [if_pos h5] at h; exact absurd h (by simp)
    rw [if_neg h5] at h
    unfold assetAdd at h
    rw [if_pos h4.symm] at h
    by_cases h6 : -maxAssetAmount ≤ st.supply.amount + q.amount ∧
        st.supply.amount + q.amount ≤ maxAssetAmount
    swap
    · rw [if_neg h6] at h; exact absurd h (by simp)
    rw [if_pos h6] at h
    simp only [bind_ok] at h
    exact ⟨h1, st, rfl, h2, h3, h4, by omega, h⟩

theorem issue_preserves {self : Name} {ch ch' : Chain} {q : Asset}
    (hA : InvA ch) (h : issue self ch q = .ok ch') :
    (ch'.stakes = ch.stakes ∧ ch'.stakestats = ch.stakestats ∧
      ch'.chainAccounts = ch.chainAccounts) ∧
    (∀ c, balanceSum ch' c =
      balanceSum ch c + (if q.symbol.code = c then q.amount else 0)) ∧
    (∃ st, lookupStats ch q.symbol.code = some st ∧
      lookupStats ch' q.symbol.code =
        some { st with supply := ⟨st.supply.amount + q.amount, st.supply.symbol⟩ }) ∧
    (∀ c, c ≠ q.symbol.code → lookupStats ch' c = lookupStats ch c) ∧
    InvA ch' ∧ (InvB ch → InvB ch') := by
  obtain ⟨hcons, hbs, hcap, hbn, hw, htot, hqp⟩ := hA
  obtain ⟨hsv, st, hst, hvalid, hq, hsym, hcapq, hab⟩ := issue_ok_spec h
  have hk : st.supply.symbol.code = q.symbol.code := by rw [← hsym]
  have habf := add_balance_fields hab
  have hl1 : lookupStats ch' q.symbol.code =
      some { st with supply := ⟨st.supply.amount + q.amount, st.supply.symbol⟩ } := by
    rw [lookupStats_congr habf.1]
    exact lookupStats_setStats_same hst hk
  have hl2 : ∀ c, c ≠ q.symbol.code → lookupStats ch' c = lookupStats ch c := by
    intro c hc
    rw [lookupStats_congr habf.1]
    exact lookupStats_setStats_other hc hk
  have hIsSome : ∀ c, (lookupStats ch c).isSome = true →
      (lookupStats ch' c).isSome = true := by
    intro c hsome
    by_cases hc : c = q.symbol.code
    · rw [hc, hl1]; rfl
    · rw [hl2 c hc]; exact hsome
  have hsum : ∀ c, balanceSum ch' c =
      balanceSum ch c + (if q.symbol.code = c then q.amount else 0) := by
    intro c
    have h1 := add_balance_balanceSum hab c
    have h2 : balanceSum (setStats ch q.symbol.code
        { st with supply := ⟨st.supply.amount + q.amount, st.supply.symbol⟩ }) c
        = balanceSum ch c := rfl
    rw [h1, h2]
  have hcapst := capInv_lookup hcap hst
  have hk' : ({ st with supply := ⟨st.supply.amount + q.amount, st.supply.symbol⟩ }
      : CurrencyStats).supply.symbol.code = q.symbol.code := hk
  have hstats' : ch'.stats = (setStats ch q.symbol.code
      { st with supply := ⟨st.supply.amount + q.amount, st.supply.symbol⟩ }).stats :=
    habf.1
  refine ⟨⟨by rw [habf.2.1]; rfl, by rw [habf.2.2.1]; rfl, by rw [habf.2.2.2]; rfl⟩,
    hsum, ⟨st, hst, hl1⟩, hl2, ⟨?_, ?_, ?_, ?_,
    wNonneg_congr (by rw [habf.2.2.1]; rfl) hw,
    totNonneg_congr (by rw [habf.2.2.1]; rfl) htot,
    qPos_congr (by rw [habf.2.1]; rfl) hqp⟩, ?_⟩
  · -- consInv
    intro row hm' hl'
    by_cases hc : row.supply.symbol.code = q.symbol.code
    · rw [hc] at hl' ⊢
      rw [hl1] at hl'
      injection hl' with hl'
      rw [← hl']
      dsimp only
      rw [hsum, if_pos rfl]
      have h9 := consInv_lookup hcons hst
      omega
    · rw [hl2 _ hc] at hl'
      rw [hsum]
      rw [if_neg (fun hh => hc hh.symm)]
      have hmold : row ∈ ch.stats := by
        rw [hstats'] at hm'
        rcases setStats_mem hm' with hm2 | hm2
        · exact hm2
        · exfalso
          apply hc
          rw [hm2]
          simp only
          exact hk
      have := hcons row hmold hl'
      omega
  · -- balHasStats
    have hbsS : balHasStats (setStats ch q.symbol.code
        { st with supply := ⟨st.supply.amount + q.amount, st.supply.symbol⟩ }) := by
      intro r hr
      have hr2 : r ∈ ch.balances := hr
      have := hbs r hr2
      by_cases hc : r.2.symbol.code = q.symbol.code
      · rw [hc]
        rw [show lookupStats (setStats ch q.symbol.code
            { st with supply := ⟨st.supply.amount + q.amount, st.supply.symbol⟩ })
            q.symbol.code = some { st with supply :=
              ⟨st.supply.amount + q.amount, st.supply.symbol⟩ } from
          lookupStats_setStats_same hst hk]
        rfl
      · rw [lookupStats_setStats_other hc hk']
        exact this
    exact add_balance_balHasStats hab
      (by rw [lookupStats_setStats_same hst hk']; rfl) hbsS
  · -- capInv
    intro row hm' hl'
    by_cases hc : row.supply.symbol.code = q.symbol.code
    · rw [hc] at hl'
      rw [hl1] at hl'
      injection hl' with hl'
      rw [← hl']
      dsimp only
      omega
    · rw [hl2 _ hc] at hl'
      have hmold : row ∈ ch.stats := by
        rw [hstats'] at hm'
        rcases setStats_mem hm' with hm2 | hm2
        · exact hm2
        · exfalso
          apply hc
          rw [hm2]
          simp only
          exact hk
      exact hcap row hmold hl'
  · -- balNonneg
    exact add_balance_balNonneg hab hq.le (fun r hr => hbn r hr)
  · -- InvB
    intro hB
    obtain ⟨hrs, hno, hsum2, hslb, hpos⟩ := hB
    have hss' : ch'.stakestats = ch.stakestats := by rw [habf.2.2.1]; rfl
    have hstk' : ch'.stakes = ch.stakes := by rw [habf.2.1]; rfl
    refine ⟨?_, ?_, ?_, ?_, ?_⟩
    · intro r hm
      rw [hstk'] at hm
      have := hrs r hm
      unfold recSymB at this ⊢
      by_cases hc : r.2.quantity.symbol.code = q.symbol.code
      · rw [hc] at this ⊢
        rw [hl1]
        rw [hst] at this
        simpa using this
      · rw [hl2 _ hc]
        exact this
    · intro r hm
      rw [hstk'] at hm
      rw [findStakeStat_congr hss']
      exact hno r hm
    · intro p hm hl
      rw [hss'] at hm
      rw [findStakeStat_congr hss'] at hl
      rw [recordSum_congr hstk']
      exact hsum2 p hm hl
    · intro p hm hl
      rw [hss'] at hm
      rw [findStakeStat_congr hss'] at hl
      obtain ⟨hsome, hle⟩ := statLeBal_lookup hslb hl
      have hm2 := add_balance_balD_mono hab hq.le p.2.staker p.1
      have hfS : findBalance (setStats ch q.symbol.code
          { st with supply := ⟨st.supply.amount + q.amount, st.supply.symbol⟩ })
          p.2.staker p.1 = findBalance ch p.2.staker p.1 := rfl
      have hbS : balD (setStats ch q.symbol.code
          { st with supply := ⟨st.supply.amount + q.amount, st.supply.symbol⟩ })
          p.2.staker p.1 = balD ch p.2.staker p.1 := rfl
      rw [hfS] at hm2
      rw [hbS] at hm2
      exact ⟨hm2.2 hsome, le_trans hle hm2.1⟩
    · intro p hm hl
      rw [hss'] at hm
      rw [findStakeStat_congr hss'] at hl
      exact hpos p hm hl

/-! ## Preservation by `create` -/

theorem balanceSum_zero_of_no_stats {ch : Chain} {c : Nat}
    (hbs : balHasStats ch) (hnone : lookupStats ch c = none) :
    balanceSum ch c = 0 := by
  unfold balanceSum
  apply List.sum_eq_zero
  intro x hx
  obtain ⟨r, hr, hfx⟩ := List.mem_map.mp hx
  rw [← hfx]
  by_cases hc : r.2.symbol.code = c
  · exfalso
    have := hbs r hr
    rw [hc, hnone] at this
    exact absurd this (by simp)
  · rw [if_neg hc]

theorem lookupStats_append_some {ch : Chain} {c : Nat} {x row : CurrencyStats}
    (h : lookupStats ch c = some x) :
    lookupStats { ch with stats := ch.stats ++ [row] } c = some x := by
  unfold lookupStats at h ⊢
  simp only
  rw [find?_append_single, h]

theorem lookupStats_append_new {ch : Chain} {row : CurrencyStats}
    (h : lookupStats ch row.supply.symbol.code = none) :
    lookupStats { ch with stats := ch.stats ++ [row] } row.supply.symbol.code
      = some row := by
  unfold lookupStats at h ⊢
  simp only
  rw [find?_append_single, h, if_pos (by simp [statKey])]

theorem lookupStats_append_other {ch : Chain} {c : Nat} {row : CurrencyStats}
    (h : lookupStats ch c = none) (hne : ¬ row.supply.symbol.code = c) :
    lookupStats { ch with stats := ch.stats ++ [row] } c = none := by
  unfold lookupStats at h ⊢
  simp only
  rw [find?_append_single, h, if_neg (by simp [statKey, hne])]

theorem create_ok_spec {now : Nat} {self : Name} {ch ch' : Chain} {m : Asset}
    (h : create now self ch m = .ok ch') :
    symCodeValid m.symbol.code = true ∧ assetValid m = true ∧ 0 < m.amount ∧
    lookupStats ch m.symbol.code = none ∧
    issue self { ch with stats := ch.stats ++ [⟨⟨0, m.symbol⟩, m, now, now, 0⟩] }
      ⟨Int.tdiv (3 * m.amount) 4, m.symbol⟩ = .ok ch' := by
  unfold create at h
  by_cases h1 : symCodeValid m.symbol.code = true
  swap
  · rw [if_pos (by simpa using h1)] at h; exact absurd h (by simp)
  rw [if_neg (not_not_intro (by simpa using h1))] at h
  by_cases h2 : assetValid m = true
  swap
  · rw [if_pos (by simpa using h2)] at h; exact absurd h (by simp)
  rw [if_neg (not_not_intro (by simpa using h2))] at h
  by_cases h3 : 0 < m.amount
  swap
  · rw [if_pos h3] at h; exact absurd h (by simp)
  rw [if_neg (not_not_intro h3)] at h
  cases hst : lookupStats ch m.symbol.code with
  | some st => rw [hst] at h; exact absurd h (by simp)
  | none =>
    rw [hst] at h
    exact ⟨h1, h2, h3, rfl, h⟩

theorem create_preserves {now : Nat} {self : Name} {ch ch' : Chain} {m : Asset}
    (hA : InvA ch) (h : create now self ch m = .ok ch') :
    (ch'.stakes = ch.stakes ∧ ch'.stakestats = ch.stakestats ∧
      ch'.chainAccounts = ch.chainAccounts) ∧
    InvA ch' ∧ (InvB ch → InvB ch') := by
  obtain ⟨hcons, hbs, hcap, hbn, hw, htot, hqp⟩ := hA
  obtain ⟨hsv, hvalid, hm, hnone, hiss⟩ := create_ok_spec h
  have hrowk : ((⟨⟨0, m.symbol⟩, m, now, now, 0⟩ : CurrencyStats)).supply.symbol.code
      = m.symbol.code := rfl
  have hlnew : lookupStats { ch with stats := ch.stats ++
      [⟨⟨0, m.symbol⟩, m, now, now, 0⟩] } m.symbol.code =
      some ⟨⟨0, m.symbol⟩, m, now, now, 0⟩ :=
    lookupStats_append_new (by rw [hrowk]; exact hnone)
  have hlix : ∀ c x, lookupStats ch c = some x →
      lookupStats { ch with stats := ch.stats ++
        [⟨⟨0, m.symbol⟩, m, now, now, 0⟩] } c = some x :=
    fun c x hx => lookupStats_append_some hx
  have hsum0 : balanceSum ch m.symbol.code = 0 := balanceSum_zero_of_no_stats hbs hnone
  have hA1 : InvA { ch with stats := ch.stats ++
      [⟨⟨0, m.symbol⟩, m, now, now, 0⟩] } := by
    refine ⟨?_, ?_, ?_, hbn, hw, htot, hqp⟩
    · intro row hm' hl'
      have hbalsum : ∀ c, balanceSum { ch with stats := ch.stats ++
          [⟨⟨0, m.symbol⟩, m, now, now, 0⟩] } c = balanceSum ch c := fun c => rfl
      rw [hbalsum]
      cases hold : lookupStats ch row.supply.symbol.code with
      | some x =>
        rw [hlix _ _ hold] at hl'
        injection hl' with hl'
        rw [hl'] at hold
        exact hcons row (List.mem_of_find?_eq_some hold) hold
      | none =>
        by_cases hc : row.supply.symbol.code = m.symbol.code
        · rw [hc] at hl' ⊢
          rw [hlnew] at hl'
          injection hl' with hl'
          rw [← hl']
          simp only
          omega
        · rw [lookupStats_append_other hold (fun hcc => hc hcc.symm)] at hl'
          exact absurd hl' (by simp)
    · intro r hr
      have hr2 : r ∈ ch.balances := hr
      have := hbs r hr2
      cases hold : lookupStats ch r.2.symbol.code with
      | some x => rw [hlix _ _ hold]; rfl
      | none => rw [hold] at this; exact absurd this (by simp)
    · intro row hm' hl'
      cases hold : lookupStats ch row.supply.symbol.code with
      | some x =>
        rw [hlix _ _ hold] at hl'
        injection hl' with hl'
        rw [hl'] at hold
        exact hcap row (List.mem_of_find?_eq_some hold) hold
      | none =>
        by_cases hc : row.supply.symbol.code = m.symbol.code
        · rw [hc] at hl'
          rw [hlnew] at hl'
          injection hl' with hl'
          rw [← hl']
          simp only
          omega
        · rw [lookupStats_append_other hold (fun hcc => hc hcc.symm)] at hl'
          exact absurd hl' (by simp)
  obtain ⟨hfields, _, _, _, hA', hBimp⟩ := issue_preserves hA1 hiss
  refine ⟨⟨by rw [hfields.1], by rw [hfields.2.1], by rw [hfields.2.2]⟩,
    hA', ?_⟩
  intro hB
  apply hBimp
  obtain ⟨hrs, hno, hsum2, hslb, hpos⟩ := hB
  refine ⟨?_, hno, hsum2, hslb, hpos⟩
  intro r hr
  have := hrs r hr
  unfold recSymB at this ⊢
  cases hold : lookupStats ch r.2.quantity.symbol.code with
  | some x =>
    rw [hlix _ _ hold]
    rw [hold] at this
    exact this
  | none =>
    rw [hold] at this
    exact absurd this (by simp)

/-! ## Lemmas about `setStakeStat` and the stake tables -/

theorem ssKey_disjoint {c c' : Nat} {s s' : Name} (h : ¬(c' = c ∧ s' = s)) :
    ∀ a, ssKey c s a = true → ssKey c' s' a = false := by
  intro a ha
  simp only [ssKey, Bool.and_eq_true, decide_eq_true_eq] at ha
  simp only [ssKey, Bool.and_eq_false_iff, decide_eq_false_iff_not]
  by_cases h1 : a.1 = c'
  · right
    intro hs
    exact h ⟨by rw [← h1, ha.1], by rw [← hs, ha.2]⟩
  · left; exact h1

theorem ssKey_val_false {c c' : Nat} {s s' : Name} {stat : StakeStat}
    (hstat : stat.staker = s) (h : ¬(c' = c ∧ s' = s)) :
    ssKey c' s' (c, stat) = false := by
  simp only [ssKey, Bool.and_eq_false_iff, decide_eq_false_iff_not]
  by_cases h1 : c = c'
  · right
    intro hs
    exact h ⟨h1.symm, by rw [← hs, hstat]⟩
  · left; exact h1

theorem findStakeStat_none_row {ch : Chain} {c : Nat} {s : Name}
    (h : findStakeStat ch c s = none) :
    ch.stakestats.find? (ssKey c s) = none := by
  unfold findStakeStat at h
  cases hf : ch.stakestats.find? (ssKey c s) with
  | none => rfl
  | some r => rw [hf] at h; exact absurd h (by simp)

theorem findStakeStat_set_same {ch : Chain} {c : Nat} {s : Name} {stat stat' : StakeStat}
    (h : findStakeStat ch c s = some stat) (hk : stat'.staker = s) :
    findStakeStat (setStakeStat ch c s stat') c s = some stat' := by
  obtain ⟨hrow, _⟩ := findStakeStat_row h
  unfold findStakeStat setStakeStat
  simp only
  rw [find?_mfirst_const hrow (by simp [ssKey, hk])]
  rfl

theorem findStakeStat_set_other {ch : Chain} {c c' : Nat} {s s' : Name}
    {stat stat' : StakeStat}
    (h : findStakeStat ch c s = some stat) (hk : stat'.staker = s)
    (hne : ¬(c' = c ∧ s' = s)) :
    findStakeStat (setStakeStat ch c s stat') c' s' = findStakeStat ch c' s' := by
  obtain ⟨hrow, _⟩ := findStakeStat_row h
  unfold findStakeStat setStakeStat
  simp only
  rw [find?_mfirst_other (ssKey_disjoint hne) (ssKey_val_false hk hne)]

theorem setStakeStat_mem {ch : Chain} {c : Nat} {s : Name} {stat' : StakeStat}
    {a : Nat × StakeStat} (h : a ∈ (setStakeStat ch c s stat').stakestats) :
    a ∈ ch.stakestats ∨ a = (c, stat') := mem_mfirst h

theorem findStakeStat_append_same {ch : Chain} {c : Nat} {s : Name} {stat' : StakeStat}
    (h : findStakeStat ch c s = none) (hk : stat'.staker = s) :
    findStakeStat { ch with stakestats := ch.stakestats ++ [(c, stat')] } c s
      = some stat' := by
  have hrow := findStakeStat_none_row h
  unfold findStakeStat
  simp only
  rw [find?_append_single, hrow, if_pos (by simp [ssKey, hk])]
  rfl

theorem findStakeStat_append_other {ch : Chain} {c c' : Nat} {s s' : Name}
    {stat' : StakeStat} (hk : stat'.staker = s) (hne : ¬(c' = c ∧ s' = s)) :
    findStakeStat { ch with stakestats := ch.stakestats ++ [(c, stat')] } c' s'
      = findStakeStat ch c' s' := by
  unfold findStakeStat
  simp only
  rw [find?_append_single]
  cases hq : ch.stakestats.find? (ssKey c' s') with
  | none => rw [ssKey_val_false hk hne]; simp
  | some r => simp

theorem recordSum_append {ch : Chain} {staker : Name} {rec : StakeRecord} :
    ∀ c o, recordSum { ch with stakes := ch.stakes ++ [(staker, rec)] } c o =
      recordSum ch c o +
        (if o = staker ∧ rec.quantity.symbol.code = c then rec.quantity.amount else 0) := by
  intro c o
  unfold recordSum
  simp only
  rw [sum_map_append_single]
  dsimp only
  by_cases h1 : staker = o ∧ rec.quantity.symbol.code = c
  · rw [if_pos h1, if_pos ⟨h1.1.symm, h1.2⟩]
  · rw [if_neg h1, if_neg (fun hx => h1 ⟨hx.1.symm, hx.2⟩)]

theorem recordSum_zero_of_no_stat {ch : Chain} {c : Nat} {s : Name}
    (hno : noOrphan ch) (h : findStakeStat ch c s = none) :
    recordSum ch c s = 0 := by
  unfold recordSum
  apply List.sum_eq_zero
  intro x hx
  obtain ⟨p, hp, hfx⟩ := List.mem_map.mp hx
  rw [← hfx]
  by_cases hc : p.1 = s ∧ p.2.quantity.symbol.code = c
  · exfalso
    have := hno p hp
    rw [hc.2, hc.1, h] at this
    exact absurd this (by simp)
  · rw [if_neg hc]

theorem stakeWeights_getD_nonneg : ∀ i, 0 ≤ stakeWeights.getD i 0 := by
  intro i
  unfold stakeWeights
  rcases i with _ | _ | _ | _ | _ | _ | n <;> simp [List.getD]

/-! ## Decomposition and preservation of `add_stake` -/

theorem add_stake_ok_spec {now : Nat} {ch ch' : Chain} {staker : Name} {q : Asset}
    {idx : Nat} (h : add_stake now ch staker q idx = .ok ch') :
    staker ∈ ch.chainAccounts ∧ idx < stakeCount ∧
    ∃ st, lookupStats ch q.symbol.code = some st ∧ assetValid q = true ∧
      0 < q.amount ∧ q.symbol = st.supply.symbol ∧
    ∃ bal, findBalance ch staker q.symbol.code = some bal ∧
      q.amount ≤ bal.amount - (get_stake ch staker q.symbol).amount ∧
      ((findStakeStat ch q.symbol.code staker = none ∧
          ch' = { ch with
            stakes := ch.stakes ++
              [(staker, ⟨availablePrimaryKey ch staker, q, now, idx⟩)],
            stakestats := ch.stakestats ++
              [(q.symbol.code, ⟨staker, q, stakeWeights.getD idx 0⟩)] }) ∨
        (∃ stat, findStakeStat ch q.symbol.code staker = some stat ∧
          stat.total_stake.symbol = q.symbol ∧
          ch' = setStakeStat { ch with stakes := ch.stakes ++
              [(staker, ⟨availablePrimaryKey ch staker, q, now, idx⟩)] }
            q.symbol.code staker
            ⟨stat.staker, ⟨stat.total_stake.amount + q.amount, stat.total_stake.symbol⟩,
              stat.stake_weight + stakeWeights.getD idx 0⟩)) := by
  unfold add_stake at h
  by_cases h1 : staker ∈ ch.chainAccounts
  swap
  · rw [if_pos h1] at h; exact absurd h (by simp)
  rw [if_neg (not_not_intro h1)] at h
  by_cases h2 : idx < stakeCount
  swap
  · rw [if_pos h2] at h; exact absurd h (by simp)
  rw [if_neg (not_not_intro h2)] at h
  cases hst : lookupStats ch q.symbol.code with
  | none => rw [hst] at h; exact absurd h (by simp)
  | some st =>
    rw [hst] at h
    simp only at h
    by_cases h3 : assetValid q = true
    swap
    · rw [if_pos (by simpa using h3)] at h; exact absurd h (by simp)
    rw [if_neg (not_not_intro (by simpa using h3))] at h
    by_cases h4 : 0 < q.amount
    swap
    · rw [if_pos h4] at h; exact absurd h (by simp)
    rw [if_neg (not_not_intro h4)] at h
    by_cases h5 : q.symbol = st.supply.symbol
    swap
    · rw [if_pos h5] at h; exact absurd h (by simp)
    rw [if_neg (not_not_intro h5)] at h
    unfold get_unstaked_balance get_balance at h
    cases hf : findBalance ch staker q.symbol.code with
    | none => rw [hf] at h; exact absurd h (by simp)
    | some bal =>
      rw [hf] at h
      simp only [bind_ok] at h
      by_cases h6 : bal.amount - (get_stake ch staker q.symbol).amount < q.amount
      · rw [if_pos h6] at h
        exact absurd h (by simp)
      rw [if_neg h6] at h
      refine ⟨h1, h2, st, rfl, h3, h4, h5, bal, rfl, by omega, ?_⟩
      cases hss : findStakeStat { ch with stakes := ch.stakes ++
          [(staker, ⟨availablePrimaryKey ch staker, q, now, idx⟩)] }
          q.symbol.code staker with
      | none =>
        rw [hss] at h
        injection h with h
        have hss0 : findStakeStat ch q.symbol.code staker = none := hss
        exact Or.inl ⟨hss0, h.symm⟩
      | some stat =>
        rw [hss] at h
        simp only at h
        unfold assetAdd at h
        by_cases h7 : stat.total_stake.symbol = q.symbol
        swap
        · rw [if_neg h7] at h; exact absurd h (by simp)
        rw [if_pos h7] at h
        by_cases h8 : -maxAssetAmount ≤ stat.total_stake.amount + q.amount ∧
            stat.total_stake.amount + q.amount ≤ maxAssetAmount
        swap
        · rw [if_neg h8] at h; exact absurd h (by simp)
        rw [if_pos h8] at h
        simp only [bind_ok] at h
        injection h with h
        have hss0 : findStakeStat ch q.symbol.code staker = some stat := hss
        refine Or.inr ⟨stat, hss0, h7, ?_⟩
        rw [← h]

theorem add_stake_preserves {now : Nat} {ch ch' : Chain} {staker : Name} {q : Asset}
    {idx : Nat} (hA : InvA ch) (h : add_stake now ch staker q idx = .ok ch') :
    (ch'.balances = ch.balances ∧ ch'.stats = ch.stats ∧
      ch'.chainAccounts = ch.chainAccounts) ∧
    InvA ch' ∧ (InvB ch → InvB ch') := by
  obtain ⟨hcons, hbs, hcap, hbn, hw, htot, hqp⟩ := hA
  obtain ⟨hacc, hidx, st, hst, hvalid, hq, hsym, bal, hf, hover, hcase⟩ :=
    add_stake_ok_spec h
  have hΔ : 0 ≤ stakeWeights.getD idx 0 := stakeWeights_getD_nonneg idx
  rcases hcase with ⟨hnone, rfl⟩ | ⟨stat, hsome, hstatsym, rfl⟩
  · -- a fresh stakestats row is created
    have hstake0 : (get_stake ch staker q.symbol).amount = 0 := by
      unfold get_stake
      rw [hnone]
    refine ⟨⟨rfl, rfl, rfl⟩, ⟨hcons, hbs, hcap, hbn, ?_, ?_, ?_⟩, ?_⟩
    · intro r hr
      simp only at hr
      rcases List.mem_append.mp hr with hr | hr
      · exact hw r hr
      · simp only [List.mem_singleton] at hr
        rw [hr]
        exact hΔ
    · intro r hr
      simp only at hr
      rcases List.mem_append.mp hr with hr | hr
      · exact htot r hr
      · simp only [List.mem_singleton] at hr
        rw [hr]
        exact hq.le
    · intro r hr
      simp only at hr
      rcases List.mem_append.mp hr with hr | hr
      · exact hqp r hr
      · simp only [List.mem_singleton] at hr
        rw [hr]
        exact hq
    · intro hB
      obtain ⟨hrs, hno, hsum2, hslb, hpos⟩ := hB
      have hmonoSS : ∀ c o, (findStakeStat ch c o).isSome = true →
          (findStakeStat { ch with
            stakes := ch.stakes ++
              [(staker, ⟨availablePrimaryKey ch staker, q, now, idx⟩)],
            stakestats := ch.stakestats ++
              [(q.symbol.code, ⟨staker, q, stakeWeights.getD idx 0⟩)] } c o).isSome
            = true := by
        intro c o hx
        cases hfs : findStakeStat ch c o with
        | none => rw [hfs] at hx; exact absurd hx (by simp)
        | some x =>
          obtain ⟨hrow, _⟩ := findStakeStat_row hfs
          unfold findStakeStat
          simp only
          rw [find?_append_single, hrow]
          rfl
      have hlnew : findStakeStat { ch with
          stakes := ch.stakes ++
            [(staker, ⟨availablePrimaryKey ch staker, q, now, idx⟩)],
          stakestats := ch.stakestats ++
            [(q.symbol.code, ⟨staker, q, stakeWeights.getD idx 0⟩)] }
          q.symbol.code staker =
          some ⟨staker, q, stakeWeights.getD idx 0⟩ :=
        findStakeStat_append_same hnone rfl
      have hlother : ∀ c o, ¬(c = q.symbol.code ∧ o = staker) →
          findStakeStat { ch with
            stakes := ch.stakes ++
              [(staker, ⟨availablePrimaryKey ch staker, q, now, idx⟩)],
            stakestats := ch.stakestats ++
              [(q.symbol.code, ⟨staker, q, stakeWeights.getD idx 0⟩)] } c o
            = findStakeStat ch c o :=
        fun c o hk => findStakeStat_append_other rfl hk
      have hrsum : ∀ c o, recordSum { ch with
          stakes := ch.stakes ++
            [(staker, ⟨availablePrimaryKey ch staker, q, now, idx⟩)],
          stakestats := ch.stakestats ++
            [(q.symbol.code, ⟨staker, q, stakeWeights.getD idx 0⟩)] } c o =
          recordSum ch c o + (if o = staker ∧ q.symbol.code = c then q.amount else 0) :=
        fun c o => recordSum_append c o
      refine ⟨?_, ?_, ?_, ?_, ?_⟩
      · intro r hr
        simp only at hr
        rcases List.mem_append.mp hr with hr | hr
        · exact hrs r hr
        · simp only [List.mem_singleton] at hr
          rw [hr]
          show recSymB ch (staker, ⟨availablePrimaryKey ch staker, q, now, idx⟩) = true
          unfold recSymB
          simp only
          rw [hst]
          simp [hsym]
      · intro r hr
        simp only at hr
        rcases List.mem_append.mp hr with hr | hr
        · exact hmonoSS _ _ (hno r hr)
        · simp only [List.mem_singleton] at hr
          rw [hr]
          simp only
          rw [hlnew]
          rfl
      · intro p hm' hl'
        by_cases hkey : p.1 = q.symbol.code ∧ p.2.staker = staker
        · rw [hkey.1, hkey.2] at hl'
          rw [hlnew] at hl'
          injection hl' with hl'
          rw [hkey.1, hkey.2, hrsum, ← hl']
          simp only
          rw [recordSum_zero_of_no_stat hno hnone]
          simp
        · rw [hlother p.1 p.2.staker hkey] at hl'
          have hmold : p ∈ ch.stakestats := by
            simp only at hm'
            rcases List.mem_append.mp hm' with hm2 | hm2
            · exact hm2
            · exfalso
              simp only [List.mem_singleton] at hm2
              apply hkey
              rw [hm2]
              exact ⟨rfl, rfl⟩
          rw [hrsum]
          rw [if_neg (fun hx => hkey ⟨hx.2.symm, hx.1⟩)]
          have := hsum2 p hmold hl'
          omega
      · intro p hm' hl'
        by_cases hkey : p.1 = q.symbol.code ∧ p.2.staker = staker
        · rw [hkey.1, hkey.2] at hl'
          rw [hlnew] at hl'
          injection hl' with hl'
          rw [hkey.1, hkey.2, ← hl']
          simp only
          constructor
          · show (findBalance ch staker q.symbol.code).isSome = true
            rw [hf]
            rfl
          · show q.amount ≤ balD ch staker q.symbol.code
            unfold balD
            rw [hf]
            simp only [Option.map, Option.getD]
            omega
        · rw [hlother p.1 p.2.staker hkey] at hl'
          have hmold : p ∈ ch.stakestats := by
            simp only at hm'
            rcases List.mem_append.mp hm' with hm2 | hm2
            · exact hm2
            · exfalso
              simp only [List.mem_singleton] at hm2
              apply hkey
              rw [hm2]
              exact ⟨rfl, rfl⟩
          exact hslb p hmold hl'
      · intro p hm' hl'
        by_cases hkey : p.1 = q.symbol.code ∧ p.2.staker = staker
        · rw [hkey.1, hkey.2] at hl'
          rw [hlnew] at hl'
          injection hl' with hl'
          rw [← hl']
          exact hq
        · rw [hlother p.1 p.2.staker hkey] at hl'
          have hmold : p ∈ ch.stakestats := by
            simp only at hm'
            rcases List.mem_append.mp hm' with hm2 | hm2
            · exact hm2
            · exfalso
              simp only [List.mem_singleton] at hm2
              apply hkey
              rw [hm2]
              exact ⟨rfl, rfl⟩
          exact hpos p hmold hl'
  · -- the existing stakestats row is updated
    have hstaker : stat.staker = staker := (findStakeStat_row hsome).2
    have hstake : (get_stake ch staker q.symbol).amount = stat.total_stake.amount := by
      unfold get_stake
      rw [hsome]
    have hsome1 : findStakeStat { ch with stakes := ch.stakes ++
        [(staker, ⟨availablePrimaryKey ch staker, q, now, idx⟩)] }
        q.symbol.code staker = some stat := hsome
    have hlnew : findStakeStat (setStakeStat { ch with stakes := ch.stakes ++
        [(staker, ⟨availablePrimaryKey ch staker, q, now, idx⟩)] }
        q.symbol.code staker
        ⟨stat.staker, ⟨stat.total_stake.amount + q.amount, stat.total_stake.symbol⟩,
          stat.stake_weight + stakeWeights.getD idx 0⟩)
        q.symbol.code staker =
        some ⟨stat.staker, ⟨stat.total_stake.amount + q.amount, stat.total_stake.symbol⟩,
          stat.stake_weight + stakeWeights.getD idx 0⟩ :=
      findStakeStat_set_same hsome1 hstaker
    have hlother : ∀ c o, ¬(c = q.symbol.code ∧ o = staker) →
        findStakeStat (setStakeStat { ch with stakes := ch.stakes ++
          [(staker, ⟨availablePrimaryKey ch staker, q, now, idx⟩)] }
          q.symbol.code staker
          ⟨stat.staker, ⟨stat.total_stake.amount + q.amount, stat.total_stake.symbol⟩,
            stat.stake_weight + stakeWeights.getD idx 0⟩) c o
          = findStakeStat ch c o :=
      fun c o hk => findStakeStat_set_other hsome1 hstaker hk
    have hrsum : ∀ c o, recordSum (setStakeStat { ch with stakes := ch.stakes ++
        [(staker, ⟨availablePrimaryKey ch staker, q, now, idx⟩)] }
        q.symbol.code staker
        ⟨stat.staker, ⟨stat.total_stake.amount + q.amount, stat.total_stake.symbol⟩,
          stat.stake_weight + stakeWeights.getD idx 0⟩) c o =
        recordSum ch c o + (if o = staker ∧ q.symbol.code = c then q.amount else 0) :=
      fun c o => recordSum_append c o
    have hmemOld : ∀ p : Nat × StakeStat, p ∈ (setStakeStat { ch with
        stakes := ch.stakes ++
          [(staker, ⟨availablePrimaryKey ch staker, q, now, idx⟩)] }
        q.symbol.code staker
        ⟨stat.staker, ⟨stat.total_stake.amount + q.amount, stat.total_stake.symbol⟩,
          stat.stake_weight + stakeWeights.getD idx 0⟩).stakestats →
        p ∈ ch.stakestats ∨ p = (q.symbol.code,
          ⟨stat.staker, ⟨stat.total_stake.amount + q.amount, stat.total_stake.symbol⟩,
            stat.stake_weight + stakeWeights.getD idx 0⟩) :=
      fun p hp => setStakeStat_mem hp
    have hstatmem : (q.symbol.code, stat) ∈ ch.stakestats := (findStakeStat_mem hsome).1
    refine ⟨⟨rfl, rfl, rfl⟩, ⟨hcons, hbs, hcap, hbn, ?_, ?_, ?_⟩, ?_⟩
    · intro r hr
      rcases hmemOld r hr with hr2 | hr2
      · exact hw r hr2
      · rw [hr2]
        simp only
        have := hw _ hstatmem
        simp only at this
        omega
    · intro r hr
      rcases hmemOld r hr with hr2 | hr2
      · exact htot r hr2
      · rw [hr2]
        simp only
        have := htot _ hstatmem
        simp only at this
        omega
    · intro r hr
      rcases List.mem_append.mp hr with hr | hr
      · exact hqp r hr
      · simp only [List.mem_singleton] at hr
        rw [hr]
        exact hq
    · intro hB
      obtain ⟨hrs, hno, hsum2, hslb, hpos⟩ := hB
      refine ⟨?_, ?_, ?_, ?_, ?_⟩
      · intro r hr
        rcases List.mem_append.mp hr with hr | hr
        · exact hrs r hr
        · simp only [List.mem_singleton] at hr
          rw [hr]
          show recSymB ch (staker, ⟨availablePrimaryKey ch staker, q, now, idx⟩) = true
          unfold recSymB
          simp only
          rw [hst]
          simp [hsym]
      · intro r hr
        rcases List.mem_append.mp hr with hr | hr
        · by_cases hkey : r.2.quantity.symbol.code = q.symbol.code ∧ r.1 = staker
          · rw [hkey.1, hkey.2, hlnew]
            rfl
          · rw [hlother _ _ (fun hx => hkey ⟨hx.1, hx.2⟩)]
            exact hno r hr
        · simp only [List.mem_singleton] at hr
          rw [hr]
          simp only
          rw [hlnew]
          rfl
      · intro p hm' hl'
        by_cases hkey : p.1 = q.symbol.code ∧ p.2.staker = staker
        · rw [hkey.1, hkey.2] at hl'
          rw [hlnew] at hl'
          injection hl' with hl'
          rw [hkey.1, hkey.2, hrsum, ← hl']
          simp only
          have := statSumInv_lookup hsum2 hsome
          simp only [eq_self_iff_true, true_and, and_self, if_true]
          omega
        · rw [hlother p.1 p.2.staker hkey] at hl'
          have hmold : p ∈ ch.stakestats := by
            rcases hmemOld p hm' with hm2 | hm2
            · exact hm2
            · exfalso
              apply hkey
              rw [hm2]
              exact ⟨rfl, hstaker⟩
          rw [hrsum]
          rw [if_neg (fun hx => hkey ⟨hx.2.symm, hx.1⟩)]
          have := hsum2 p hmold hl'
          omega
      · intro p hm' hl'
        by_cases hkey : p.1 = q.symbol.code ∧ p.2.staker = staker
        · rw [hkey.1, hkey.2] at hl'
          rw [hlnew] at hl'
          injection hl' with hl'
          rw [hkey.1, hkey.2, ← hl']
          simp only
          constructor
          · show (findBalance ch staker q.symbol.code).isSome = true
            rw [hf]
            rfl
          · show stat.total_stake.amount + q.amount ≤ balD ch staker q.symbol.code
            unfold balD
            rw [hf]
            simp only [Option.map, Option.getD]
            omega
        · rw [hlother p.1 p.2.staker hkey] at hl'
          have hmold : p ∈ ch.stakestats := by
            rcases hmemOld p hm' with hm2 | hm2
            · exact hm2
            · exfalso
              apply hkey
              rw [hm2]
              exact ⟨rfl, hstaker⟩
          exact hslb p hmold hl'
      · intro p hm' hl'
        by_cases hkey : p.1 = q.symbol.code ∧ p.2.staker = staker
        · rw [hkey.1, hkey.2] at hl'
          rw [hlnew] at hl'
          injection hl' with hl'
          rw [← hl']
          simp only
          have := statPos_lookup hpos hsome
          omega
        · rw [hlother p.1 p.2.staker hkey] at hl'
          have hmold : p ∈ ch.stakestats := by
            rcases hmemOld p hm' with hm2 | hm2
            · exact hm2
            · exfalso
              apply hkey
              rw [hm2]
              exact ⟨rfl, hstaker⟩
          exact hpos p hmold hl'


/-! ## Lemmas about the maintenance cycle `update_stakes` -/

theorem single_le_map_sum {l : List α} (f : α → Int) (h : ∀ a ∈ l, 0 ≤ f a)
    {a : α} (ha : a ∈ l) : f a ≤ (l.map f).sum := by
  have h' : ∀ x ∈ l.map f, (0:Int) ≤ x := by
    intro x hx
    obtain ⟨b, hb, rfl⟩ := List.mem_map.mp hx
    exact h b hb
  exact List.single_le_sum h' (f a) (List.mem_map.mpr ⟨a, ha, rfl⟩)

theorem sum_map_filterMap (g : β → Int) (f : α → Option β) (l : List α) :
    ((l.filterMap f).map g).sum =
      (l.map (fun a => match f a with | some b => g b | none => 0)).sum := by
  induction l with
  | nil => rfl
  | cons a xs ih =>
    cases hf : f a with
    | none => simp [List.filterMap_cons, hf, ih]
    | some b => simp [List.filterMap_cons, hf, ih]

/-- A `filterMap` whose transform is the identity on the rows matching a
key and maps non-matching rows to non-matching rows does not change the
first key match. -/
theorem find?_filterMap_id {f : α → Option α} {q : α → Bool} {l : List α}
    (hid : ∀ a, q a = true → f a = some a)
    (hmiss : ∀ a, q a = false → ∀ y, f a = some y → q y = false) :
    (l.filterMap f).find? q = l.find? q := by
  induction l with
  | nil => rfl
  | cons a xs ih =>
    cases hqa : q a with
    | true =>
      rw [List.filterMap_cons, hid a hqa, List.find?_cons_of_pos _ hqa,
        List.find?_cons_of_pos _ hqa]
    | false =>
      cases hfa : f a with
      | none =>
        rw [List.filterMap_cons, hfa, List.find?_cons_of_neg _ (by rw [hqa]; simp)]
        exact ih
      | some y =>
        rw [List.filterMap_cons, hfa,
          List.find?_cons_of_neg _ (by rw [hmiss a hqa y hfa]; simp),
          List.find?_cons_of_neg _ (by rw [hqa]; simp)]
        exact ih

theorem mem_ownerRecords {ch : Chain} {o : Name} {rec : StakeRecord}
    (h : rec ∈ ownerRecords ch o) : ∃ p ∈ ch.stakes, p.1 = o ∧ p.2 = rec := by
  obtain ⟨p, hp, hf⟩ := List.mem_filterMap.mp h
  by_cases ho : p.1 = o
  · rw [if_pos ho] at hf
    injection hf with hf
    exact ⟨p, hp, ho, hf⟩
  · rw [if_neg ho] at hf
    exact absurd hf (by simp)

theorem ownerRecords_mem {ch : Chain} {p : Name × StakeRecord}
    (hp : p ∈ ch.stakes) {o : Name} (ho : p.1 = o) : p.2 ∈ ownerRecords ch o :=
  List.mem_filterMap.mpr ⟨p, hp, by rw [if_pos ho]⟩

theorem counted_amount_nonneg {now : Nat} {ch : Chain} {sym : Sym} {o : Name}
    (hqp : qPos ch) :
    ∀ r ∈ countedRecords now sym (ownerRecords ch o), 0 ≤ r.quantity.amount := by
  intro r hr
  have hmem : r ∈ ownerRecords ch o := (List.mem_filter.mp hr).1
  obtain ⟨p, hp, _, hpr⟩ := mem_ownerRecords hmem
  rw [← hpr]
  exact (hqp p hp).le

theorem recomputedStake_nonneg {now : Nat} {ch : Chain} {sym : Sym} {o : Name}
    (hqp : qPos ch) : 0 ≤ recomputedStake now sym (ownerRecords ch o) := by
  unfold recomputedStake
  apply List.sum_nonneg
  intro x hx
  obtain ⟨r, hr, rfl⟩ := List.mem_map.mp hx
  exact counted_amount_nonneg hqp r hr

theorem recomputedWeight_nonneg {now : Nat} {ch : Chain} {sym : Sym} {o : Name}
    (hqp : qPos ch) : 0 ≤ recomputedWeight now sym (ownerRecords ch o) := by
  unfold recomputedWeight
  apply List.sum_nonneg
  intro x hx
  obtain ⟨r, hr, rfl⟩ := List.mem_map.mp hx
  exact mul_nonneg (stakeWeights_getD_nonneg _) (counted_amount_nonneg hqp r hr)

theorem recomputedStake_pos_of_mem {now : Nat} {ch : Chain} {sym : Sym} {o : Name}
    (hqp : qPos ch) {p : Name × StakeRecord} (hp : p ∈ ch.stakes) (ho : p.1 = o)
    (hsymr : p.2.quantity.symbol = sym)
    (hexp : now < p.2.start + stakeDurations.getD p.2.duration_index 0) :
    0 < recomputedStake now sym (ownerRecords ch o) := by
  have hcnt : p.2 ∈ countedRecords now sym (ownerRecords ch o) := by
    apply List.mem_filter.mpr
    refine ⟨ownerRecords_mem hp ho, ?_⟩
    simp only [Bool.and_eq_true, decide_eq_true_eq]
    exact ⟨hsymr, hexp⟩
  have := single_le_map_sum (fun r => r.quantity.amount)
    (counted_amount_nonneg hqp) hcnt
  dsimp only at this
  have hq := hqp p hp
  unfold recomputedStake
  omega

/-- The transform `update_stakes` applies to one `stakestats` row. -/
def usRow (now : Nat) (ch : Chain) (sym : Sym) (r : Nat × StakeStat) :
    Option (Nat × StakeStat) :=
  if r.1 = sym.code then
    if recomputedStake now sym (ownerRecords ch r.2.staker) = 0 then none
    else some (r.1, { r.2 with
      total_stake := ⟨recomputedStake now sym (ownerRecords ch r.2.staker), sym⟩
      stake_weight := recomputedWeight now sym (ownerRecords ch r.2.staker) })
  else some r

theorem update_stakes_stakestats {now : Nat} {ch : Chain} {sym : Sym} :
    (update_stakes now ch sym).stakestats =
      ch.stakestats.filterMap (usRow now ch sym) := rfl

theorem usRow_key {now : Nat} {ch : Chain} {sym : Sym} {r y : Nat × StakeStat}
    (h : usRow now ch sym r = some y) : y.1 = r.1 ∧ y.2.staker = r.2.staker := by
  unfold usRow at h
  by_cases h1 : r.1 = sym.code
  · rw [if_pos h1] at h
    by_cases ht : recomputedStake now sym (ownerRecords ch r.2.staker) = 0
    · rw [if_pos ht] at h
      exact absurd h (by simp)
    · rw [if_neg ht] at h
      injection h with h
      rw [← h]
      exact ⟨rfl, rfl⟩
  · rw [if_neg h1] at h
    injection h with h
    rw [← h]
    exact ⟨rfl, rfl⟩

theorem findStakeStat_update_stakes_other {now : Nat} {ch : Chain} {sym : Sym}
    {c : Nat} (o : Name) (hc : ¬c = sym.code) :
    findStakeStat (update_stakes now ch sym) c o = findStakeStat ch c o := by
  unfold findStakeStat
  rw [update_stakes_stakestats, find?_filterMap_id]
  · intro a ha
    have h1 : a.1 = c := by
      unfold ssKey at ha
      simp only [Bool.and_eq_true, decide_eq_true_eq] at ha
      exact ha.1
    unfold usRow
    rw [if_neg (by rw [h1]; exact hc)]
  · intro a ha y hy
    have hk := usRow_key hy
    unfold ssKey at ha ⊢
    rw [hk.1, hk.2]
    exact ha

theorem findStakeStat_update_stakes_zero {now : Nat} {ch : Chain} {sym : Sym}
    {o : Name} (ht : recomputedStake now sym (ownerRecords ch o) = 0) :
    findStakeStat (update_stakes now ch sym) sym.code o = none := by
  unfold findStakeStat
  rw [update_stakes_stakestats]
  have hfind : (ch.stakestats.filterMap (usRow now ch sym)).find?
      (ssKey sym.code o) = none := by
    rw [List.find?_eq_none]
    intro y hy hssy
    obtain ⟨a, ha, hfa⟩ := List.mem_filterMap.mp hy
    have hk := usRow_key hfa
    unfold ssKey at hssy
    simp only [Bool.and_eq_true, decide_eq_true_eq] at hssy
    have h1 : a.1 = sym.code := hk.1 ▸ hssy.1
    have h2 : a.2.staker = o := hk.2 ▸ hssy.2
    unfold usRow at hfa
    rw [h2, if_pos h1, if_pos ht] at hfa
    exact absurd hfa (by simp)
  rw [hfind]
  rfl

theorem findStakeStat_update_stakes_same {now : Nat} {ch : Chain} {sym : Sym}
    {o : Name} (ht : ¬recomputedStake now sym (ownerRecords ch o) = 0) :
    findStakeStat (update_stakes now ch sym) sym.code o =
      match findStakeStat ch sym.code o with
      | none => none
      | some _ => some ⟨o, ⟨recomputedStake now sym (ownerRecords ch o), sym⟩,
          recomputedWeight now sym (ownerRecords ch o)⟩ := by
  unfold findStakeStat
  rw [update_stakes_stakestats]
  have hm : ∀ r, ssKey sym.code o r = true →
      usRow now ch sym r = some (sym.code,
        (⟨o, ⟨recomputedStake now sym (ownerRecords ch o), sym⟩,
          recomputedWeight now sym (ownerRecords ch o)⟩ : StakeStat)) := by
    intro r hr
    unfold ssKey at hr
    simp only [Bool.and_eq_true, decide_eq_true_eq] at hr
    unfold usRow
    rw [hr.2, if_pos hr.1, if_neg ht, hr.1]
    dsimp only
    rw [hr.2]
  have ho2 : ∀ y, (some (sym.code,
      (⟨o, ⟨recomputedStake now sym (ownerRecords ch o), sym⟩,
        recomputedWeight now sym (ownerRecords ch o)⟩ : StakeStat)) :
        Option (Nat × StakeStat)) = some y → ssKey sym.code o y = true := by
    intro y hy
    injection hy with hy
    rw [← hy]
    unfold ssKey
    simp
  have hms : ∀ r, ssKey sym.code o r = false → ∀ y,
      usRow now ch sym r = some y → ssKey sym.code o y = false := by
    intro r hr y hy
    have hk := usRow_key hy
    unfold ssKey at hr ⊢
    rw [hk.1, hk.2]
    exact hr
  rw [find?_filterMap_keyed hm ho2 hms]
  cases hf : ch.stakestats.find? (ssKey sym.code o) with
  | none => rfl
  | some m => rfl

theorem update_stakes_stakes {now : Nat} {ch : Chain} {sym : Sym} :
    (update_stakes now ch sym).stakes = ch.stakes.filter (fun p =>
      !(hasStakeStat ch sym.code p.1 && stakeExpired now sym p.2)) := rfl

theorem mem_update_stakes_stakestats {now : Nat} {ch : Chain} {sym : Sym}
    {r : Nat × StakeStat} (h : r ∈ (update_stakes now ch sym).stakestats) :
    (r ∈ ch.stakestats ∧ ¬r.1 = sym.code) ∨
    (∃ a ∈ ch.stakestats, a.1 = sym.code ∧
      ¬recomputedStake now sym (ownerRecords ch a.2.staker) = 0 ∧
      r = (sym.code, ⟨a.2.staker,
        ⟨recomputedStake now sym (ownerRecords ch a.2.staker), sym⟩,
        recomputedWeight now sym (ownerRecords ch a.2.staker)⟩)) := by
  rw [update_stakes_stakestats] at h
  obtain ⟨a, ha, hfa⟩ := List.mem_filterMap.mp h
  unfold usRow at hfa
  by_cases h1 : a.1 = sym.code
  · rw [if_pos h1] at hfa
    by_cases ht : recomputedStake now sym (ownerRecords ch a.2.staker) = 0
    · rw [if_pos ht] at hfa
      exact absurd hfa (by simp)
    · rw [if_neg ht] at hfa
      injection hfa with hfa
      right
      exact ⟨a, ha, h1, ht, by rw [← hfa, h1]⟩
  · rw [if_neg h1] at hfa
    injection hfa with hfa
    left
    exact ⟨hfa ▸ ha, hfa ▸ h1⟩

theorem recomputedStake_gated (now : Nat) (ch : Chain) (sym : Sym) (o : Name) :
    recomputedStake now sym (ownerRecords ch o) =
      (ch.stakes.map (fun p => if p.1 = o ∧ (p.2.quantity.symbol = sym ∧
        now < p.2.start + stakeDurations.getD p.2.duration_index 0)
        then p.2.quantity.amount else 0)).sum := by
  unfold recomputedStake countedRecords ownerRecords
  rw [sum_map_filter, sum_map_filterMap]
  apply congrArg List.sum
  apply List.map_congr_left
  intro p hp
  dsimp only
  by_cases ho : p.1 = o
  · rw [if_pos ho]
    dsimp only
    by_cases hcnt : p.2.quantity.symbol = sym ∧
        now < p.2.start + stakeDurations.getD p.2.duration_index 0
    · rw [if_pos (by simp only [Bool.and_eq_true, decide_eq_true_eq]; exact hcnt),
        if_pos ⟨ho, hcnt⟩]
    · rw [if_neg (by simp only [Bool.and_eq_true, decide_eq_true_eq]; exact hcnt),
        if_neg (fun hx => hcnt hx.2)]
  · rw [if_neg ho]
    dsimp only
    rw [if_neg (fun hx => ho hx.1)]

theorem recordSum_update_stakes_other {now : Nat} {ch : Chain} {sym : Sym}
    {c : Nat} (o : Name) (hc : ¬c = sym.code) :
    recordSum (update_stakes now ch sym) c o = recordSum ch c o := by
  unfold recordSum
  rw [update_stakes_stakes, sum_map_filter]
  apply congrArg List.sum
  apply List.map_congr_left
  intro p hp
  dsimp only
  by_cases hk : (!(hasStakeStat ch sym.code p.1 && stakeExpired now sym p.2)) = true
  · rw [if_pos hk]
  · rw [if_neg hk]
    have hexp : stakeExpired now sym p.2 = true := by
      revert hk
      cases hasStakeStat ch sym.code p.1 <;> cases hh : stakeExpired now sym p.2 <;> simp
    have hsymq : p.2.quantity.symbol = sym := by
      unfold stakeExpired at hexp
      simp only [Bool.and_eq_true, decide_eq_true_eq] at hexp
      exact hexp.1
    rw [if_neg (fun hx => hc (by rw [← hx.2, hsymq]))]

theorem recordSum_update_stakes_same {now : Nat} {ch : Chain} {sym : Sym}
    {o : Name} (hss : (findStakeStat ch sym.code o).isSome = true)
    (hrec : ∀ p ∈ ch.stakes, p.1 = o → p.2.quantity.symbol.code = sym.code →
      p.2.quantity.symbol = sym) :
    recordSum (update_stakes now ch sym) sym.code o =
      recomputedStake now sym (ownerRecords ch o) := by
  rw [recomputedStake_gated]
  unfold recordSum
  rw [update_stakes_stakes, sum_map_filter]
  apply congrArg List.sum
  apply List.map_congr_left
  intro p hp
  dsimp only
  by_cases ho : p.1 = o
  · by_cases hcode : p.2.quantity.symbol.code = sym.code
    · have hsymq : p.2.quantity.symbol = sym := hrec p hp ho hcode
      have hA : hasStakeStat ch sym.code p.1 = true := by
        unfold hasStakeStat
        rw [ho]
        exact hss
      by_cases hexp : p.2.start + stakeDurations.getD p.2.duration_index 0 ≤ now
      · have hB : stakeExpired now sym p.2 = true := by
          unfold stakeExpired
          simp only [Bool.and_eq_true, decide_eq_true_eq]
          exact ⟨hsymq, hexp⟩
        rw [if_neg (by simp [hA, hB]), if_neg (fun hx => absurd hx.2.2 (by omega))]
      · have hB : stakeExpired now sym p.2 = false := by
          unfold stakeExpired
          rw [decide_eq_false hexp, Bool.and_false]
        rw [if_pos (by simp [hB]), if_pos ⟨ho, hcode⟩, if_pos ⟨ho, hsymq, by omega⟩]
    · have hsymne : ¬p.2.quantity.symbol = sym := fun hx => hcode (by rw [hx])
      have hL0 : (if p.1 = o ∧ p.2.quantity.symbol.code = sym.code
          then p.2.quantity.amount else 0) = 0 := if_neg (fun hx => hcode hx.2)
      rw [hL0, ite_self, if_neg (fun hx => hsymne hx.2.1)]
  · have hL0 : (if p.1 = o ∧ p.2.quantity.symbol.code = sym.code
        then p.2.quantity.amount else 0) = 0 := if_neg (fun hx => ho hx.1)
    rw [hL0, ite_self, if_neg (fun hx => ho hx.1)]

theorem recomputedStake_le_recordSum {now : Nat} {ch : Chain} {sym : Sym}
    {o : Name} (hqp : qPos ch) :
    recomputedStake now sym (ownerRecords ch o) ≤ recordSum ch sym.code o := by
  rw [recomputedStake_gated]
  unfold recordSum
  apply List.sum_le_sum
  intro p hp
  dsimp only
  by_cases hgl : p.1 = o ∧ (p.2.quantity.symbol = sym ∧
      now < p.2.start + stakeDurations.getD p.2.duration_index 0)
  · rw [if_pos hgl, if_pos ⟨hgl.1, by rw [hgl.2.1]⟩]
  · rw [if_neg hgl]
    by_cases hgr : p.1 = o ∧ p.2.quantity.symbol.code = sym.code
    · rw [if_pos hgr]
      exact (hqp p hp).le
    · rw [if_neg hgr]

theorem update_stakes_preserves {now : Nat} {ch : Chain} {sym : Sym}
    (hA : InvA ch) :
    ((update_stakes now ch sym).balances = ch.balances ∧
      (update_stakes now ch sym).stats = ch.stats ∧
      (update_stakes now ch sym).chainAccounts = ch.chainAccounts) ∧
    InvA (update_stakes now ch sym) ∧
    ((∀ st, lookupStats ch sym.code = some st → st.supply.symbol = sym) →
      InvB ch → InvB (update_stakes now ch sym)) := by
  obtain ⟨hcons, hbs, hcap, hbn, hw, htot, hqp⟩ := hA
  refine ⟨⟨rfl, rfl, rfl⟩, ⟨hcons, hbs, hcap, hbn, ?_, ?_, ?_⟩, ?_⟩
  · intro r hr
    rcases mem_update_stakes_stakestats hr with ⟨hm, _⟩ | ⟨a, ha, h1, ht, hreq⟩
    · exact hw r hm
    · rw [hreq]
      exact recomputedWeight_nonneg hqp
  · intro r hr
    rcases mem_update_stakes_stakestats hr with ⟨hm, _⟩ | ⟨a, ha, h1, ht, hreq⟩
    · exact htot r hm
    · rw [hreq]
      exact recomputedStake_nonneg hqp
  · intro r hr
    rw [update_stakes_stakes] at hr
    exact hqp r (List.mem_filter.mp hr).1
  · intro hOk hB
    obtain ⟨hrs, hno, hsum2, hslb, hpos⟩ := hB
    have hrec : ∀ o : Name, ∀ p ∈ ch.stakes, p.1 = o →
        p.2.quantity.symbol.code = sym.code → p.2.quantity.symbol = sym := by
      intro o p hp _ hcode
      have hrb := hrs p hp
      unfold recSymB at hrb
      cases hls : lookupStats ch p.2.quantity.symbol.code with
      | none =>
        rw [hls] at hrb
        exact absurd hrb (by simp)
      | some st =>
        rw [hls] at hrb
        simp at hrb
        rw [hcode] at hls
        rw [hrb]
        exact hOk st hls
    have hssOf : ∀ a ∈ ch.stakestats, a.1 = sym.code →
        (findStakeStat ch sym.code a.2.staker).isSome = true := by
      intro a ha h1
      unfold findStakeStat
      cases hfc : ch.stakestats.find? (ssKey sym.code a.2.staker) with
      | some m => rfl
      | none =>
        have hkey := List.find?_eq_none.mp hfc a ha
        exact absurd (by unfold ssKey; simp [h1]) hkey
    refine ⟨?_, ?_, ?_, ?_, ?_⟩
    · intro r hr
      rw [update_stakes_stakes] at hr
      show recSymB ch r = true
      exact hrs r (List.mem_filter.mp hr).1
    · intro r hr
      rw [update_stakes_stakes] at hr
      obtain ⟨hm, hkeep⟩ := List.mem_filter.mp hr
      by_cases hc : r.2.quantity.symbol.code = sym.code
      · have hold : (findStakeStat ch sym.code r.1).isSome = true := by
          have := hno r hm
          rwa [hc] at this
        have hsymq : r.2.quantity.symbol = sym := hrec r.1 r hm rfl hc
        have hA2 : hasStakeStat ch sym.code r.1 = true := hold
        have hlt : now < r.2.start + stakeDurations.getD r.2.duration_index 0 := by
          by_contra hle
          push_neg at hle
          have hB2 : stakeExpired now sym r.2 = true := by
            unfold stakeExpired
            simp only [Bool.and_eq_true, decide_eq_true_eq]
            exact ⟨hsymq, hle⟩
          rw [hA2, hB2] at hkeep
          simp at hkeep
        have htpos : 0 < recomputedStake now sym (ownerRecords ch r.1) :=
          recomputedStake_pos_of_mem hqp hm rfl hsymq hlt
        rw [hc, findStakeStat_update_stakes_same (by omega)]
        cases hfc : findStakeStat ch sym.code r.1 with
        | none => rw [hfc] at hold; exact absurd hold (by simp)
        | some s => rfl
      · rw [findStakeStat_update_stakes_other r.1 hc]
        exact hno r hm
    · intro p hm' hl'
      rcases mem_update_stakes_stakestats hm' with ⟨hm, hc⟩ | ⟨a, ha, h1, ht, hreq⟩
      · rw [findStakeStat_update_stakes_other p.2.staker hc] at hl'
        rw [recordSum_update_stakes_other p.2.staker hc]
        exact hsum2 p hm hl'
      · rw [hreq]
        simp only
        rw [recordSum_update_stakes_same (hssOf a ha h1) (hrec a.2.staker)]
    · intro p hm' hl'
      rcases mem_update_stakes_stakestats hm' with ⟨hm, hc⟩ | ⟨a, ha, h1, ht, hreq⟩
      · rw [findStakeStat_update_stakes_other p.2.staker hc] at hl'
        have hlb := hslb p hm hl'
        constructor
        · show (findBalance ch p.2.staker p.1).isSome = true
          exact hlb.1
        · show p.2.total_stake.amount ≤ balD ch p.2.staker p.1
          exact hlb.2
      · rw [hreq]
        simp only
        cases hfc : findStakeStat ch sym.code a.2.staker with
        | none =>
          have := hssOf a ha h1
          rw [hfc] at this
          exact absurd this (by simp)
        | some s =>
          have hsum := statSumInv_lookup hsum2 hfc
          have hle : recomputedStake now sym (ownerRecords ch a.2.staker) ≤
              s.total_stake.amount := by
            rw [hsum]
            exact recomputedStake_le_recordSum hqp
          have hlb2 := statLeBal_lookup hslb hfc
          constructor
          · show (findBalance ch a.2.staker sym.code).isSome = true
            exact hlb2.1
          · show recomputedStake now sym (ownerRecords ch a.2.staker) ≤
                balD ch a.2.staker sym.code
            have := hlb2.2
            omega
    · intro p hm' hl'
      rcases mem_update_stakes_stakestats hm' with ⟨hm, hc⟩ | ⟨a, ha, h1, ht, hreq⟩
      · rw [findStakeStat_update_stakes_other p.2.staker hc] at hl'
        exact hpos p hm hl'
      · rw [hreq]
        simp only
        have h0 : 0 ≤ recomputedStake now sym (ownerRecords ch a.2.staker) :=
          recomputedStake_nonneg hqp
        omega

/-! ## Decomposition and preservation for `update_boost` -/

theorem update_boost_ok_spec {now : Nat} {fn fd : Int} {self : Name}
    {ch ch' : Chain} {sym : Sym}
    (h : update_boost now fn fd self ch sym = .ok ch') :
    ch' = ch ∨
    ∃ st, lookupStats ch sym.code = some st ∧
      ¬boostCount < st.boosts + 1 ∧
      st.created + (st.boosts + 1) * boostInterval ≤ now ∧
      ¬st.max_supply.amount < st.supply.amount +
        Int.tdiv (fn * Int.tdiv st.max_supply.amount 4) fd ∧
      st.supply.symbol = sym ∧
      -maxAssetAmount ≤ st.supply.amount +
        Int.tdiv (fn * Int.tdiv st.max_supply.amount 4) fd ∧
      st.supply.amount + Int.tdiv (fn * Int.tdiv st.max_supply.amount 4) fd ≤
        maxAssetAmount ∧
      ∃ r ch2, distribute (setStats ch sym.code
          ⟨⟨st.supply.amount + Int.tdiv (fn * Int.tdiv st.max_supply.amount 4) fd,
              st.supply.symbol⟩, st.max_supply, st.created, now, st.boosts + 1⟩)
          ⟨Int.tdiv (fn * Int.tdiv st.max_supply.amount 4) fd, sym⟩ = .ok (r, ch2) ∧
        ((0 < Int.tdiv (fn * Int.tdiv st.max_supply.amount 4) fd - r ∧
            add_balance ch2 self
              ⟨Int.tdiv (fn * Int.tdiv st.max_supply.amount 4) fd - r, sym⟩
              = .ok ch') ∨
          (¬0 < Int.tdiv (fn * Int.tdiv st.max_supply.amount 4) fd - r ∧
            ch' = ch2)) := by
  unfold update_boost at h
  cases hst : lookupStats ch sym.code with
  | none => rw [hst] at h; exact absurd h (by simp)
  | some st =>
    rw [hst] at h
    simp only at h
    by_cases h1 : boostCount < st.boosts + 1
    · rw [if_pos h1] at h
      injection h with h
      exact Or.inl h.symm
    rw [if_neg h1] at h
    by_cases h2 : st.created + (st.boosts + 1) * boostInterval ≤ now
    swap
    · rw [if_neg h2] at h
      injection h with h
      exact Or.inl h.symm
    rw [if_pos h2] at h
    by_cases h3 : st.max_supply.amount < st.supply.amount +
        Int.tdiv (fn * Int.tdiv st.max_supply.amount 4) fd
    · rw [if_pos h3] at h
      injection h with h
      exact Or.inl h.symm
    rw [if_neg h3] at h
    unfold assetAdd at h
    simp only at h
    by_cases h4 : st.supply.symbol = sym
    swap
    · rw [if_neg h4] at h
      exact absurd h (by simp)
    rw [if_pos h4] at h
    by_cases h5 : -maxAssetAmount ≤ st.supply.amount +
          Int.tdiv (fn * Int.tdiv st.max_supply.amount 4) fd ∧
        st.supply.amount + Int.tdiv (fn * Int.tdiv st.max_supply.amount 4) fd ≤
          maxAssetAmount
    swap
    · rw [if_neg h5] at h
      exact absurd h (by simp)
    rw [if_pos h5] at h
    simp only [bind_ok] at h
    cases hdist : distribute (setStats ch sym.code
        ⟨⟨st.supply.amount + Int.tdiv (fn * Int.tdiv st.max_supply.amount 4) fd,
            st.supply.symbol⟩, st.max_supply, st.created, now, st.boosts + 1⟩)
        ⟨Int.tdiv (fn * Int.tdiv st.max_supply.amount 4) fd, sym⟩ with
    | error e => rw [hdist] at h; exact absurd h (by simp)
    | ok rc =>
      rw [hdist] at h
      simp only [bind_ok] at h
      refine Or.inr ⟨st, rfl, h1, h2, h3, h4, h5.1, h5.2, rc.1, rc.2, hdist, ?_⟩
      by_cases h6 : 0 < Int.tdiv (fn * Int.tdiv st.max_supply.amount 4) fd - rc.1
      · rw [if_pos h6] at h
        exact Or.inl ⟨h6, h⟩
      · rw [if_neg h6] at h
        injection h with h
        exact Or.inr ⟨h6, h.symm⟩

theorem boost_step_preserves {now : Nat} {self : Name} {ch ch2 ch' : Chain}
    {sym : Sym} {st : CurrencyStats} {em r : Int}
    (hA : InvA ch)
    (hst : lookupStats ch sym.code = some st)
    (hsym : st.supply.symbol = sym)
    (hem0 : 0 ≤ em)
    (hcapem : st.supply.amount + em ≤ st.max_supply.amount)
    (hdist : distribute (setStats ch sym.code
        ⟨⟨st.supply.amount + em, st.supply.symbol⟩, st.max_supply, st.created, now,
          st.boosts + 1⟩) ⟨em, sym⟩ = .ok (r, ch2))
    (hrem : (0 < em - r ∧ add_balance ch2 self ⟨em - r, sym⟩ = .ok ch') ∨
      (¬0 < em - r ∧ ch' = ch2)) :
    (ch'.stakes = ch.stakes ∧ ch'.stakestats = ch.stakestats ∧
      ch'.chainAccounts = ch.chainAccounts) ∧
    InvA ch' ∧ (InvB ch → InvB ch') := by
  obtain ⟨hcons, hbs, hcap, hbn, hw, htot, hqp⟩ := hA
  have hcapst := capInv_lookup hcap hst
  have hknst : ((⟨⟨st.supply.amount + em, st.supply.symbol⟩, st.max_supply, st.created,
      now, st.boosts + 1⟩ : CurrencyStats)).supply.symbol.code = sym.code := by
    dsimp only
    rw [hsym]
  have hl1 : lookupStats (setStats ch sym.code
      ⟨⟨st.supply.amount + em, st.supply.symbol⟩, st.max_supply, st.created, now,
        st.boosts + 1⟩) sym.code =
      some ⟨⟨st.supply.amount + em, st.supply.symbol⟩, st.max_supply, st.created, now,
        st.boosts + 1⟩ := lookupStats_setStats_same hst hknst
  have hl2 : ∀ c, c ≠ sym.code → lookupStats (setStats ch sym.code
      ⟨⟨st.supply.amount + em, st.supply.symbol⟩, st.max_supply, st.created, now,
        st.boosts + 1⟩) c = lookupStats ch c :=
    fun c hc => lookupStats_setStats_other hc hknst
  have hSfields : (setStats ch sym.code
      ⟨⟨st.supply.amount + em, st.supply.symbol⟩, st.max_supply, st.created, now,
        st.boosts + 1⟩).balances = ch.balances ∧
      (setStats ch sym.code ⟨⟨st.supply.amount + em, st.supply.symbol⟩, st.max_supply,
        st.created, now, st.boosts + 1⟩).stakes = ch.stakes ∧
      (setStats ch sym.code ⟨⟨st.supply.amount + em, st.supply.symbol⟩, st.max_supply,
        st.created, now, st.boosts + 1⟩).stakestats = ch.stakestats ∧
      (setStats ch sym.code ⟨⟨st.supply.amount + em, st.supply.symbol⟩, st.max_supply,
        st.created, now, st.boosts + 1⟩).chainAccounts = ch.chainAccounts :=
    ⟨rfl, rfl, rfl, rfl⟩
  have hSsum : ∀ c, balanceSum (setStats ch sym.code
      ⟨⟨st.supply.amount + em, st.supply.symbol⟩, st.max_supply, st.created, now,
        st.boosts + 1⟩) c = balanceSum ch c := fun c => rfl
  have hSmem : ∀ a, a ∈ (setStats ch sym.code
      ⟨⟨st.supply.amount + em, st.supply.symbol⟩, st.max_supply, st.created, now,
        st.boosts + 1⟩).stats → a ∈ ch.stats ∨
      a = ⟨⟨st.supply.amount + em, st.supply.symbol⟩, st.max_supply, st.created, now,
        st.boosts + 1⟩ := fun a ha => setStats_mem ha
  have hSfind : ∀ o c, findBalance (setStats ch sym.code
      ⟨⟨st.supply.amount + em, st.supply.symbol⟩, st.max_supply, st.created, now,
        st.boosts + 1⟩) o c = findBalance ch o c := fun o c => rfl
  have hSbalD : ∀ o c, balD (setStats ch sym.code
      ⟨⟨st.supply.amount + em, st.supply.symbol⟩, st.max_supply, st.created, now,
        st.boosts + 1⟩) o c = balD ch o c := fun o c => rfl
  generalize hSgen : setStats ch sym.code
      ⟨⟨st.supply.amount + em, st.supply.symbol⟩, st.max_supply, st.created, now,
        st.boosts + 1⟩ = chS at hdist hl1 hl2 hSfields hSsum hSmem hSfind hSbalD
  -- weights seen by distribute are nonnegative
  have hwS : ∀ x ∈ stakeStatsFor chS sym.code, 0 ≤ x.stake_weight := by
    intro x hx
    rw [stakeStatsFor_congr hSfields.2.2.1] at hx
    exact hw _ (stakeStatsFor_mem hx)
  have hbound := distribute_bound hdist hwS hem0
  have hbound2 : 0 ≤ r ∧ r ≤ em := hbound
  have hDfields := distribute_fields hdist
  have hD2 : ∀ c, lookupStats ch2 c = lookupStats chS c := lookupStats_congr hDfields.1
  have hs2 := distribute_balanceSum hdist
  -- field equalities for the final chain
  have hfields : ch'.stats = chS.stats ∧ ch'.stakes = ch.stakes ∧
      ch'.stakestats = ch.stakestats ∧ ch'.chainAccounts = ch.chainAccounts := by
    rcases hrem with ⟨hpos, habr⟩ | ⟨hneg, rfl⟩
    · have hrf := add_balance_fields habr
      exact ⟨by rw [hrf.1, hDfields.1],
        by rw [hrf.2.1, hDfields.2.1, hSfields.2.1],
        by rw [hrf.2.2.1, hDfields.2.2.1, hSfields.2.2.1],
        by rw [hrf.2.2.2, hDfields.2.2.2, hSfields.2.2.2]⟩
    · exact ⟨hDfields.1, by rw [hDfields.2.1, hSfields.2.1],
        by rw [hDfields.2.2.1, hSfields.2.2.1],
        by rw [hDfields.2.2.2, hSfields.2.2.2]⟩
  have hlook1 : lookupStats ch' sym.code =
      some ⟨⟨st.supply.amount + em, st.supply.symbol⟩, st.max_supply, st.created, now,
        st.boosts + 1⟩ := by
    rw [lookupStats_congr hfields.1]
    exact hl1
  have hlook2 : ∀ c, c ≠ sym.code → lookupStats ch' c = lookupStats ch c := by
    intro c hc
    rw [lookupStats_congr hfields.1]
    exact hl2 c hc
  have hsum : ∀ c, balanceSum ch' c =
      balanceSum ch c + (if sym.code = c then em else 0) := by
    intro c
    rcases hrem with ⟨hpos, habr⟩ | ⟨hneg, rfl⟩
    · have hs3 := add_balance_balanceSum habr
      rw [hs3 c, hs2 c, hSsum c]
      by_cases hc : sym.code = c
      · simp only [hc, if_pos rfl]
        simp only [eq_self_iff_true, if_true]
        omega
      · rw [if_neg hc, if_neg hc, if_neg hc]
        omega
    · rw [hs2 c, hSsum c]
      by_cases hc : sym.code = c
      · simp only [hc, if_pos rfl]
        simp only [eq_self_iff_true, if_true]
        omega
      · rw [if_neg hc, if_neg hc]
  -- balances stay nonnegative and covered through the chain
  have hbnS : balNonneg chS := by
    intro rr hr
    rw [hSfields.1] at hr
    exact hbn rr hr
  have hbsS : balHasStats chS := by
    intro rr hr
    have hr2 : rr ∈ ch.balances := by rw [← hSfields.1]; exact hr
    by_cases hc : rr.2.symbol.code = sym.code
    · rw [hc, hl1]
      rfl
    · rw [hl2 _ hc]
      exact hbs rr hr2
  obtain ⟨hmbn, hmbs, hmono⟩ := distribute_mono hdist hwS hem0
  have hbn2 : balNonneg ch2 := hmbn hbnS
  have hbs2 : balHasStats ch2 := hmbs (by rw [hl1]; rfl) hbsS
  have hbn' : balNonneg ch' ∧ balHasStats ch' ∧
      (∀ o c, balD ch2 o c ≤ balD ch' o c ∧
        ((findBalance ch2 o c).isSome = true → (findBalance ch' o c).isSome = true)) := by
    rcases hrem with ⟨hpos, habr⟩ | ⟨hneg, rfl⟩
    · exact ⟨add_balance_balNonneg habr (by dsimp only; omega) hbn2,
        add_balance_balHasStats habr (by rw [hD2, hl1]; rfl) hbs2,
        fun o c => add_balance_balD_mono habr (by dsimp only; omega) o c⟩
    · exact ⟨hbn2, hbs2, fun o c => ⟨le_refl _, fun hx => hx⟩⟩
  refine ⟨⟨hfields.2.1, hfields.2.2.1, hfields.2.2.2⟩, ⟨?_, hbn'.2.1, ?_, hbn'.1,
    wNonneg_congr hfields.2.2.1 hw, totNonneg_congr hfields.2.2.1 htot,
    qPos_congr hfields.2.1 hqp⟩, ?_⟩
  · -- consInv
    intro row hm' hl'
    by_cases hc : row.supply.symbol.code = sym.code
    · rw [hc] at hl' ⊢
      rw [hlook1] at hl'
      injection hl' with hl'
      rw [← hl']
      dsimp only
      rw [hsum, if_pos rfl]
      have h9 := consInv_lookup hcons hst
      omega
    · rw [hlook2 _ hc] at hl'
      rw [hsum]
      rw [if_neg (fun hh => hc hh.symm)]
      have hmold : row ∈ ch.stats := by
        rw [hfields.1] at hm'
        rcases hSmem row hm' with hm2 | hm2
        · exact hm2
        · exfalso
          apply hc
          rw [hm2]
          exact hknst
      have := hcons row hmold hl'
      omega
  · -- capInv
    intro row hm' hl'
    by_cases hc : row.supply.symbol.code = sym.code
    · rw [hc] at hl'
      rw [hlook1] at hl'
      injection hl' with hl'
      rw [← hl']
      dsimp only
      omega
    · rw [hlook2 _ hc] at hl'
      have hmold : row ∈ ch.stats := by
        rw [hfields.1] at hm'
        rcases hSmem row hm' with hm2 | hm2
        · exact hm2
        · exfalso
          apply hc
          rw [hm2]
          exact hknst
      exact hcap row hmold hl'
  · -- InvB
    intro hB
    obtain ⟨hrs, hno, hsum2, hslb, hpos⟩ := hB
    refine ⟨?_, ?_, ?_, ?_, ?_⟩
    · intro rr hm
      rw [hfields.2.1] at hm
      have := hrs rr hm
      unfold recSymB at this ⊢
      by_cases hc : rr.2.quantity.symbol.code = sym.code
      · rw [hc] at this ⊢
        rw [hlook1]
        rw [hst] at this
        simpa using this
      · rw [hlook2 _ hc]
        exact this
    · intro rr hm
      rw [hfields.2.1] at hm
      rw [findStakeStat_congr hfields.2.2.1]
      exact hno rr hm
    · intro p hm hl
      rw [hfields.2.2.1] at hm
      rw [findStakeStat_congr hfields.2.2.1] at hl
      rw [recordSum_congr hfields.2.1]
      exact hsum2 p hm hl
    · intro p hm hl
      rw [hfields.2.2.1] at hm
      rw [findStakeStat_congr hfields.2.2.1] at hl
      obtain ⟨hsome, hle⟩ := statLeBal_lookup hslb hl
      have h2 := hmono p.2.staker p.1
      have h3 := hbn'.2.2 p.2.staker p.1
      rw [hSfind] at h2
      rw [hSbalD] at h2
      refine ⟨h3.2 (h2.2 hsome), ?_⟩
      exact le_trans (le_trans hle h2.1) h3.1
    · intro p hm hl
      rw [hfields.2.2.1] at hm
      rw [findStakeStat_congr hfields.2.2.1] at hl
      exact hpos p hm hl

theorem update_boost_preserves {now : Nat} {fn fd : Int} {self : Name}
    {ch ch' : Chain} {sym : Sym}
    (hfn : 0 ≤ fn) (hfd : 0 < fd) (hA : InvA ch)
    (h : update_boost now fn fd self ch sym = .ok ch') :
    (ch'.stakes = ch.stakes ∧ ch'.stakestats = ch.stakestats ∧
      ch'.chainAccounts = ch.chainAccounts) ∧
    InvA ch' ∧ (InvB ch → InvB ch') := by
  rcases update_boost_ok_spec h with rfl |
    ⟨st, hst, hg1, hg2, hguard, hsym, hlo, hhi, r, ch2, hdist, hrem⟩
  · exact ⟨⟨rfl, rfl, rfl⟩, hA, fun hB => hB⟩
  · have hcapst := capInv_lookup hA.2.2.1 hst
    have hmax0 : 0 ≤ st.max_supply.amount := by omega
    have hem0 : 0 ≤ Int.tdiv (fn * Int.tdiv st.max_supply.amount 4) fd :=
      tdiv_nonneg (mul_nonneg hfn (tdiv_nonneg hmax0 (by norm_num))) hfd.le
    exact boost_step_preserves hA hst hsym hem0 (by omega) hdist hrem

/-! ## Preservation by `update` and by every dispatched action -/

theorem update_preserves {now : Nat} {fn fd : Int} {self : Name} {ch ch' : Chain}
    {sym : Sym} (hfn : 0 ≤ fn) (hfd : 0 < fd) (hA : InvA ch)
    (h : update now fn fd self ch sym = .ok ch') :
    InvA ch' ∧
    ((∀ st, lookupStats ch sym.code = some st → st.supply.symbol = sym) →
      InvB ch → InvB ch') := by
  unfold update at h
  by_cases hv : symCodeValid sym.code = true
  swap
  · rw [if_neg hv] at h
    exact absurd h (by simp)
  rw [if_pos hv] at h
  have hU := @update_stakes_preserves now ch sym hA
  obtain ⟨hUfields, hUA, hUB⟩ := hU
  obtain ⟨hBfields, hBA, hBB⟩ := update_boost_preserves hfn hfd hUA h
  refine ⟨hBA, fun hOk hB => hBB (hUB ?_ hB)⟩
  intro st hl
  apply hOk
  rw [← hl]

theorem transferstkd_preserves {now : Nat} {self : Name} {ch ch' : Chain}
    {frm toN : Name} {q : Asset} {memo : List Char} {idx : Nat}
    (hA : InvA ch) (h : transferstkd now self ch frm toN q memo idx = .ok ch') :
    InvA ch' ∧ (InvB ch → InvB ch') := by
  unfold transferstkd at h
  cases ht : transfer self ch frm toN q memo with
  | error e => rw [ht] at h; exact absurd h (by simp)
  | ok ch1 =>
    rw [ht] at h
    simp only [bind_ok] at h
    obtain ⟨_, _, hA1, _⟩ := transfer_preserves hA ht
    obtain ⟨_, hA', hB'⟩ := add_stake_preserves hA1 h
    exact ⟨hA', fun hB => hB' (transfer_invB hA hB ht)⟩

/-- Every dispatched action preserves the basic well-formedness
package `InvA` (conditions `0 ≤ fn`, `0 < fd` state that the boost
factor `exp(boost_lambda*n)/boost_divisor` is a nonnegative value over
a positive divisor, as the floats in the source always are). -/
theorem applyAct_preservesInvA {now : Nat} {fn fd : Int} {self : Name}
    {ch ch' : Chain} {a : Act} (hfn : 0 ≤ fn) (hfd : 0 < fd)
    (hA : InvA ch) (h : applyAct now fn fd self ch a = .ok ch') : InvA ch' := by
  cases a with
  | create m => exact (create_preserves hA h).2.1
  | transfer frm toN q memo => exact (transfer_preserves hA h).2.2.1
  | transferstkd frm toN q memo idx => exact (transferstkd_preserves hA h).1
  | openA o sym => exact (openA_preserves hA h).2.2.1
  | closeA o sym => exact (closeA_preserves hA h).2.2.1
  | addstake staker q idx => exact (add_stake_preserves hA h).2.1
  | update sym => exact (update_preserves hfn hfd hA h).1

/-- Every dispatched action invoked coherently (`ActOk`) preserves the
full invariant `Inv`. -/
theorem applyAct_preservesInv {now : Nat} {fn fd : Int} {self : Name}
    {ch ch' : Chain} {a : Act} (hfn : 0 ≤ fn) (hfd : 0 < fd)
    (hI : Inv ch) (hok : ActOk ch a)
    (h : applyAct now fn fd self ch a = .ok ch') : Inv ch' := by
  obtain ⟨hA, hB⟩ := hI
  cases a with
  | create m =>
    obtain ⟨_, hA', hB'⟩ := create_preserves hA h
    exact ⟨hA', hB' hB⟩
  | transfer frm toN q memo =>
    exact ⟨(transfer_preserves hA h).2.2.1, transfer_invB hA hB h⟩
  | transferstkd frm toN q memo idx =>
    obtain ⟨hA', hB'⟩ := transferstkd_preserves hA h
    exact ⟨hA', hB' hB⟩
  | openA o sym =>
    obtain ⟨hfields, _, hA', hslb⟩ := openA_preserves hA h
    obtain ⟨hrs, hno, hsum, hslb0, hpos⟩ := hB
    obtain ⟨h1, h2, h3, h4⟩ :=
      invB_partial_congr hfields.1 hfields.2.1 hfields.2.2.1 hrs hno hsum hpos
    exact ⟨hA', h1, h2, h3, hslb hslb0, h4⟩
  | closeA o sym =>
    obtain ⟨hfields, _, hA', hslb⟩ := closeA_preserves hA h
    obtain ⟨hrs, hno, hsum, hslb0, hpos⟩ := hB
    obtain ⟨h1, h2, h3, h4⟩ :=
      invB_partial_congr hfields.1 hfields.2.1 hfields.2.2.1 hrs hno hsum hpos
    exact ⟨hA', h1, h2, h3, hslb hslb0 hpos, h4⟩
  | addstake staker q idx =>
    obtain ⟨_, hA', hB'⟩ := add_stake_preserves hA h
    exact ⟨hA', hB' hB⟩
  | update sym =>
    obtain ⟨hA', hB'⟩ := update_preserves hfn hfd hA h
    exact ⟨hA', hB' hok hB⟩

/-! ## Multi-step runs of the contract -/

/-- One scheduled invocation: the block time, the boost float factor as
a fraction, and the dispatched action. -/
structure Call where
  now : Nat
  fn : Int
  fd : Int
  act : Act

/-- Run a list of invocations left to right, stopping at the first
abort. -/
def runActs (self : Name) : Chain → List Call → Except TErr Chain
  | ch, [] => .ok ch
  | ch, c :: cs => (applyAct c.now c.fn c.fd self ch c.act).bind
      (fun ch' => runActs self ch' cs)

/-- The boost float factor of every invocation is a nonnegative value
over a positive divisor (as `exp(boost_lambda*n)/boost_divisor` always
is). -/
def FloatOk (l : List Call) : Prop := ∀ c ∈ l, 0 ≤ c.fn ∧ 0 < c.fd

/-- Every maintenance `update` along the run passes the stored symbol
exactly (`ActOk` at each intermediate state). -/
def OkRun (self : Name) : Chain → List Call → Prop
  | _, [] => True
  | ch, c :: cs => ActOk ch c.act ∧
      ∀ ch', applyAct c.now c.fn c.fd self ch c.act = .ok ch' → OkRun self ch' cs

theorem runActs_preservesInvA {self : Name} {ch ch' : Chain} {l : List Call}
    (hfl : FloatOk l) (hA : InvA ch) (h : runActs self ch l = .ok ch') :
    InvA ch' := by
  induction l generalizing ch with
  | nil =>
    unfold runActs at h
    injection h with h
    rw [← h]
    exact hA
  | cons c cs ih =>
    unfold runActs at h
    cases hstep : applyAct c.now c.fn c.fd self ch c.act with
    | error e => rw [hstep] at h; exact absurd h (by simp [Except.bind])
    | ok ch1 =>
      rw [hstep] at h
      simp only [Except.bind] at h
      have hc := hfl c (by simp)
      exact ih (fun x hx => hfl x (List.mem_cons_of_mem c hx))
        (applyAct_preservesInvA hc.1 hc.2 hA hstep) h

theorem runActs_preservesInv {self : Name} {ch ch' : Chain} {l : List Call}
    (hfl : FloatOk l) (hok : OkRun self ch l) (hI : Inv ch)
    (h : runActs self ch l = .ok ch') : Inv ch' := by
  induction l generalizing ch with
  | nil =>
    unfold runActs at h
    injection h with h
    rw [← h]
    exact hI
  | cons c cs ih =>
    unfold runActs at h
    cases hstep : applyAct c.now c.fn c.fd self ch c.act with
    | error e => rw [hstep] at h; exact absurd h (by simp [Except.bind])
    | ok ch1 =>
      rw [hstep] at h
      simp only [Except.bind] at h
      have hc := hfl c (by simp)
      exact ih (fun x hx => hfl x (List.mem_cons_of_mem c hx))
        (hok.2 ch1 hstep)
        (applyAct_preservesInv hc.1 hc.2 hI hok.1 hstep) h

/-- The genesis state: the listed chain accounts exist, all four
contract tables are empty. -/
def initialChain (accts : List Name) : Chain := ⟨accts, [], [], [], []⟩

theorem initialChain_Inv (accts : List Name) : Inv (initialChain accts) := by
  refine ⟨⟨?_, ?_, ?_, ?_, ?_, ?_, ?_⟩, ?_, ?_, ?_, ?_, ?_⟩ <;>
    intro x hx <;> exact absurd hx (by simp [initialChain])

/-! ## Concrete instances used by the claim theorems -/

/-- Symbol `A`, precision 4. -/
def symA : Sym := ⟨65, 4⟩

/-- Symbol `A`, precision 0 (same raw code scope as `symA`). -/
def symA0 : Sym := ⟨65, 0⟩

def c3ch : Chain := ⟨[1, 2], [(2, ⟨1000, symA⟩)],
  [⟨⟨1000, symA⟩, ⟨100000, symA⟩, 0, 0, 0⟩], [], []⟩

def c3r : Chain := ⟨[1, 2], [(2, ⟨1000, symA⟩)],
  [⟨⟨1000, symA⟩, ⟨100000, symA⟩, 0, 0, 0⟩],
  [(2, ⟨0, ⟨2, symA⟩, 0, 0⟩)],
  [(65, ⟨2, ⟨2, symA⟩, 50⟩)]⟩

def c5ch : Chain := ⟨[1, 2], [(2, ⟨1000, symA⟩)],
  [⟨⟨1000, symA⟩, ⟨100000, symA⟩, 0, 0, 0⟩], [],
  [(65, ⟨2, ⟨100, symA⟩, 50⟩)]⟩

def c5r : Chain := ⟨[1, 2], [(2, ⟨1010, symA⟩)],
  [⟨⟨1000, symA⟩, ⟨100000, symA⟩, 0, 0, 0⟩], [],
  [(65, ⟨2, ⟨100, symA⟩, 50⟩)]⟩

def c10ch : Chain := ⟨[1, 2, 3], [(2, ⟨1000, symA⟩)],
  [⟨⟨1000, symA⟩, ⟨100000, symA⟩, 0, 0, 0⟩], [], []⟩

/-- Shared helper: a missing balance row makes `get_unstaked_balance`
abort with the `get_balance` assertion. -/
theorem get_unstaked_balance_none {ch : Chain} {o : Name} {sym : Sym}
    (h : findBalance ch o sym.code = none) :
    get_unstaked_balance ch o sym = .error .accountRowMissing := by
  unfold get_unstaked_balance get_balance
  rw [h]
  rfl

/-! ## The claims -/

/-- C3: the specification says a successful `add_stake` adds
`weight_table[duration_index] * quantity.amount` to the staker's
`stake_weight`, keeping the StakeStat equal to the recomputation from
the live stake records.  The code (line 207) adds the raw table entry
`stake_weights[duration_index]` without the `* quantity.amount` factor:
staking `2` units at duration index 0 stores weight `50`, while the
spec's formula — and the maintenance recomputation `update_stakes`
actually performs (lines 271–283) — give `100`.  The stored aggregate
therefore diverges from the invariant the scheduler maintains. -/
theorem C3_stake_weight_bug :
    addstake 0 c3ch 2 ⟨2, symA⟩ 0 = .ok c3r ∧
    findStakeStat c3r symA.code 2 = some ⟨2, ⟨2, symA⟩, 50⟩ ∧
    stakeWeights.getD 0 0 * (2 : Int) = 100 ∧
    recomputedWeight 0 symA (ownerRecords c3r 2) = 100 ∧
    ¬(50 : Int) = 100 := by
  refine ⟨by decide, by decide, by decide, by decide, by decide⟩

/-- C5: (amended) with the nonnegative stake weights the contract
maintains and a nonnegative quantity, `distribute` returns
`0 ≤ r ≤ quantity.amount`, and a zero total weight forces `r = 0`.
The claim's converse (`r = 0` only if the total weight is zero) is
false: a zero or sub-weight quantity also distributes nothing — see the
counterexample. -/
theorem C5_distribute_bound {ch ch' : Chain} {q : Asset} {r : Int}
    (hw : wNonneg ch) (hq : 0 ≤ q.amount)
    (h : distribute ch q = .ok (r, ch')) :
    0 ≤ r ∧ r ≤ q.amount ∧ (totalWeightFor ch q.symbol.code = 0 → r = 0) := by
  have hws : ∀ x ∈ stakeStatsFor ch q.symbol.code, 0 ≤ x.stake_weight :=
    fun x hx => hw _ (stakeStatsFor_mem hx)
  have hb := distribute_bound h hws hq
  refine ⟨hb.1, hb.2, ?_⟩
  intro hW
  rcases distribute_r h with ⟨_, hr⟩ | ⟨hne, _⟩
  · exact hr
  · exact absurd hW hne

theorem C5_distribute_bound_witness :
    wNonneg c5ch ∧ (0 : Int) ≤ (10 : Int) ∧
    (0 ≤ (10 : Int) ∧ (10 : Int) ≤ (10 : Int) ∧
      (totalWeightFor c5ch symA.code = 0 → (10 : Int) = 0)) :=
  ⟨by unfold wNonneg c5ch; decide, by decide,
    C5_distribute_bound (by unfold wNonneg c5ch; decide) (by decide)
      (by decide : distribute c5ch ⟨10, symA⟩ = .ok (10, c5r))⟩

/-- C5 counterexample: distributing a zero quantity over a staker set
of total weight 50 returns `r = 0` although the total weight is not
zero, refuting the claimed `r == 0 ↔ total_weight == 0`. -/
theorem C5_distribute_iff_counterexample :
    distribute c5ch ⟨0, symA⟩ = .ok (0, c5ch) ∧
    ¬totalWeightFor c5ch symA.code = 0 := by
  refine ⟨by decide, by decide⟩

/-- C8: `transferstkd` (whose inline-action dispatch lives in
`eosiolib`, outside this repository, and is therefore modelled from the
spec) has exactly the effect of `transfer` followed immediately by
`add_stake` on the recipient against the post-transfer state. -/
theorem C8_transferstkd_refinement :
    ∀ (now : Nat) (self : Name) (ch : Chain) (frm toN : Name) (q : Asset)
      (memo : List Char) (idx : Nat),
      transferstkd now self ch frm toN q memo idx =
        transferThenStake now self ch frm toN q memo idx :=
  fun _ _ _ _ _ _ _ _ => rfl

/-- C10: an owner without an `accounts` row for the symbol makes
`get_unstaked_balance` abort with the `get_balance` row assertion
rather than return zero; `addstake` by such an owner — all earlier
validations passing — therefore fails with that assertion, never
reaching the overdrawn check; yet a missing StakeStat alone is treated
as zero stake, not an error. -/
theorem C10_missing_row_aborts :
    (∀ (ch : Chain) (o : Name) (sym : Sym), findBalance ch o sym.code = none →
      get_unstaked_balance ch o sym = .error .accountRowMissing) ∧
    (∀ (now : Nat) (ch : Chain) (staker : Name) (q : Asset) (idx : Nat)
      (st : CurrencyStats), staker ∈ ch.chainAccounts → idx < stakeCount →
      lookupStats ch q.symbol.code = some st → assetValid q = true →
      0 < q.amount → q.symbol = st.supply.symbol →
      findBalance ch staker q.symbol.code = none →
      addstake now ch staker q idx = .error .accountRowMissing) ∧
    (∀ (ch : Chain) (s : Name) (sym : Sym), findStakeStat ch sym.code s = none →
      get_stake ch s sym = ⟨0, sym⟩) := by
  refine ⟨fun ch o sym h => get_unstaked_balance_none h, ?_, ?_⟩
  · intro now ch staker q idx st hacc hidx hst hvalid hq hsym hfb
    unfold addstake add_stake
    rw [if_neg (not_not_intro hacc), if_neg (not_not_intro hidx), hst]
    simp only
    rw [if_neg (not_not_intro hvalid), if_neg (not_not_intro hq),
      if_neg (not_not_intro hsym), get_unstaked_balance_none hfb]
    rfl
  · intro ch s sym h
    unfold get_stake
    rw [h]

theorem C10_missing_row_aborts_witness :
    ((3 : Name) ∈ c10ch.chainAccounts ∧ 0 < stakeCount ∧
      lookupStats c10ch symA.code = some ⟨⟨1000, symA⟩, ⟨100000, symA⟩, 0, 0, 0⟩ ∧
      assetValid ⟨5, symA⟩ = true ∧ 0 < (5 : Int) ∧
      findBalance c10ch 3 symA.code = none) ∧
    addstake 0 c10ch 3 ⟨5, symA⟩ 0 = .error .accountRowMissing :=
  ⟨⟨by decide, by decide, by decide, by decide, by decide, by decide⟩,
    C10_missing_row_aborts.2.1 0 c10ch 3 ⟨5, symA⟩ 0
      ⟨⟨1000, symA⟩, ⟨100000, symA⟩, 0, 0, 0⟩ (by decide) (by decide) (by decide)
      (by decide) (by decide) (by decide) (by decide)⟩

/-- Calls exercising conservation: create, then a fee-charging
transfer. -/
def c1l : List Call := [⟨0, 1, 1, .create ⟨1000, symA⟩⟩,
  ⟨1, 1, 1, .transfer 1 2 ⟨200, symA⟩ []⟩]

def c1res : Chain := ⟨[1, 2], [(1, ⟨550, symA⟩), (2, ⟨200, symA⟩)],
  [⟨⟨750, symA⟩, ⟨1000, symA⟩, 0, 0, 0⟩], [], []⟩

/-- C1: conservation — after any successful sequence of dispatched
operations (the boost float factor being, as always, a nonnegative
value over a positive divisor) starting from a state satisfying the
basic well-formedness package, every symbol's recorded supply equals
the sum of all account balances carrying that symbol's code. -/
theorem C1_conservation {self : Name} {ch ch' : Chain} {l : List Call}
    (hfl : FloatOk l) (hA : InvA ch) (h : runActs self ch l = .ok ch') :
    ∀ (c : Nat) (st : CurrencyStats), lookupStats ch' c = some st →
      st.supply.amount = balanceSum ch' c := by
  have hA' := runActs_preservesInvA hfl hA h
  intro c st hl
  exact consInv_lookup hA'.1 hl

theorem C1_conservation_witness :
    FloatOk c1l ∧
    ((⟨⟨750, symA⟩, ⟨1000, symA⟩, 0, 0, 0⟩ : CurrencyStats)).supply.amount =
      balanceSum c1res 65 :=
  ⟨by unfold FloatOk c1l; decide,
    C1_conservation (by unfold FloatOk c1l; decide)
      (initialChain_Inv [1, 2]).1
      (by decide : runActs 1 (initialChain [1, 2]) c1l = .ok c1res)
      65 ⟨⟨750, symA⟩, ⟨1000, symA⟩, 0, 0, 0⟩ (by decide)⟩

/-- Calls exercising the cap: create, then a due boost emission. -/
def c2l : List Call := [⟨0, 1, 1, .create ⟨1000, symA⟩⟩,
  ⟨120, 1, 100, .update symA⟩]

def c2res : Chain := ⟨[1, 2], [(1, ⟨752, symA⟩)],
  [⟨⟨752, symA⟩, ⟨1000, symA⟩, 0, 120, 1⟩], [], []⟩

/-- C2: supply cap — after any successful sequence of dispatched
operations from a well-formed state, every symbol's supply satisfies
`0 ≤ supply ≤ max_supply`; in particular repeated `issue` (reachable
only through `create`) and boost cycles never drive the supply above
`max_supply`. -/
theorem C2_supply_cap {self : Name} {ch ch' : Chain} {l : List Call}
    (hfl : FloatOk l) (hA : InvA ch) (h : runActs self ch l = .ok ch') :
    ∀ (c : Nat) (st : CurrencyStats), lookupStats ch' c = some st →
      st.supply.amount ≤ st.max_supply.amount := by
  have hA' := runActs_preservesInvA hfl hA h
  intro c st hl
  exact (capInv_lookup hA'.2.2.1 hl).2

theorem C2_supply_cap_witness :
    FloatOk c2l ∧
    ((⟨⟨752, symA⟩, ⟨1000, symA⟩, 0, 120, 1⟩ : CurrencyStats)).supply.amount ≤
      ((⟨⟨752, symA⟩, ⟨1000, symA⟩, 0, 120, 1⟩ : CurrencyStats)).max_supply.amount :=
  ⟨by unfold FloatOk c2l; decide,
    C2_supply_cap (by unfold FloatOk c2l; decide)
      (initialChain_Inv [1, 2]).1
      (by decide : runActs 1 (initialChain [1, 2]) c2l = .ok c2res)
      65 ⟨⟨752, symA⟩, ⟨1000, symA⟩, 0, 120, 1⟩ (by decide)⟩

/-- C6: (amended) `update_boost` with `next = boosts + 1` does nothing
when `next > BOOST_COUNT` or the next boost time is in the future;
when due but capped it leaves the row unchanged; otherwise the row
becomes supply `+ emission`, `boosts = next`, `updated = now`, the
emission is handed to `distribute`, and any undistributed remainder is
credited to the contract reserve account.  The emission is the doubly
truncated `(int64_t)(factor * (int64_t)(0.25 * max_supply))` —
`Int.tdiv (fn * Int.tdiv max 4) fd` — not the single truncation
`floor(factor * 0.25 * max_supply)` the claim states; see the
counterexample. -/
theorem C6_update_boost_behaviour {now : Nat} {fn fd : Int} {self : Name}
    {ch : Chain} {sym : Sym} {st : CurrencyStats}
    (hst : lookupStats ch sym.code = some st) :
    (boostCount < st.boosts + 1 → update_boost now fn fd self ch sym = .ok ch) ∧
    (¬st.created + (st.boosts + 1) * boostInterval ≤ now →
      update_boost now fn fd self ch sym = .ok ch) ∧
    (¬boostCount < st.boosts + 1 →
      st.created + (st.boosts + 1) * boostInterval ≤ now →
      st.max_supply.amount < st.supply.amount +
        Int.tdiv (fn * Int.tdiv st.max_supply.amount 4) fd →
      update_boost now fn fd self ch sym = .ok ch) ∧
    (∀ ch', update_boost now fn fd self ch sym = .ok ch' →
      ch' = ch ∨
      ∃ r ch2, distribute (setStats ch sym.code
          ⟨⟨st.supply.amount + Int.tdiv (fn * Int.tdiv st.max_supply.amount 4) fd,
            st.supply.symbol⟩, st.max_supply, st.created, now, st.boosts + 1⟩)
          ⟨Int.tdiv (fn * Int.tdiv st.max_supply.amount 4) fd, sym⟩ = .ok (r, ch2) ∧
        lookupStats ch' sym.code = some ⟨⟨st.supply.amount +
          Int.tdiv (fn * Int.tdiv st.max_supply.amount 4) fd, st.supply.symbol⟩,
          st.max_supply, st.created, now, st.boosts + 1⟩ ∧
        ((0 < Int.tdiv (fn * Int.tdiv st.max_supply.amount 4) fd - r ∧
            add_balance ch2 self
              ⟨Int.tdiv (fn * Int.tdiv st.max_supply.amount 4) fd - r, sym⟩
              = .ok ch') ∨
          (¬0 < Int.tdiv (fn * Int.tdiv st.max_supply.amount 4) fd - r ∧
            ch' = ch2))) := by
  refine ⟨?_, ?_, ?_, ?_⟩
  · intro h1
    unfold update_boost
    rw [hst]
    simp only
    rw [if_pos h1]
  · intro h2
    unfold update_boost
    rw [hst]
    simp only
    by_cases h1 : boostCount < st.boosts + 1
    · rw [if_pos h1]
    · rw [if_neg h1, if_neg h2]
  · intro h1 h2 h3
    unfold update_boost
    rw [hst]
    simp only
    rw [if_neg h1, if_pos h2, if_pos h3]
  · intro ch' h
    rcases update_boost_ok_spec h with rfl |
      ⟨st2, hst2, _, _, _, hsym2, _, _, r, ch2, hdist, hrem⟩
    · exact Or.inl rfl
    · right
      rw [hst] at hst2
      injection hst2 with hst2
      rw [← hst2] at hsym2 hdist hrem
      have hDf := distribute_fields hdist
      have hl1 : lookupStats (setStats ch sym.code
          ⟨⟨st.supply.amount + Int.tdiv (fn * Int.tdiv st.max_supply.amount 4) fd,
            st.supply.symbol⟩, st.max_supply, st.created, now, st.boosts + 1⟩)
          sym.code = some ⟨⟨st.supply.amount +
            Int.tdiv (fn * Int.tdiv st.max_supply.amount 4) fd, st.supply.symbol⟩,
            st.max_supply, st.created, now, st.boosts + 1⟩ :=
        lookupStats_setStats_same hst (by dsimp only; rw [hsym2])
      have hlook : lookupStats ch' sym.code = some ⟨⟨st.supply.amount +
          Int.tdiv (fn * Int.tdiv st.max_supply.amount 4) fd, st.supply.symbol⟩,
          st.max_supply, st.created, now, st.boosts + 1⟩ := by
        rcases hrem with ⟨_, habr⟩ | ⟨_, rfl⟩
        · rw [lookupStats_congr (add_balance_fields habr).1,
            lookupStats_congr hDf.1]
          exact hl1
        · rw [lookupStats_congr hDf.1]
          exact hl1
      exact ⟨r, ch2, hdist, hlook, hrem⟩

/-- The boost-curve factor at `next_boost = 1` as the exact value of
the double the code computes: `exp(boost_lambda * next_boost) /
boost_divisor` with `boost_lambda = -0.015f` and
`boost_divisor = 66.0f` evaluates in IEEE-754 double arithmetic to
`1075527215903527 / 2 ^ 56 ≈ 0.014925938484`. -/
def boostFn : Int := 1075527215903527

/-- Denominator of [[boostFn]]'s dyadic value: `2 ^ 56`. -/
def boostFd : Int := 72057594037927936

def c6wch : Chain := ⟨[1], [],
  [⟨⟨100, symA⟩, ⟨269, symA⟩, 0, 0, 312⟩], [], []⟩

theorem C6_update_boost_behaviour_witness :
    boostCount < 312 + 1 ∧
    update_boost 0 boostFn boostFd 1 c6wch symA = .ok c6wch :=
  ⟨by decide,
    (C6_update_boost_behaviour
      (by decide : lookupStats c6wch symA.code =
        some ⟨⟨100, symA⟩, ⟨269, symA⟩, 0, 0, 312⟩)).1 (by decide)⟩

def c6cch : Chain := ⟨[1], [],
  [⟨⟨0, symA⟩, ⟨26531, symA⟩, 0, 0, 0⟩], [], []⟩

def c6cr : Chain := ⟨[1], [(1, ⟨98, symA⟩)],
  [⟨⟨98, symA⟩, ⟨26531, symA⟩, 0, 120, 1⟩], [], []⟩

/-- C6 counterexample: at `next_boost = 1` the program's factor
`exp(-0.015f) / 66.0f` is the double `boostFn / boostFd`; with
`max_supply = 26531` the claim's single-truncation emission
`floor(factor * 0.25 * max_supply) = floor(boostFn * 26531 / (4 *
boostFd))` is `99`, but the code first truncates
`(int64_t)(0.25 * 26531) = 6632` and then emits
`(int64_t)(factor * 6632) = 98` — the due boost cycle adds 98, not 99,
to the supply (both margins exceed `10 ^ -5`, far above any 1-ulp
variation in `exp`). -/
theorem C6_update_boost_counterexample :
    update_boost 120 boostFn boostFd 1 c6cch symA = .ok c6cr ∧
    Int.tdiv (boostFn * Int.tdiv 26531 4) boostFd = 98 ∧
    Int.tdiv (boostFn * 26531) (4 * boostFd) = 99 := by
  refine ⟨by decide, by decide, by decide⟩

/-- C9: (amended) a successful `create` is characterized by: no prior
stats row, a strictly positive truncated issue amount
`(int64_t)(0.75 * max) = Int.tdiv (3 * max) 4`, a new stats row with
`supply = tdiv (3 * max) 4`, `created = updated = now`, `boosts = 0`,
and the whole issued amount credited to the contract's own account.
The claim's precondition `maximum_supply.amount > 0` is too weak: for
`max = 1` the truncated issue amount is `0`, `issue` asserts
positivity, and `create` aborts — see the counterexample. -/
theorem C9_create_issues {now : Nat} {self : Name} {ch ch' : Chain} {m : Asset}
    (h : create now self ch m = .ok ch') :
    lookupStats ch m.symbol.code = none ∧
    0 < Int.tdiv (3 * m.amount) 4 ∧
    lookupStats ch' m.symbol.code =
      some ⟨⟨Int.tdiv (3 * m.amount) 4, m.symbol⟩, m, now, now, 0⟩ ∧
    balD ch' self m.symbol.code =
      balD ch self m.symbol.code + Int.tdiv (3 * m.amount) 4 := by
  obtain ⟨hsv, hvalid, hm, hnone, hiss⟩ := create_ok_spec h
  obtain ⟨_, st2, hst2, _, hq0, _, _, hab⟩ := issue_ok_spec hiss
  have hlnew : lookupStats { ch with stats := ch.stats ++
      [⟨⟨0, m.symbol⟩, m, now, now, 0⟩] } m.symbol.code =
      some ⟨⟨0, m.symbol⟩, m, now, now, 0⟩ :=
    lookupStats_append_new hnone
  have hst2' : st2 = ⟨⟨0, m.symbol⟩, m, now, now, 0⟩ := by
    rw [hlnew] at hst2
    injection hst2 with hst2
    exact hst2.symm
  rw [hst2'] at hab
  have hbd := add_balance_balD_same hab
  refine ⟨hnone, hq0, ?_, hbd⟩
  rw [lookupStats_congr (add_balance_fields hab).1,
    lookupStats_setStats_same hlnew rfl]
  simp only [zero_add]

def c9res : Chain := ⟨[1, 2], [(1, ⟨750000, symA⟩)],
  [⟨⟨750000, symA⟩, ⟨1000000, symA⟩, 0, 0, 0⟩], [], []⟩

theorem C9_create_issues_witness :
    Int.tdiv (3 * 1000000) 4 = 750000 ∧
    (lookupStats (initialChain [1, 2]) 65 = none ∧
      0 < Int.tdiv (3 * (1000000 : Int)) 4 ∧
      lookupStats c9res 65 =
        some ⟨⟨Int.tdiv (3 * 1000000) 4, symA⟩, ⟨1000000, symA⟩, 0, 0, 0⟩ ∧
      balD c9res 1 65 = balD (initialChain [1, 2]) 1 65 +
        Int.tdiv (3 * 1000000) 4) :=
  ⟨by decide,
    C9_create_issues (by decide :
      create 0 1 (initialChain [1, 2]) ⟨1000000, symA⟩ = .ok c9res)⟩

/-- C9 counterexample: `max_supply = 1` is a valid positive maximum
supply with no existing stats row, yet `create` aborts (the issued
`(int64_t)(0.75 * 1) = 0` fails `issue`'s positive-quantity assertion)
instead of creating the token. -/
theorem C9_create_counterexample :
    0 < (1 : Int) ∧ assetValid ⟨1, symA⟩ = true ∧
    lookupStats (initialChain [1, 2]) 65 = none ∧
    create 0 1 (initialChain [1, 2]) ⟨1, symA⟩ = .error .issueNotPositive := by
  refine ⟨by decide, by decide, by decide, by decide⟩

/-- C7: (amended) `get_unstaked_balance` is definitionally
`get_balance - get_stake`; and after every successful sequence of
operations in which each maintenance `update` passes the token's symbol
exactly as stored (`OkRun`), the aggregated stake never exceeds the
balance, so the unstaked balance is never negative.  Without the
coherent-`update` proviso the code can strand stake records and drive
the unstaked balance negative — see the counterexample. -/
theorem C7_unstaked_balance {self : Name} {ch ch' : Chain} {l : List Call}
    (hfl : FloatOk l) (hok : OkRun self ch l) (hI : Inv ch)
    (h : runActs self ch l = .ok ch') :
    (∀ (o : Name) (sym : Sym) (b : Asset), get_balance ch' o sym.code = .ok b →
      get_unstaked_balance ch' o sym =
        .ok ⟨b.amount - (get_stake ch' o sym).amount, sym⟩) ∧
    (∀ (o : Name) (sym : Sym),
      0 ≤ balD ch' o sym.code - (get_stake ch' o sym).amount) := by
  have hI' := runActs_preservesInv hfl hok hI h
  constructor
  · intro o sym b hb
    unfold get_unstaked_balance
    rw [hb]
    rfl
  · intro o sym
    cases hfs : findStakeStat ch' sym.code o with
    | none =>
      have hst0 : get_stake ch' o sym = ⟨0, sym⟩ := by
        unfold get_stake
        rw [hfs]
      rw [hst0]
      have hbd : 0 ≤ balD ch' o sym.code := by
        unfold balD
        cases hfb : findBalance ch' o sym.code with
        | none => simp
        | some b =>
          simp only [Option.map, Option.getD]
          exact hI'.1.2.2.2.1 _ (findBalance_mem hfb).1
      dsimp only
      omega
    | some st =>
      have hst1 : get_stake ch' o sym = st.total_stake := by
        unfold get_stake
        rw [hfs]
      rw [hst1]
      have := (statLeBal_lookup hI'.2.2.2.2.1 hfs).2
      omega

/-- The wrong-precision maintenance trace: stake, run `update` with the
right code but precision 0 (deleting the aggregate row while keeping
the records), stake again, then run a correct `update` which rebuilds
the aggregate from both records. -/
def c7l : List Call := [⟨0, 1, 1, .create ⟨1000, symA⟩⟩,
  ⟨1, 1, 1, .transfer 1 2 ⟨200, symA⟩ []⟩,
  ⟨2, 1, 1, .addstake 2 ⟨200, symA⟩ 5⟩,
  ⟨3, 0, 1, .update symA0⟩,
  ⟨4, 1, 1, .addstake 2 ⟨200, symA⟩ 5⟩,
  ⟨5, 0, 1, .update symA⟩]

def c7res : Chain := ⟨[1, 2], [(1, ⟨550, symA⟩), (2, ⟨200, symA⟩)],
  [⟨⟨750, symA⟩, ⟨1000, symA⟩, 0, 0, 0⟩],
  [(2, ⟨0, ⟨200, symA⟩, 2, 5⟩), (2, ⟨1, ⟨200, symA⟩, 4, 5⟩)],
  [(65, ⟨2, ⟨400, symA⟩, 40000⟩)]⟩

/-- C7 counterexample: the trace `c7l` — whose only incoherence is an
`update` called with the stored code but precision 0 — ends with
account 2 holding a balance of 200 and an aggregated stake of 400:
`get_unstaked_balance` returns `-200 < 0`, refuting the unconditional
nonnegativity claim. -/
theorem C7_unstaked_negative_counterexample :
    FloatOk c7l ∧
    runActs 1 (initialChain [1, 2]) c7l = .ok c7res ∧
    get_unstaked_balance c7res 2 symA = .ok ⟨-200, symA⟩ ∧
    balD c7res 2 symA.code - (get_stake c7res 2 symA).amount = -200 := by
  refine ⟨by unfold FloatOk c7l; decide, by decide, by decide, by decide⟩

/-- A coherent staking run used to witness C7: create, transfer,
stake — no maintenance call, so `OkRun` holds trivially. -/
def c7wl : List Call := [⟨0, 1, 1, .create ⟨1000, symA⟩⟩,
  ⟨1, 1, 1, .transfer 1 2 ⟨200, symA⟩ []⟩,
  ⟨2, 1, 1, .addstake 2 ⟨200, symA⟩ 5⟩]

def c7wres : Chain := ⟨[1, 2], [(1, ⟨550, symA⟩), (2, ⟨200, symA⟩)],
  [⟨⟨750, symA⟩, ⟨1000, symA⟩, 0, 0, 0⟩],
  [(2, ⟨0, ⟨200, symA⟩, 2, 5⟩)],
  [(65, ⟨2, ⟨200, symA⟩, 100⟩)]⟩

theorem C7_unstaked_balance_witness :
    FloatOk c7wl ∧
    0 ≤ balD c7wres 2 symA.code - (get_stake c7wres 2 symA).amount := by
  have hok7 : OkRun 1 (initialChain [1, 2]) c7wl :=
    ⟨trivial, fun _ _ => ⟨trivial, fun _ _ => ⟨trivial, fun _ _ => trivial⟩⟩⟩
  exact ⟨by unfold FloatOk c7wl; decide,
    (C7_unstaked_balance (by unfold FloatOk c7wl; decide) hok7
      (initialChain_Inv [1, 2])
      (by decide : runActs 1 (initialChain [1, 2]) c7wl = .ok c7wres)).2 2 symA⟩

/-- C4: (amended) for a successful `transfer(from, to, quantity, memo)`
in which neither `from`, `to` is the contract account and neither is a
staker of the symbol: `from` is debited `quantity + fee` with
`fee = (int64_t)(quantity * 0.01)` (and the success itself certifies
the debit fit inside `from`'s unstaked balance, the `Overdrawn` check);
`to` is credited exactly `quantity`; the stakers' part
`(int64_t)(0.7 * fee)` is handed to `distribute`, which actually
credits some `0 ≤ r ≤ (int64_t)(0.7 * fee)`, and the contract reserve
receives the undistributed remainder `fee - r`.  Without the
distinctness/non-staker provisos the per-account deltas are different —
a `from` who is the sole staker receives part of their own fee back
(see the counterexample). -/
theorem C4_transfer_deltas {self : Name} {ch ch' : Chain} {frm toN : Name}
    {v : Asset} {memo : List Char}
    (hw : wNonneg ch)
    (h : transfer self ch frm toN v memo = .ok ch')
    (hfs : findStakeStat ch v.symbol.code frm = none)
    (hts : findStakeStat ch v.symbol.code toN = none)
    (hfself : ¬frm = self) (htself : ¬toN = self) :
    (v.amount + Int.tdiv v.amount 100 ≤
      balD ch frm v.symbol.code - (get_stake ch frm v.symbol).amount) ∧
    balD ch' frm v.symbol.code =
      balD ch frm v.symbol.code - (v.amount + Int.tdiv v.amount 100) ∧
    balD ch' toN v.symbol.code = balD ch toN v.symbol.code + v.amount ∧
    ∃ r : Int, 0 ≤ r ∧ r ≤ Int.tdiv (7 * Int.tdiv v.amount 100) 10 ∧
      (findStakeStat ch v.symbol.code self = none →
        balD ch' self v.symbol.code = balD ch self v.symbol.code +
          (Int.tdiv v.amount 100 - r)) := by
  obtain ⟨hne, hacct, st, hst, hvalid, hv, hsymst, hmemo, ch1, hsb, hab⟩ :=
    transfer_ok_spec h
  obtain ⟨fromBal, r, ch2, hf, hov, hdist, hrem⟩ := sub_balance_spec hsb
  have hballfrm : balD ch frm v.symbol.code = fromBal.amount := by
    unfold balD
    rw [hf]
    rfl
  have hchDss : (setBalance ch frm v.symbol.code
      ⟨fromBal.amount - (v.amount + Int.tdiv v.amount 100), fromBal.symbol⟩).stakestats
      = ch.stakestats := rfl
  have hwD : ∀ x ∈ stakeStatsFor (setBalance ch frm v.symbol.code
      ⟨fromBal.amount - (v.amount + Int.tdiv v.amount 100), fromBal.symbol⟩)
      v.symbol.code, 0 ≤ x.stake_weight := by
    intro x hx
    rw [stakeStatsFor_congr hchDss] at hx
    exact hw _ (stakeStatsFor_mem hx)
  have hfee0 : 0 ≤ Int.tdiv v.amount 100 := fee_nonneg hv.le
  have hfs0 : 0 ≤ Int.tdiv (7 * Int.tdiv v.amount 100) 10 :=
    tdiv_nonneg (by positivity) (by norm_num)
  have hbound : 0 ≤ r ∧ r ≤ Int.tdiv (7 * Int.tdiv v.amount 100) 10 :=
    distribute_bound hdist hwD hfs0
  have hfee_le : Int.tdiv (7 * Int.tdiv v.amount 100) 10 ≤ Int.tdiv v.amount 100 :=
    seven_tenths_le (fee_nonneg hv.le)
  -- `from`'s row through the chain
  have hD1 : findBalance (setBalance ch frm v.symbol.code
      ⟨fromBal.amount - (v.amount + Int.tdiv v.amount 100), fromBal.symbol⟩)
      frm v.symbol.code =
      some ⟨fromBal.amount - (v.amount + Int.tdiv v.amount 100), fromBal.symbol⟩ :=
    setBalance_find_same hf rfl
  have hD2 := distribute_nonstaker hdist
    (by rw [findStakeStat_congr hchDss]; exact hfs)
  have hD3 : findBalance ch1 frm v.symbol.code =
      findBalance ch2 frm v.symbol.code := by
    rcases hrem with ⟨hp, habr⟩ | ⟨hnp, rfl⟩
    · exact add_balance_find_other habr (fun hx => hfself hx.1)
    · rfl
  have hD4 : findBalance ch' frm v.symbol.code =
      findBalance ch1 frm v.symbol.code :=
    add_balance_find_other hab (fun hx => hne hx.1)
  have hfrm : balD ch' frm v.symbol.code =
      fromBal.amount - (v.amount + Int.tdiv v.amount 100) := by
    unfold balD
    rw [hD4, hD3, hD2, hD1]
    rfl
  -- `to`'s row through the chain
  have hT0 : findBalance (setBalance ch frm v.symbol.code
      ⟨fromBal.amount - (v.amount + Int.tdiv v.amount 100), fromBal.symbol⟩)
      toN v.symbol.code = findBalance ch toN v.symbol.code :=
    setBalance_find_other hf rfl (fun hx => hne hx.1.symm)
  have hT1 := distribute_nonstaker hdist
    (by rw [findStakeStat_congr hchDss]; exact hts)
  have hT2 : findBalance ch1 toN v.symbol.code =
      findBalance ch2 toN v.symbol.code := by
    rcases hrem with ⟨hp, habr⟩ | ⟨hnp, rfl⟩
    · exact add_balance_find_other habr (fun hx => htself hx.1)
    · rfl
  have htoN : balD ch' toN v.symbol.code =
      balD ch toN v.symbol.code + v.amount := by
    have hsame := add_balance_balD_same hab
    have hpre : balD ch1 toN v.symbol.code = balD ch toN v.symbol.code := by
      unfold balD
      rw [hT2, hT1, hT0]
    rw [← hpre]
    exact hsame
  refine ⟨by omega, by omega, htoN, r, hbound.1, hbound.2, ?_⟩
  -- the reserve's row through the chain
  intro hss
  have hS0 : findBalance (setBalance ch frm v.symbol.code
      ⟨fromBal.amount - (v.amount + Int.tdiv v.amount 100), fromBal.symbol⟩)
      self v.symbol.code = findBalance ch self v.symbol.code :=
    setBalance_find_other hf rfl (fun hx => hfself hx.1.symm)
  have hS1 := distribute_nonstaker hdist
    (by rw [findStakeStat_congr hchDss]; exact hss)
  have hS2 : balD ch2 self v.symbol.code = balD ch self v.symbol.code := by
    unfold balD
    rw [hS1, hS0]
  have hS3 : balD ch1 self v.symbol.code = balD ch self v.symbol.code +
      (Int.tdiv v.amount 100 - r) := by
    rcases hrem with ⟨hp, habr⟩ | ⟨hnp, rfl⟩
    · have := add_balance_balD_same habr
      rw [hS2] at this
      exact this
    · rw [hS2]
      omega
  have hS4 : balD ch' self v.symbol.code = balD ch1 self v.symbol.code := by
    unfold balD
    rw [add_balance_find_other hab (fun hx => htself hx.1.symm)]
  rw [hS4, hS3]

def c4cch : Chain := ⟨[1, 2, 3],
  [(2, ⟨2000, symA⟩), (3, ⟨0, symA⟩)],
  [⟨⟨2000, symA⟩, ⟨100000, symA⟩, 0, 0, 0⟩], [],
  [(65, ⟨2, ⟨500, symA⟩, 50⟩)]⟩

def c4cr : Chain := ⟨[1, 2, 3],
  [(2, ⟨997, symA⟩), (3, ⟨1000, symA⟩), (1, ⟨3, symA⟩)],
  [⟨⟨2000, symA⟩, ⟨100000, symA⟩, 0, 0, 0⟩], [],
  [(65, ⟨2, ⟨500, symA⟩, 50⟩)]⟩

/-- C4 counterexample: when `from` is the sole staker of the symbol the
claimed unconditional delta fails — transferring 1000 debits
`from` 1010 but `distribute` immediately credits the whole stakers'
part 7 back to `from`, so `from`'s balance falls by 1003, not
`quantity + fee = 1010`. -/
theorem C4_transfer_deltas_counterexample :
    transfer 1 c4cch 2 3 ⟨1000, symA⟩ [] = .ok c4cr ∧
    balD c4cch 2 65 = 2000 ∧ balD c4cr 2 65 = 997 ∧
    ¬(997 : Int) = 2000 - (1000 + Int.tdiv 1000 100) := by
  refine ⟨by decide, by decide, by decide, by decide⟩

def c4wch : Chain := ⟨[1, 2, 3, 4],
  [(2, ⟨2000, symA⟩), (3, ⟨0, symA⟩), (4, ⟨100, symA⟩)],
  [⟨⟨2100, symA⟩, ⟨100000, symA⟩, 0, 0, 0⟩], [],
  [(65, ⟨4, ⟨100, symA⟩, 50⟩)]⟩

def c4wr : Chain := ⟨[1, 2, 3, 4],
  [(2, ⟨990, symA⟩), (3, ⟨1000, symA⟩), (4, ⟨107, symA⟩), (1, ⟨3, symA⟩)],
  [⟨⟨2100, symA⟩, ⟨100000, symA⟩, 0, 0, 0⟩], [],
  [(65, ⟨4, ⟨100, symA⟩, 50⟩)]⟩

theorem C4_transfer_deltas_witness :
    (balD c4wr 2 65 = balD c4wch 2 65 - (1000 + Int.tdiv 1000 100) ∧
      balD c4wr 3 65 = balD c4wch 3 65 + 1000 ∧
      ∃ r : Int, 0 ≤ r ∧ r ≤ Int.tdiv (7 * Int.tdiv 1000 100) 10 ∧
        (findStakeStat c4wch 65 1 = none →
          balD c4wr 1 65 = balD c4wch 1 65 + (Int.tdiv 1000 100 - r))) ∧
    balD c4wr 4 65 = 107 ∧ balD c4wr 1 65 = 3 := by
  have hmain := C4_transfer_deltas (by unfold wNonneg c4wch; decide)
    (by decide : transfer 1 c4wch 2 3 ⟨1000, symA⟩ [] = .ok c4wr)
    (by decide) (by decide) (by decide) (by decide)
  exact ⟨⟨hmain.2.1, hmain.2.2.1, hmain.2.2.2⟩, by decide, by decide⟩

end AlphaToken
